import Mathlib

/-!
Verification development for the gramble multi-tape recursive state machine
(`src/parser/stateMachine.py`, `src/parser/src/tapes.py`, `src/parser/src/util.py`).

Modelling conventions:
* `BitSet` (a fixed-width `bitarray` of `MAX_NUM_CHARS = 32` bits in the source)
  is modelled as `Finset (Fin 32)`: `&` is `∩`, `& ~` is `\`, `~BitSet(32)` is
  `univ`, `any()` is nonemptiness.
* Python strings are `List Char`; Python dicts are association lists with
  Python-dict update/insertion-order semantics (`dictUpd`, `dictGet`).
* A Python exception (`TapeError`, the `TypeError` raised by
  `list(TrivialState.ndQuery(...))`, `IndexError` on vocabulary overflow past
  32 characters, `AttributeError` on a missing `_tapes`) is modelled as `none`
  in an `Option` result.
* The two vocabulary dictionaries `strToIndex` / `indexToStr` of `StringTape`
  are kept in sync by `registerToken` (which always appends at index
  `len(strToIndex)`), so the pair is modelled as a single `List Char` `vocab`
  with `strToIndex.get c = vocab.idxOf? c` and `indexToStr.get i = vocab.get? i`.
  Because both dictionaries are *mutable default arguments* of
  `StringTape.__init__`, every `StringTape` built without explicit arguments
  (in particular every tape `TapeCollection.tokenize` creates) aliases the one
  module-level pair; the model therefore threads a single shared `vocab`
  through all tapes and through `generate`.
-/

namespace StateMachine

/-- MAX_NUM_CHARS from tapes.py. -/
def MAX_NUM_CHARS : Nat := 32

/-- BitSet of width MAX_NUM_CHARS (util.py wraps `bitarray`; all bitsets that
flow through queries have width 32). -/
abbrev BitSet := Finset (Fin 32)

/-- Token from tapes.py: a bit set over one tape's alphabet. -/
structure Token where
  bits : BitSet
deriving DecidableEq

/-- Token.and_ : bitwise AND. -/
def Token.and_ (t other : Token) : Token := ⟨t.bits ∩ other.bits⟩

/-- Token.andNot : bitwise AND with the complement. -/
def Token.andNot (t other : Token) : Token := ⟨t.bits \ other.bits⟩

/-- Token.isEmpty : no bit set. -/
def Token.isEmpty (t : Token) : Bool := t.bits = ∅

/-- ANY_CHAR = Token(~BitSet(MAX_NUM_CHARS)) : all 32 bits set. -/
def ANY_CHAR : Token := ⟨Finset.univ⟩

/-- NO_CHAR = Token(BitSet()) : the empty bit set. -/
def NO_CHAR : Token := ⟨∅⟩

/-! Shared vocabulary primitives of `StringTape` (tapes.py).

`registerToken` appends the new character at index `len(strToIndex)`. -/

/-- StringTape.registerToken: register `c` at the next free index, returning
the updated shared vocabulary. -/
def registerToken (vocab : List Char) (c : Char) : List Char := vocab ++ [c]

/-- Python `strToIndex.get(c)`: the registered index of `c`, or `none`. -/
def strToIndexGet (vocab : List Char) (c : Char) : Option Nat :=
  if c ∈ vocab then some (vocab.indexOf c) else none

/-- The body of `StringTape.toBits` after the tape-name guard: a one-hot bit
set if `char` is registered, the empty set otherwise.  Setting a bit at an
index `≥ 32` raises `IndexError` in the source (`result[index] = 1` on a
32-bit `bitarray`), modelled as `none`. -/
def toBitsRaw (vocab : List Char) (char : Char) : Option BitSet :=
  match strToIndexGet vocab char with
  | none => some ∅
  | some index => if h : index < 32 then some ({⟨index, h⟩} : BitSet) else none

/-- StringTape.toBits (tapes.py): guarded by the tape-name check, which raises
`TapeError` on mismatch. -/
def StringTape.toBits (selfName : String) (vocab : List Char) (tapeName : String)
    (char : Char) : Option BitSet :=
  if tapeName ≠ selfName then none else toBitsRaw vocab char

/-- Loop body of `StringTape.fromBits`: `for i in range(len(bits))` over the 32
indices in ascending order; at a set bit whose index has no registered
character the loop `break`s, otherwise the character is appended. -/
def fromBitsGo (vocab : List Char) (bits : BitSet) : Nat → Nat → List Char
  | _, 0 => []
  | i, fuel + 1 =>
    if h : i < 32 then
      if (⟨i, h⟩ : Fin 32) ∈ bits then
        match vocab.get? i with
        | none => []
        | some c => c :: fromBitsGo vocab bits (i + 1) fuel
      else fromBitsGo vocab bits (i + 1) fuel
    else []

/-- The body of `StringTape.fromBits` after the tape-name guard. -/
def fromBitsRaw (vocab : List Char) (bits : BitSet) : List Char :=
  fromBitsGo vocab bits 0 32

/-- StringTape.fromBits (tapes.py), with the tape-name guard. -/
def StringTape.fromBits (selfName : String) (vocab : List Char) (tapeName : String)
    (bits : BitSet) : Option (List Char) :=
  if tapeName ≠ selfName then none else some (fromBitsRaw vocab bits)

/-- Loop body of `StringTape.tokenize`: for each character, register it if it
is absent, then turn it into a one-hot token via `toBits`. -/
def tokenizeGo (vocab : List Char) : List Char → Option (List Token × List Char)
  | [] => some ([], vocab)
  | c :: cs => do
    let vocab' := if (strToIndexGet vocab c).isSome then vocab else registerToken vocab c
    let bits ← toBitsRaw vocab' c
    let (toks, vocab'') ← tokenizeGo vocab' cs
    pure (⟨bits⟩ :: toks, vocab'')

/-- StringTape.tokenize (tapes.py), with the tape-name guard. -/
def StringTape.tokenize (selfName : String) (vocab : List Char) (tapeName : String)
    (text : List Char) : Option (List Token × List Char) :=
  if tapeName ≠ selfName then none else tokenizeGo vocab text

/-! The `Tape` hierarchy.  Only the two shapes that claims exercise exist in
the reachable flows: a `StringTape` (one name plus the shared vocabulary) and
a `TapeCollection` (a list of registered tape names plus the shared
vocabulary; every member `StringTape` aliases the same vocabulary because of
the mutable-default-argument sharing).  `RenamedTape` and `FlagTape` are not
used by any claim and are not modelled. -/

inductive Tape where
  | collection (names : List String) (vocab : List Char)
  | stringTape (name : String) (vocab : List Char)
deriving DecidableEq

/-- Tape.numTapes: a StringTape is 1 tape; a TapeCollection counts its
members. -/
def Tape.numTapes : Tape → Nat
  | .collection names _ => names.length
  | .stringTape _ _ => 1

/-- Tape.tapeName: a TapeCollection answers with a sentinel. -/
def Tape.tapeName : Tape → String
  | .collection names _ => if names.isEmpty then "__NO_TAPE__" else "__ANY_TAPE__"
  | .stringTape n _ => n

/-- Tape.matchTape: a StringTape matches only its own name; a TapeCollection
returns the member tape registered under the requested name. -/
def Tape.matchTape : Tape → String → Option Tape
  | .collection names vocab, n => if n ∈ names then some (.stringTape n vocab) else none
  | .stringTape n vocab, n' => if n' = n then some (.stringTape n vocab) else none

/-- StringTape.any: `Token(~BitSet(MAX_NUM_CHARS))`, all 32 bits.
(On a TapeCollection `any` is inherited from `Tape` and raises
`NotImplementedError`; it is never called on one.) -/
def Tape.anyToken : Tape → Option Token
  | .collection _ _ => none
  | .stringTape _ _ => some ⟨Finset.univ⟩

/-- StringTape.match: the intersection of two tokens.  (Never called on a
TapeCollection, where it would raise `NotImplementedError`.) -/
def Tape.matchToken : Tape → Token → Token → Option Token
  | .collection _ _, _, _ => none
  | .stringTape _ _, t1, t2 => some (t1.and_ t2)

/-- Tape.fromBits: a TapeCollection routes to the member tape of that name
(raising `TapeError` when absent); a StringTape checks the name guard. -/
def Tape.fromBits : Tape → String → BitSet → Option (List Char)
  | .collection names vocab, n, bits =>
    if n ∈ names then StringTape.fromBits n vocab n bits else none
  | .stringTape n vocab, n', bits => StringTape.fromBits n vocab n' bits

/-- TapeCollection.tokenize: create the member StringTape on first use of a
name (sharing the one vocabulary), then tokenize on it. -/
def TapeCollection.tokenize (names : List String) (vocab : List Char)
    (tapeName : String) (text : List Char) :
    Option (List Token × List String × List Char) := do
  let names' := if tapeName ∈ names then names else names ++ [tapeName]
  let (toks, vocab') ← StringTape.tokenize tapeName vocab tapeName text
  pure (toks, names', vocab')

/-! Python-dict primitives: lookup, and update with dict semantics (an
existing key keeps its position and gets the new value; a new key is
appended). -/

/-- Lookup in an association list, i.e. `d.get(k)`. -/
def dictGet {α : Type} (l : List (String × α)) (k : String) : Option α :=
  (l.find? (fun p => p.1 = k)).map Prod.snd

/-- Python `d[k] = v`: replace in place if present, else append. -/
def dictUpd {α : Type} (l : List (String × α)) (k : String) (v : α) :
    List (String × α) :=
  if l.any (fun p => p.1 = k) then
    l.map (fun p => if p.1 = k then (k, v) else p)
  else l ++ [(k, v)]

/-- CounterStack (stateMachine.py): a persistent per-symbol counter with a
shared ceiling. -/
structure CounterStack where
  max : Nat
  stack : List (String × Nat)
deriving DecidableEq

/-- CounterStack(max) : fresh counter with empty stack. -/
def CounterStack.init (max : Nat) : CounterStack := ⟨max, []⟩

/-- CounterStack.get: `self.stack.get(key, 0)`. -/
def CounterStack.get (c : CounterStack) (key : String) : Nat :=
  (dictGet c.stack key).getD 0

/-- CounterStack.add: build a new dict `{key: 0}`, `update` it with the old
stack (overwriting the 0 when `key` is present), then increment `key`. -/
def CounterStack.add (c : CounterStack) (key : String) : CounterStack :=
  let base : List (String × Nat) := [(key, 0)]
  let merged := c.stack.foldl (fun d p => dictUpd d p.1 p.2) base
  ⟨c.max, merged.map (fun p => if p.1 = key then (p.1, p.2 + 1) else p)⟩

/-- CounterStack.exceedsMax: `self.get(key) >= self.max`. -/
def CounterStack.exceedsMax (c : CounterStack) (key : String) : Bool :=
  c.max ≤ c.get key

/-! The `State` hierarchy (stateMachine.py).

The `literal` constructor mirrors `LiteralState`: the stored `_tapes`
reference is modelled by the flag `collected` plus the convention that the
alias always denotes the one queried collection (all default-constructed
tapes share the single vocabulary, and `collectVocab` stores the very
collection that `generate` later passes to every query), so `_successor`
decodes through the matched tape; `collected = false` models `_tapes is
None`, where `_successor` would raise `AttributeError`.

The `join` constructor is Modelled from the spec: `JoinState` is referenced
by the tests (`test_join.py`, `test_dot.py`) but absent from the source
excerpt; its `accepting` and `ndQuery` below follow spec section 4.7. -/

inductive State where
  | literal (tapeName : String) (text : List Char) (tokens : List Token) (collected : Bool)
  | anyChar (tapeName : String)
  | trivial
  | concat (child1 child2 : State)
  | union (child1 child2 : State)
  | join (child1 child2 : State)
deriving DecidableEq

/-- Lit (stateMachine.py): `LiteralState(tier, text)` with the default empty
token list and no tape reference yet. -/
def Lit (tier : String) (text : List Char) : State := .literal tier text [] false

/-- State.accepting: `LiteralState` accepts when its token list is empty;
`TrivialState` always accepts; `BinaryState` (Concat) needs both children;
`UnionState` needs either child; `AnyCharState` uses the `State` default
(false).  Join follows the spec (both children). -/
def State.accepting (s : State) (stk : CounterStack) : Bool :=
  match s with
  | .literal _ _ tokens _ => tokens.isEmpty
  | .anyChar _ => false
  | .trivial => true
  | .concat c1 c2 => c1.accepting stk && c2.accepting stk
  | .union c1 c2 => c1.accepting stk || c2.accepting stk
  | .join c1 c2 => c1.accepting stk && c2.accepting stk

/-- One transition yielded by `ndQuery`/`dQuery`: the 4-tuple
`(tape, match, matched, nextState)`. -/
structure QueryResult where
  tape : Tape
  token : Token
  matched : Bool
  next : State
deriving DecidableEq

/-- The inner loop of `State.dQuery` over the accumulated `results`, for one
incoming transition with tape `t`, flag `m` and successor `n`, carrying the
shrinking `bits`.  Per old entry: a different tape name is kept unchanged;
otherwise the intersection (when non-empty) is emitted with the OR of the
flags and a `UnionState(new, old)` successor, both bit sets lose the
intersection, and the reduced old entry is kept when non-empty. -/
def dqFold (t : Tape) (m : Bool) (n : State) :
    List QueryResult → BitSet → List QueryResult × BitSet
  | [], bits => ([], bits)
  | r :: rest, bits =>
    if t.tapeName ≠ r.tape.tapeName then
      let (tl, bits') := dqFold t m n rest bits
      (r :: tl, bits')
    else
      let inter : BitSet := bits ∩ r.token.bits
      let first : List QueryResult :=
        if ¬ inter = ∅ then [⟨t, ⟨inter⟩, m || r.matched, .union n r.next⟩] else []
      let bits1 : BitSet := bits \ inter
      let oBits : BitSet := r.token.bits \ inter
      let second : List QueryResult :=
        if ¬ oBits = ∅ then [⟨r.tape, ⟨oBits⟩, r.matched, r.next⟩] else []
      let (tl, bits') := dqFold t m n rest bits1
      (first ++ second ++ tl, bits')

/-- One step of the `dQuery` accumulation: a no-tape transition is passed
through unchanged; otherwise the incoming transition is folded against the
accumulator and its remaining bits are appended when non-empty. -/
def determinizeStep (acc : List QueryResult) (r : QueryResult) : List QueryResult :=
  if r.tape.numTapes = 0 then acc ++ [r]
  else
    let (newResults, bits') := dqFold r.tape r.matched r.next acc r.token.bits
    if ¬ bits' = ∅ then newResults ++ [⟨r.tape, ⟨bits'⟩, r.matched, r.next⟩] else newResults

/-- The whole `dQuery` rearrangement over the list produced by `ndQuery`. -/
def determinize (l : List QueryResult) : List QueryResult :=
  l.foldl determinizeStep []

/-- LiteralState._successor: drop the first token; the new text is the old
text minus the decoding of the consumed token (`fromBits` through the stored
collection, modelled through the matched tape, whose vocabulary is the same
shared one).  `collected = false` means `self._tapes is None`, so the
attribute access raises (`none`). -/
def literalSuccessor (tapeName : String) (text : List Char) (tok : Token)
    (rest : List Token) (collected : Bool) (matchedTape : Tape) : Option State :=
  if collected then do
    let firstText ← matchedTape.fromBits tapeName tok.bits
    pure (.literal tapeName (text.drop firstText.length) rest collected)
  else none

/-- State.ndQuery (stateMachine.py).

`TextState.ndQuery` (literal, anyChar): a failed `matchTape` yields the stay
transition `(tape, target, False, self)`; an accepting state yields nothing;
otherwise the first token is matched against the target and the successor is
yielded.

`TrivialState.ndQuery` contains no `yield`, so the Python function returns
`None` and `dQuery`'s `list(self.ndQuery(...))` raises `TypeError`: `none`.

`ConcatState.ndQuery`: matched child1 transitions are wrapped as
`Concat(next, child2)`; for each unmatched child1 transition all child2
transitions are yielded wrapped as `Concat(child1, next2)` (setting
`yieldedAlready` whenever at least one such transition exists); finally, if
nothing was yielded through child2 and child1 accepts, child2's transitions
are yielded as-is.

`UnionState.ndQuery`: child1's then child2's `dQuery` results.

`JoinState.ndQuery` is Modelled from the spec (section 4.7): both children
are queried with the same tape and target; for each pair of results, two
matches on the same tape yield the non-empty intersection with
`Join(n1, n2)`; a match paired with a stay advances the matching child and
holds the other; two stays propagate a stay.  (A pair matched on two
different tapes falls under no spec rule and yields nothing.) -/
def State.ndQuery (s : State) (tape : Tape) (target : Token) (stk : CounterStack) :
    Option (List QueryResult) :=
  match s with
  | .trivial => none
  | .literal tapeName text tokens collected =>
    match tape.matchTape tapeName with
    | none => some [⟨tape, target, false, s⟩]
    | some matchedTape =>
      match tokens with
      | [] => some []
      | tok :: rest => do
        let result ← matchedTape.matchToken tok target
        let nextState ← literalSuccessor tapeName text tok rest collected matchedTape
        pure [⟨matchedTape, result, true, nextState⟩]
  | .anyChar tapeName =>
    match tape.matchTape tapeName with
    | none => some [⟨tape, target, false, s⟩]
    | some matchedTape => do
      let bits ← matchedTape.anyToken
      let result ← matchedTape.matchToken bits target
      pure [⟨matchedTape, result, true, .trivial⟩]
  | .concat c1 c2 => do
    let rs1 ← (c1.ndQuery tape target stk).map determinize
    if rs1.any (fun r => !r.matched) then do
      let rs2 ← (c2.ndQuery tape target stk).map determinize
      let part := rs1.flatMap (fun r =>
        if r.matched then [⟨r.tape, r.token, r.matched, .concat r.next c2⟩]
        else rs2.map (fun r2 => ⟨r2.tape, r2.token, r2.matched, .concat c1 r2.next⟩))
      if rs2.isEmpty && c1.accepting stk then
        pure (part ++ rs2)
      else pure part
    else
      let part := rs1.map (fun r => ⟨r.tape, r.token, r.matched, .concat r.next c2⟩)
      if c1.accepting stk then do
        let rs2 ← (c2.ndQuery tape target stk).map determinize
        pure (part ++ rs2)
      else pure part
  | .union c1 c2 => do
    let rs1 ← (c1.ndQuery tape target stk).map determinize
    let rs2 ← (c2.ndQuery tape target stk).map determinize
    pure (rs1 ++ rs2)
  | .join c1 c2 => do
    let rs1 ← (c1.ndQuery tape target stk).map determinize
    let rs2 ← (c2.ndQuery tape target stk).map determinize
    pure (rs1.flatMap (fun r1 => rs2.filterMap (fun r2 =>
      if r1.matched && r2.matched then
        if r1.tape.tapeName = r2.tape.tapeName then
          let inter : BitSet := r1.token.bits ∩ r2.token.bits
          if ¬ inter = ∅ then some ⟨r1.tape, ⟨inter⟩, true, .join r1.next r2.next⟩
          else none
        else none
      else if r1.matched then some ⟨r1.tape, r1.token, true, .join r1.next r2.next⟩
      else if r2.matched then some ⟨r2.tape, r2.token, true, .join r1.next r2.next⟩
      else some ⟨tape, target, false, .join r1.next r2.next⟩)))

/-- State.dQuery: hand the query to `ndQuery`, then combine the results so
that transitions on the same tape are disjoint. -/
def State.dQuery (s : State) (tape : Tape) (target : Token) (stk : CounterStack) :
    Option (List QueryResult) :=
  (s.ndQuery tape target stk).map determinize

/-! Output tries (tapes.py): `SingleTapeOutput` and `MultiTapeOutput`. -/

/-- SingleTapeOutput: an immutable node `(tape, token, prev)` of a
reverse-linked output chain. -/
inductive SingleTapeOutput where
  | node (tape : Tape) (token : Token) (prev : Option SingleTapeOutput)

/-- Boolean equality for the nested inductive `SingleTapeOutput`. -/
def SingleTapeOutput.beq : SingleTapeOutput → SingleTapeOutput → Bool
  | .node t1 k1 none, .node t2 k2 none => decide (t1 = t2) && decide (k1 = k2)
  | .node t1 k1 (some p1), .node t2 k2 (some p2) =>
    decide (t1 = t2) && decide (k1 = k2) && p1.beq p2
  | _, _ => false

theorem SingleTapeOutput.beq_iff :
    ∀ a b : SingleTapeOutput, a.beq b = true ↔ a = b
  | .node t1 k1 none, .node t2 k2 none => by
    simp [SingleTapeOutput.beq]
  | .node t1 k1 (some p1), .node t2 k2 (some p2) => by
    simp [SingleTapeOutput.beq, SingleTapeOutput.beq_iff p1 p2, and_assoc]
  | .node t1 k1 none, .node t2 k2 (some p2) => by
    simp [SingleTapeOutput.beq]
  | .node t1 k1 (some p1), .node t2 k2 none => by
    simp [SingleTapeOutput.beq]

instance : DecidableEq SingleTapeOutput := fun a b =>
  decidable_of_iff (a.beq b = true) (SingleTapeOutput.beq_iff a b)

/-- SingleTapeOutput.getStrings: decode each prefix from `prev` (base case a
single empty string), then append each character decoded from this node's
token (`self._tape.fromBits(self._tape.tapeName, self._token.bits)`). -/
def SingleTapeOutput.getStrings : SingleTapeOutput → Option (List (List Char))
  | .node tape token prev => do
    let prevStrings ← match prev with
      | none => some [([] : List Char)]
      | some p => p.getStrings
    let cs ← tape.fromBits tape.tapeName token.bits
    pure (prevStrings.flatMap (fun s => cs.map (fun c => s ++ [c])))

/-- One output record `{ tapeName: string }`. -/
abbrev StringDict := List (String × List Char)

/-- MultiTapeOutput: a map from tape name to that tape's output chain. -/
structure MultiTapeOutput where
  singleTapeOutputs : List (String × SingleTapeOutput)
deriving DecidableEq

/-- The empty MultiTapeOutput. -/
def MultiTapeOutput.empty : MultiTapeOutput := ⟨[]⟩

/-- MultiTapeOutput.add (tapes.py): a tape with `numTapes == 0` is a no-op
returning the receiver itself; otherwise the map is copied with the entry for
`tape.tapeName` replaced by a new SingleTapeOutput chained onto the previous
entry, all other entries shared. -/
def MultiTapeOutput.add (m : MultiTapeOutput) (tape : Tape) (token : Token) :
    MultiTapeOutput :=
  if tape.numTapes = 0 then m
  else
    let prev := dictGet m.singleTapeOutputs tape.tapeName
    ⟨dictUpd m.singleTapeOutputs tape.tapeName (.node tape token prev)⟩

/-- MultiTapeOutput.toStrings: starting from the one empty record, for each
tape (in map order), for each decoded string `s` of that tape, for each record
so far, extend the record with `tapeName: s`. -/
def MultiTapeOutput.toStrings (m : MultiTapeOutput) : Option (List StringDict) :=
  m.singleTapeOutputs.foldlM
    (fun results p => do
      let strs ← p.2.getStrings
      pure (strs.flatMap (fun s => results.map (fun r => dictUpd r p.1 s))))
    [([] : StringDict)]

/-! `collectVocab` and the generator driver (stateMachine.py). -/

/-- State.collectVocab: `LiteralState` tokenizes its text on the collection
(creating the tape on first use) and stores the resulting tokens plus the
collection alias (the flag `collected`); `BinaryState` forwards to both
children (the spec extends this to Join); the `State` default (anyChar,
trivial) is a no-op. -/
def collectVocab : State → List String → List Char →
    Option (State × List String × List Char)
  | .literal tapeName text _ _, names, vocab => do
    let (toks, names', vocab') ← TapeCollection.tokenize names vocab tapeName text
    pure (.literal tapeName text toks true, names', vocab')
  | .anyChar t, names, vocab => some (.anyChar t, names, vocab)
  | .trivial, names, vocab => some (.trivial, names, vocab)
  | .concat c1 c2, names, vocab => do
    let (c1', names1, vocab1) ← collectVocab c1 names vocab
    let (c2', names2, vocab2) ← collectVocab c2 names1 vocab1
    pure (.concat c1' c2', names2, vocab2)
  | .union c1 c2, names, vocab => do
    let (c1', names1, vocab1) ← collectVocab c1 names vocab
    let (c2', names2, vocab2) ← collectVocab c2 names1 vocab1
    pure (.union c1' c2', names2, vocab2)
  | .join c1 c2, names, vocab => do
    let (c1', names1, vocab1) ← collectVocab c1 names vocab
    let (c2', names2, vocab2) ← collectVocab c2 names1 vocab1
    pure (.join c1' c2', names2, vocab2)

/-- The per-entry acceptance emission of the driver loop. -/
def acceptOutputs (stk : CounterStack) (out : MultiTapeOutput) (st : State) :
    Option (List StringDict) :=
  if st.accepting stk then out.toStrings else some []

/-- The per-entry successor construction of the driver loop: matched
transitions extend the output and are enqueued; unmatched ones only provoke
a warning and are dropped. -/
def matchedSuccessors (out : MultiTapeOutput) (rs : List QueryResult) :
    List (MultiTapeOutput × State) :=
  rs.filterMap (fun r =>
    if r.matched then some (out.add r.tape r.token, r.next) else none)

/-- One iteration of the driver's while loop over the whole queue: the
accepted outputs in queue order, and the next queue. -/
def genStep (tapes : Tape) (stk : CounterStack)
    (queue : List (MultiTapeOutput × State)) :
    Option (List StringDict × List (MultiTapeOutput × State)) := do
  let results ← queue.mapM (fun p => do
    let outs ← acceptOutputs stk p.1 p.2
    let rs ← p.2.dQuery tapes ANY_CHAR stk
    pure (outs, matchedSuccessors p.1 rs))
  pure ((results.map Prod.fst).flatten, (results.map Prod.snd).flatten)

/-- The driver's while loop, `while len(stateQueue) > 0 and chars < maxChars`,
with `fuel = maxChars - chars`.  Besides the emitted records (`none` on a
raised exception) it returns the number of iterations executed and the queue
at which the loop stopped. -/
def generateAux (tapes : Tape) (stk : CounterStack) :
    List (MultiTapeOutput × State) → Nat →
    Option (List StringDict) × Nat × List (MultiTapeOutput × State)
  | q, 0 => (some [], 0, q)
  | q, fuel + 1 =>
    if q.isEmpty then (some [], 0, q)
    else
      match genStep tapes stk q with
      | none => (none, 1, q)
      | some (outs, nq) =>
        match generateAux tapes stk nq fuel with
        | (none, n, fq) => (none, n + 1, fq)
        | (some rest, n, fq) => (some (outs ++ rest), n + 1, fq)

/-- State.generate (stateMachine.py): collect the vocabulary into a fresh
TapeCollection, then run the breadth-first loop from
`[(empty output, self)]` with a fresh CounterStack.  The shared vocabulary
(the mutable default dictionaries of `StringTape`) is an explicit input and
output, since it persists across calls. -/
def State.generate (s : State) (maxRecursion : Nat) (maxChars : Nat)
    (vocab0 : List Char) : Option (List StringDict × List Char) := do
  let (s', names, vocab) ← collectVocab s [] vocab0
  let allTapes : Tape := .collection names vocab
  let (outs, _, _) :=
    generateAux allTapes (CounterStack.init maxRecursion) [(MultiTapeOutput.empty, s')] maxChars
  let outs' ← outs
  pure (outs', vocab)

/-- StateError (stateMachine.py). -/
structure StateError where
  msg : String
deriving DecidableEq

/-- Seq (stateMachine.py): error on no children, the child itself on one,
otherwise a right fold into binary Concats. -/
def Seq : List State → Except StateError State
  | [] => .error ⟨"Sequences must have at least 1 child"⟩
  | [c] => .ok c
  | c :: c2 :: cs => do
    let rest ← Seq (c2 :: cs)
    pure (.concat c rest)

/-- Uni (stateMachine.py): error on no children, the child itself on one,
otherwise a right fold into binary Unions. -/
def Uni : List State → Except StateError State
  | [] => .error ⟨"Unions must have at least 1 child"⟩
  | [c] => .ok c
  | c :: c2 :: cs => do
    let rest ← Uni (c2 :: cs)
    pure (.union c rest)

/-! Lemmas about the dictionary primitives. -/

theorem dictGet_nil {α : Type} (k : String) : dictGet ([] : List (String × α)) k = none := rfl

theorem dictGet_cons {α : Type} (p : String × α) (l : List (String × α)) (k : String) :
    dictGet (p :: l) k = if p.1 = k then some p.2 else dictGet l k := by
  by_cases h : p.1 = k <;> simp [dictGet, List.find?, h]

theorem dictGet_append {α : Type} (l1 l2 : List (String × α)) (k : String) :
    dictGet (l1 ++ l2) k =
      match dictGet l1 k with
      | some v => some v
      | none => dictGet l2 k := by
  induction l1 with
  | nil => simp [dictGet]
  | cons a l ih =>
    rw [List.cons_append, dictGet_cons, dictGet_cons]
    by_cases ha : a.1 = k <;> simp [ha, ih]

theorem dictGet_mapSet {α : Type} (l : List (String × α)) (k k' : String) (v : α) :
    dictGet (l.map (fun p => if p.1 = k then (k, v) else p)) k' =
      if k' = k then (dictGet l k).map (fun _ => v) else dictGet l k' := by
  induction l with
  | nil => by_cases h : k' = k <;> simp [dictGet, h]
  | cons a l ih =>
    rw [List.map_cons]
    by_cases hk : k' = k
    · subst hk
      by_cases ha : a.1 = k' <;> simp [dictGet_cons, ha, ih]
    · by_cases ha : a.1 = k
      · have hne : ¬ (k : String) = k' := fun hh => hk hh.symm
        have hne2 : ¬ a.1 = k' := fun hh => hk (hh ▸ ha)
        simp [dictGet_cons, ha, hne, hne2, ih, hk]
      · simp [dictGet_cons, ha, ih, hk]

theorem dictGet_mapIncr (l : List (String × Nat)) (k k' : String) :
    dictGet (l.map (fun p => if p.1 = k then (p.1, p.2 + 1) else p)) k' =
      if k' = k then (dictGet l k).map (fun n => n + 1) else dictGet l k' := by
  induction l with
  | nil => by_cases h : k' = k <;> simp [dictGet, h]
  | cons a l ih =>
    rw [List.map_cons]
    by_cases hk : k' = k
    · subst hk
      by_cases ha : a.1 = k' <;> simp [dictGet_cons, ha, ih]
    · by_cases ha : a.1 = k
      · have hne : ¬ (k : String) = k' := fun hh => hk hh.symm
        have hne2 : ¬ a.1 = k' := fun hh => hk (hh ▸ ha)
        simp [dictGet_cons, ha, hne, hne2, ih, hk]
      · simp [dictGet_cons, ha, ih, hk]

theorem dictAny_eq_isSome {α : Type} (l : List (String × α)) (k : String) :
    (l.any (fun p => p.1 = k)) = (dictGet l k).isSome := by
  induction l with
  | nil => simp [dictGet]
  | cons a l ih =>
    rw [List.any_cons, dictGet_cons]
    by_cases ha : a.1 = k <;> simp [ha, ih]

theorem dictGet_dictUpd_self {α : Type} (l : List (String × α)) (k : String) (v : α) :
    dictGet (dictUpd l k v) k = some v := by
  unfold dictUpd
  by_cases hl : l.any (fun p => p.1 = k)
  · rw [if_pos hl, dictGet_mapSet, if_pos rfl]
    have hsome : (dictGet l k).isSome := by rw [← dictAny_eq_isSome, hl]
    cases hg : dictGet l k with
    | none => rw [hg] at hsome; simp at hsome
    | some w => simp
  · rw [if_neg hl, dictGet_append]
    have hnone : dictGet l k = none := by
      rw [dictAny_eq_isSome] at hl
      cases hg : dictGet l k with
      | none => rfl
      | some w => rw [hg] at hl; simp at hl
    rw [hnone]
    simp [dictGet_cons]

theorem dictGet_dictUpd_ne {α : Type} (l : List (String × α)) (k k' : String) (v : α)
    (h : k' ≠ k) : dictGet (dictUpd l k v) k' = dictGet l k' := by
  unfold dictUpd
  by_cases hl : l.any (fun p => p.1 = k)
  · rw [if_pos hl, dictGet_mapSet, if_neg h]
  · rw [if_neg hl, dictGet_append]
    have hne : ¬ (k : String) = k' := fun hh => h hh.symm
    cases hg : dictGet l k' with
    | none => simp [dictGet_cons, hne, dictGet_nil]
    | some w => simp

theorem dictGet_eq_none_of_not_mem {α : Type} (l : List (String × α)) (k : String)
    (h : k ∉ l.map Prod.fst) : dictGet l k = none := by
  induction l with
  | nil => rfl
  | cons a l ih =>
    rw [dictGet_cons, if_neg, ih]
    · intro hc; exact h (by simp [hc])
    · intro hc; exact h (by simp [hc])

theorem foldl_dictUpd_get (l : List (String × Nat)) :
    ∀ (base : List (String × Nat)) (κ : String), (l.map Prod.fst).Nodup →
    dictGet (l.foldl (fun d p => dictUpd d p.1 p.2) base) κ =
      match dictGet l κ with
      | some v => some v
      | none => dictGet base κ := by
  induction l with
  | nil => intro base κ _; simp [dictGet_nil]
  | cons a l ih =>
    intro base κ hnd
    rw [List.map_cons, List.nodup_cons] at hnd
    rw [List.foldl_cons, ih _ κ hnd.2, dictGet_cons]
    by_cases hk : a.1 = κ
    · subst hk
      rw [dictGet_eq_none_of_not_mem l a.1 hnd.1]
      simp [dictGet_dictUpd_self]
    · rw [if_neg hk]
      cases hg : dictGet l κ with
      | none => simp [dictGet_dictUpd_ne base a.1 κ a.2 (fun hh => hk hh.symm)]
      | some w => simp

/-- C7: CounterStack.add returns a new stack with the same ceiling, the
count of the given key incremented by one (a fresh key gets 1), and every
other key's count preserved; add is a pure function of the receiver (the
source builds a new dict and never writes the old one); exceedsMax holds
exactly when the count has reached the ceiling.  The hypothesis that the
stack's keys are distinct reflects that the source stores it as a Python
dict. -/
theorem counterStack_add_spec (c : CounterStack) (k : String)
    (hnd : (c.stack.map Prod.fst).Nodup) :
    (c.add k).max = c.max ∧
    (c.add k).get k = c.get k + 1 ∧
    (∀ k', k' ≠ k → (c.add k).get k' = c.get k') ∧
    (c.exceedsMax k = true ↔ c.max ≤ c.get k) := by
  refine ⟨rfl, ?_, ?_, ?_⟩
  · simp only [CounterStack.add, CounterStack.get]
    rw [dictGet_mapIncr, if_pos rfl, foldl_dictUpd_get c.stack [(k, 0)] k hnd]
    cases hg : dictGet c.stack k with
    | none => simp [dictGet_cons]
    | some w => simp
  · intro k' hk'
    simp only [CounterStack.add, CounterStack.get]
    rw [dictGet_mapIncr, if_neg hk', foldl_dictUpd_get c.stack [(k, 0)] k' hnd]
    cases hg : dictGet c.stack k' with
    | none =>
      have hne : ¬ (k = k') := fun hh => hk' hh.symm
      simp [dictGet_cons, dictGet_nil, hne]
    | some w => simp
  · unfold CounterStack.exceedsMax
    simp

/-- Witness for counterStack_add_spec at a concrete stack. -/
theorem counterStack_add_spec_witness :
    ((CounterStack.mk 4 [("verb", 2)]).add "verb").max = 4 ∧
    ((CounterStack.mk 4 [("verb", 2)]).add "verb").get "verb" = 3 ∧
    ((CounterStack.mk 4 [("verb", 2)]).add "verb").get "noun" = 0 ∧
    ((CounterStack.mk 4 [("verb", 2)]).exceedsMax "verb" = true ↔
      (4 : Nat) ≤ (CounterStack.mk 4 [("verb", 2)]).get "verb") := by
  have h := counterStack_add_spec (CounterStack.mk 4 [("verb", 2)]) "verb" (by decide)
  refine ⟨h.1, ?_, ?_, h.2.2.2⟩
  · rw [h.2.1]; decide
  · rw [h.2.2.1 "noun" (by decide)]; decide

/-- C9: MultiTapeOutput.add is copy-on-write at the map level: with a
zero-tape tape it returns the receiver itself unchanged, and otherwise the
result's map has a new SingleTapeOutput chained onto the previous entry at
`tape.tapeName` and agrees with the receiver on every other name.  (The
receiver is never mutated: `add` is a pure function in this model, and the
source only writes the fresh `result`.) -/
theorem multiTapeOutput_add_spec (m : MultiTapeOutput) (tape : Tape) (tok : Token) :
    (tape.numTapes = 0 → m.add tape tok = m) ∧
    (tape.numTapes ≠ 0 →
      dictGet (m.add tape tok).singleTapeOutputs tape.tapeName =
        some (.node tape tok (dictGet m.singleTapeOutputs tape.tapeName)) ∧
      ∀ n, n ≠ tape.tapeName →
        dictGet (m.add tape tok).singleTapeOutputs n = dictGet m.singleTapeOutputs n) := by
  constructor
  · intro h
    simp [MultiTapeOutput.add, h]
  · intro h
    constructor
    · simp [MultiTapeOutput.add, h, dictGet_dictUpd_self]
    · intro n hn
      simp [MultiTapeOutput.add, h, dictGet_dictUpd_ne _ _ _ _ hn]

/-- Witness for multiTapeOutput_add_spec: a zero-tape add is the identity, a
string-tape add replaces exactly one entry. -/
theorem multiTapeOutput_add_spec_witness :
    (MultiTapeOutput.mk [("a", .node (.stringTape "a" []) ⟨∅⟩ none)]).add
        (.collection [] []) ⟨∅⟩ =
      MultiTapeOutput.mk [("a", .node (.stringTape "a" []) ⟨∅⟩ none)] ∧
    dictGet ((MultiTapeOutput.mk [("a", .node (.stringTape "a" []) ⟨∅⟩ none)]).add
        (.stringTape "t" []) ⟨∅⟩).singleTapeOutputs "t" =
      some (.node (.stringTape "t" []) ⟨∅⟩
        (dictGet (MultiTapeOutput.mk
          [("a", .node (.stringTape "a" []) ⟨∅⟩ none)]).singleTapeOutputs "t")) ∧
    dictGet ((MultiTapeOutput.mk [("a", .node (.stringTape "a" []) ⟨∅⟩ none)]).add
        (.stringTape "t" []) ⟨∅⟩).singleTapeOutputs "a" =
      dictGet (MultiTapeOutput.mk
        [("a", .node (.stringTape "a" []) ⟨∅⟩ none)]).singleTapeOutputs "a" := by
  have h0 := multiTapeOutput_add_spec
    (MultiTapeOutput.mk [("a", .node (.stringTape "a" []) ⟨∅⟩ none)]) (.collection [] []) ⟨∅⟩
  have h1 := multiTapeOutput_add_spec
    (MultiTapeOutput.mk [("a", .node (.stringTape "a" []) ⟨∅⟩ none)]) (.stringTape "t" []) ⟨∅⟩
  exact ⟨h0.1 rfl, (h1.2 (by decide)).1, (h1.2 (by decide)).2 "a" (by decide)⟩

/-- C3 (code bug): TrivialState.accepting is always true, but its `ndQuery`
contains no `yield` statement, so the Python function returns `None` rather
than an empty generator, and `dQuery`'s `list(self.ndQuery(...))` raises
`TypeError` instead of returning an empty sequence. -/
theorem trivialState_accepting_and_query (tape : Tape) (target : Token) (stk : CounterStack) :
    State.accepting .trivial stk = true ∧
    State.ndQuery .trivial tape target stk = none ∧
    State.dQuery .trivial tape target stk = none :=
  ⟨rfl, rfl, rfl⟩

/-- C8: the breadth-first loop of `generate` executes at most `maxChars`
iterations (the returned step count is bounded by the fuel), its result is a
finite list by construction, and when it stops before exhausting `maxChars`
it is because the work queue became empty (or a query raised). -/
theorem generateAux_bounded (tapes : Tape) (stk : CounterStack) :
    ∀ (fuel : Nat) (q : List (MultiTapeOutput × State)),
      (generateAux tapes stk q fuel).2.1 ≤ fuel ∧
      ((generateAux tapes stk q fuel).2.1 < fuel →
        (generateAux tapes stk q fuel).2.2 = [] ∨ (generateAux tapes stk q fuel).1 = none) := by
  intro fuel
  induction fuel with
  | zero => intro q; exact ⟨Nat.le_refl 0, fun h => absurd h (Nat.lt_irrefl 0)⟩
  | succ fuel ih =>
    intro q
    by_cases hq : q.isEmpty
    · constructor
      · simp [generateAux, hq]
      · intro _
        left
        simp only [generateAux, hq, if_true]
        exact List.isEmpty_iff.mp hq
    · cases hstep : genStep tapes stk q with
      | none =>
        have heq : generateAux tapes stk q (fuel + 1) = (none, 1, q) := by
          simp [generateAux, hq, hstep]
        rw [heq]
        exact ⟨Nat.succ_le_succ (Nat.zero_le fuel), fun _ => Or.inr rfl⟩
      | some p =>
        obtain ⟨outs, nq⟩ := p
        have hrec := ih nq
        cases hgen : generateAux tapes stk nq fuel with
        | mk r rest =>
          obtain ⟨n, fq⟩ := rest
          rw [hgen] at hrec
          simp only at hrec
          cases r with
          | none =>
            have heq : generateAux tapes stk q (fuel + 1) = (none, n + 1, fq) := by
              simp [generateAux, hq, hstep, hgen]
            rw [heq]
            exact ⟨Nat.succ_le_succ hrec.1, fun _ => Or.inr rfl⟩
          | some out =>
            have heq : generateAux tapes stk q (fuel + 1) = (some (outs ++ out), n + 1, fq) := by
              simp [generateAux, hq, hstep, hgen]
            rw [heq]
            refine ⟨Nat.succ_le_succ hrec.1, fun hlt => ?_⟩
            have := hrec.2 (Nat.lt_of_succ_lt_succ hlt)
            cases this with
            | inl h => exact Or.inl h
            | inr h => exact absurd h (by simp)

/-- Helper: Seq of a non-empty child list never errors. -/
theorem seq_ok : ∀ (cs : List State) (c : State), ∃ r, Seq (c :: cs) = .ok r := by
  intro cs
  induction cs with
  | nil => intro c; exact ⟨c, rfl⟩
  | cons c2 cs ih =>
    intro c
    obtain ⟨r, hr⟩ := ih c2
    exact ⟨.concat c r, by simp [Seq, hr, Except.bind]⟩

/-- Helper: Uni of a non-empty child list never errors. -/
theorem uni_ok : ∀ (cs : List State) (c : State), ∃ r, Uni (c :: cs) = .ok r := by
  intro cs
  induction cs with
  | nil => intro c; exact ⟨c, rfl⟩
  | cons c2 cs ih =>
    intro c
    obtain ⟨r, hr⟩ := ih c2
    exact ⟨.union c r, by simp [Uni, hr, Except.bind]⟩

/-- C10: Seq and Uni raise StateError on zero children, return the single
child itself on one child, and right-fold two or more children into binary
Concat/Union states. -/
theorem seq_uni_spec :
    (Seq [] = .error ⟨"Sequences must have at least 1 child"⟩) ∧
    (Uni [] = .error ⟨"Unions must have at least 1 child"⟩) ∧
    (∀ c, Seq [c] = .ok c ∧ Uni [c] = .ok c) ∧
    (∀ c1 c2 cs,
      (∃ r, Seq (c2 :: cs) = .ok r ∧ Seq (c1 :: c2 :: cs) = .ok (.concat c1 r)) ∧
      (∃ r, Uni (c2 :: cs) = .ok r ∧ Uni (c1 :: c2 :: cs) = .ok (.union c1 r))) := by
  refine ⟨rfl, rfl, fun c => ⟨rfl, rfl⟩, fun c1 c2 cs => ⟨?_, ?_⟩⟩
  · obtain ⟨r, hr⟩ := seq_ok cs c2
    exact ⟨r, hr, by simp [Seq, hr, Except.bind]⟩
  · obtain ⟨r, hr⟩ := uni_ok cs c2
    exact ⟨r, hr, by simp [Uni, hr, Except.bind]⟩

/-! Lemmas about the determinizer (`dQuery`), toward claim C1. -/

/-- Two query results on the same (real) tape never share a bit. -/
def SameNameDisjoint (r r' : QueryResult) : Prop :=
  0 < r.tape.numTapes → 0 < r'.tape.numTapes → r.tape.tapeName = r'.tape.tapeName →
    r.token.bits ∩ r'.token.bits = ∅

/-- Pairwise per-tape disjointness of a transition list. -/
def ResultsDisjoint (l : List QueryResult) : Prop :=
  l.Pairwise SameNameDisjoint

theorem dqFold_nil (t : Tape) (m : Bool) (n : State) (b : BitSet) :
    dqFold t m n [] b = ([], b) := rfl

theorem dqFold_cons_ne (t : Tape) (m : Bool) (n : State) (r : QueryResult)
    (rest : List QueryResult) (b : BitSet) (h : t.tapeName ≠ r.tape.tapeName) :
    dqFold t m n (r :: rest) b =
      (r :: (dqFold t m n rest b).1, (dqFold t m n rest b).2) := by
  rw [dqFold, if_pos h]

theorem dqFold_cons_eq (t : Tape) (m : Bool) (n : State) (r : QueryResult)
    (rest : List QueryResult) (b : BitSet) (h : ¬ t.tapeName ≠ r.tape.tapeName) :
    dqFold t m n (r :: rest) b =
      ((if ¬ b ∩ r.token.bits = ∅ then
          [⟨t, ⟨b ∩ r.token.bits⟩, m || r.matched, .union n r.next⟩] else []) ++
       (if ¬ r.token.bits \ (b ∩ r.token.bits) = ∅ then
          [⟨r.tape, ⟨r.token.bits \ (b ∩ r.token.bits)⟩, r.matched, r.next⟩] else []) ++
       (dqFold t m n rest (b \ (b ∩ r.token.bits))).1,
       (dqFold t m n rest (b \ (b ∩ r.token.bits))).2) := by
  rw [dqFold, if_neg h]

/-- Every output tape of the fold is the incoming tape or one of the
accumulator's tapes. -/
theorem dqFold_tapes (t : Tape) (m : Bool) (n : State) :
    ∀ (acc : List QueryResult) (b : BitSet),
      ∀ r' ∈ (dqFold t m n acc b).1, r'.tape = t ∨ ∃ r ∈ acc, r'.tape = r.tape := by
  intro acc
  induction acc with
  | nil => intro b r' hr'; rw [dqFold_nil] at hr'; exact absurd hr' (List.not_mem_nil r')
  | cons r rest ih =>
    intro b r' hr'
    by_cases h : t.tapeName ≠ r.tape.tapeName
    · rw [dqFold_cons_ne t m n r rest b h] at hr'
      rcases List.mem_cons.mp hr' with h1 | h1
      · exact Or.inr ⟨r, List.mem_cons_self r rest, by rw [h1]⟩
      · rcases ih b r' h1 with h2 | ⟨r2, hr2, he⟩
        · exact Or.inl h2
        · exact Or.inr ⟨r2, List.mem_cons_of_mem r hr2, he⟩
    · rw [dqFold_cons_eq t m n r rest b h] at hr'
      rcases List.mem_append.mp hr' with h1 | h1
      · rcases List.mem_append.mp h1 with h2 | h2
        · by_cases hne : ¬ b ∩ r.token.bits = ∅
          · rw [if_pos hne] at h2
            rcases List.mem_singleton.mp h2 with h3
            exact Or.inl (by rw [h3])
          · rw [if_neg hne] at h2
            exact absurd h2 (List.not_mem_nil r')
        · by_cases hne : ¬ r.token.bits \ (b ∩ r.token.bits) = ∅
          · rw [if_pos hne] at h2
            rcases List.mem_singleton.mp h2 with h3
            exact Or.inr ⟨r, List.mem_cons_self r rest, by rw [h3]⟩
          · rw [if_neg hne] at h2
            exact absurd h2 (List.not_mem_nil r')
      · rcases ih (b \ (b ∩ r.token.bits)) r' h1 with h2 | ⟨r2, hr2, he⟩
        · exact Or.inl h2
        · exact Or.inr ⟨r2, List.mem_cons_of_mem r hr2, he⟩

/-- Every output tape of a determinizer step is the incoming tape or one of
the accumulator's tapes. -/
theorem determinizeStep_tapes (acc : List QueryResult) (x : QueryResult) :
    ∀ r' ∈ determinizeStep acc x, r'.tape = x.tape ∨ ∃ r ∈ acc, r'.tape = r.tape := by
  intro r' hr'
  unfold determinizeStep at hr'
  by_cases h0 : x.tape.numTapes = 0
  · rw [if_pos h0] at hr'
    rcases List.mem_append.mp hr' with h1 | h1
    · exact Or.inr ⟨r', h1, rfl⟩
    · exact Or.inl (by rw [List.mem_singleton.mp h1])
  · rw [if_neg h0] at hr'
    cases hd : dqFold x.tape x.matched x.next acc x.token.bits with
    | mk nr bits' =>
      rw [hd] at hr'
      simp only at hr'
      by_cases hb : ¬ bits' = ∅
      · rw [if_pos hb] at hr'
        rcases List.mem_append.mp hr' with h1 | h1
        · exact dqFold_tapes x.tape x.matched x.next acc x.token.bits r' (by rw [hd]; exact h1)
        · exact Or.inl (by rw [List.mem_singleton.mp h1])
      · rw [if_neg hb] at hr'
        exact dqFold_tapes x.tape x.matched x.next acc x.token.bits r' (by rw [hd]; exact hr')

/-- Every output tape of `determinize` is one of the input tapes. -/
theorem determinize_tapes (l : List QueryResult) :
    ∀ r' ∈ determinize l, ∃ r ∈ l, r'.tape = r.tape := by
  have main : ∀ (l acc : List QueryResult),
      ∀ r' ∈ l.foldl determinizeStep acc,
        (∃ r ∈ l, r'.tape = r.tape) ∨ (∃ r ∈ acc, r'.tape = r.tape) := by
    intro l
    induction l with
    | nil => intro acc r' hr'; exact Or.inr ⟨r', hr', rfl⟩
    | cons x l ih =>
      intro acc r' hr'
      rw [List.foldl_cons] at hr'
      rcases ih (determinizeStep acc x) r' hr' with ⟨r, hr, he⟩ | ⟨r, hr, he⟩
      · exact Or.inl ⟨r, List.mem_cons_of_mem x hr, he⟩
      · rcases determinizeStep_tapes acc x r hr with h2 | ⟨r2, hr2, he2⟩
        · exact Or.inl ⟨x, List.mem_cons_self x l, by rw [he, h2]⟩
        · exact Or.inr ⟨r2, hr2, by rw [he, he2]⟩
  intro r' hr'
  rcases main l [] r' hr' with h | ⟨r, hr, _⟩
  · exact h
  · exact absurd hr (List.not_mem_nil r)

theorem mem_ite_singleton {α : Type} {c : Prop} [Decidable c] {x r : α}
    (h : r ∈ (if c then [x] else [])) : r = x := by
  by_cases hc : c
  · rw [if_pos hc] at h
    exact List.mem_singleton.mp h
  · rw [if_neg hc] at h
    exact absurd h (List.not_mem_nil r)

theorem inter_sdiff_empty (s u : BitSet) : s ∩ (u \ s) = ∅ := by
  ext x
  simp only [Finset.mem_inter, Finset.mem_sdiff, Finset.not_mem_empty, iff_false]
  tauto

theorem sdiff_inter_left_empty (b e : BitSet) : (e \ (b ∩ e)) ∩ b = ∅ := by
  ext x
  simp only [Finset.mem_inter, Finset.mem_sdiff, Finset.not_mem_empty, iff_false]
  tauto

theorem inter_empty_of_subsets {a b a' b' : BitSet} (ha : a' ⊆ a) (hb : b' ⊆ b)
    (h : a ∩ b = ∅) : a' ∩ b' = ∅ := by
  have hsub : a' ∩ b' ⊆ a ∩ b := Finset.inter_subset_inter ha hb
  rw [h] at hsub
  exact Finset.subset_empty.mp hsub

/-- The main invariant of the determinizer fold: the remaining bits shrink,
every output comes from the incoming transition (with bits inside the
incoming bits) or from an accumulator entry (with bits inside that entry's),
outputs on the incoming tape's name are disjoint from the remaining bits,
and outputs are pairwise disjoint per tape name. -/
theorem dqFold_spec (t : Tape) (m : Bool) (n : State) :
    ∀ (acc : List QueryResult) (b : BitSet),
      (∀ r ∈ acc, 0 < r.tape.numTapes) →
      acc.Pairwise SameNameDisjoint →
      (dqFold t m n acc b).2 ⊆ b ∧
      (∀ r' ∈ (dqFold t m n acc b).1,
        (r'.tape = t ∧ r'.token.bits ⊆ b) ∨
        (∃ r ∈ acc, r'.tape = r.tape ∧ r'.token.bits ⊆ r.token.bits)) ∧
      (∀ r' ∈ (dqFold t m n acc b).1,
        r'.tape.tapeName = t.tapeName → r'.token.bits ∩ (dqFold t m n acc b).2 = ∅) ∧
      (dqFold t m n acc b).1.Pairwise SameNameDisjoint := by
  intro acc
  induction acc with
  | nil =>
    intro b _ _
    refine ⟨Finset.Subset.refl b, ?_, ?_, List.Pairwise.nil⟩ <;>
      intro r' hr' <;> rw [dqFold_nil] at hr' <;> exact absurd hr' (List.not_mem_nil r')
  | cons e rest ih =>
    intro b hpos hpw
    have hposE : 0 < e.tape.numTapes := hpos e (List.mem_cons_self e rest)
    have hposR : ∀ r ∈ rest, 0 < r.tape.numTapes :=
      fun r hr => hpos r (List.mem_cons_of_mem e hr)
    have hpwR : rest.Pairwise SameNameDisjoint := hpw.of_cons
    have hpwE : ∀ r ∈ rest, SameNameDisjoint e r :=
      fun r hr => List.rel_of_pairwise_cons hpw hr
    by_cases h : t.tapeName ≠ e.tape.tapeName
    · rw [dqFold_cons_ne t m n e rest b h]
      obtain ⟨ih1, ih2, ih3, ih4⟩ := ih b hposR hpwR
      refine ⟨ih1, ?_, ?_, ?_⟩
      · intro r' hr'
        rcases List.mem_cons.mp hr' with h1 | h1
        · exact Or.inr ⟨e, List.mem_cons_self e rest, by rw [h1], by rw [h1]⟩
        · rcases ih2 r' h1 with h2 | ⟨r, hr, he1, he2⟩
          · exact Or.inl h2
          · exact Or.inr ⟨r, List.mem_cons_of_mem e hr, he1, he2⟩
      · intro r' hr' hname
        rcases List.mem_cons.mp hr' with h1 | h1
        · rw [h1] at hname
          exact absurd hname.symm h
        · exact ih3 r' h1 hname
      · rw [List.pairwise_cons]
        refine ⟨?_, ih4⟩
        intro r' hr'
        rcases ih2 r' hr' with ⟨htape, _⟩ | ⟨r, hr, htape, hsub⟩
        · intro _ _ hname
          rw [htape] at hname
          exact absurd hname.symm h
        · intro hpe hpr' hname
          have hposr : 0 < r.tape.numTapes := htape ▸ hpr'
          have hnm : e.tape.tapeName = r.tape.tapeName := by rw [hname, htape]
          have hdisj := hpwE r hr hpe hposr hnm
          exact inter_empty_of_subsets (Finset.Subset.refl _) hsub hdisj
    · have hEq : t.tapeName = e.tape.tapeName := not_not.mp (fun hc => h hc)
      rw [dqFold_cons_eq t m n e rest b h]
      obtain ⟨ih1, ih2, ih3, ih4⟩ := ih (b \ (b ∩ e.token.bits)) hposR hpwR
      have hb1 : b \ (b ∩ e.token.bits) ⊆ b := Finset.sdiff_subset
      have hb2 : (dqFold t m n rest (b \ (b ∩ e.token.bits))).2 ⊆ b := ih1.trans hb1
      refine ⟨hb2, ?_, ?_, ?_⟩
      · intro r' hr'
        rcases List.mem_append.mp hr' with h1 | h1
        · rcases List.mem_append.mp h1 with h2 | h2
          · have := mem_ite_singleton h2
            rw [this]
            exact Or.inl ⟨rfl, Finset.inter_subset_left⟩
          · have := mem_ite_singleton h2
            rw [this]
            exact Or.inr ⟨e, List.mem_cons_self e rest, rfl, Finset.sdiff_subset⟩
        · rcases ih2 r' h1 with ⟨htape, hsub⟩ | ⟨r, hr, he1, he2⟩
          · exact Or.inl ⟨htape, hsub.trans hb1⟩
          · exact Or.inr ⟨r, List.mem_cons_of_mem e hr, he1, he2⟩
      · intro r' hr' hname
        rcases List.mem_append.mp hr' with h1 | h1
        · rcases List.mem_append.mp h1 with h2 | h2
          · have := mem_ite_singleton h2
            rw [this]
            exact inter_empty_of_subsets (Finset.Subset.refl _) ih1
              (inter_sdiff_empty (b ∩ e.token.bits) b)
          · have := mem_ite_singleton h2
            rw [this]
            exact inter_empty_of_subsets (Finset.Subset.refl _) hb2
              (sdiff_inter_left_empty b e.token.bits)
        · exact ih3 r' h1 hname
      · rw [List.pairwise_append, List.pairwise_append]
        refine ⟨⟨?_, ?_, ?_⟩, ih4, ?_⟩
        · by_cases hc : ¬ b ∩ e.token.bits = ∅
          · rw [if_pos hc]
            exact List.pairwise_singleton _ _
          · rw [if_neg hc]
            exact List.Pairwise.nil
        · by_cases hc : ¬ e.token.bits \ (b ∩ e.token.bits) = ∅
          · rw [if_pos hc]
            exact List.pairwise_singleton _ _
          · rw [if_neg hc]
            exact List.Pairwise.nil
        · intro a ha b' hb'
          have haa := mem_ite_singleton ha
          have hbb := mem_ite_singleton hb'
          rw [haa, hbb]
          intro _ _ _
          exact inter_sdiff_empty (b ∩ e.token.bits) e.token.bits
        · intro a ha r' hr'
          rcases List.mem_append.mp ha with h2 | h2
          · have haa := mem_ite_singleton h2
            rw [haa]
            rcases ih2 r' hr' with ⟨htape, hsub⟩ | ⟨r, hr, he1, he2⟩
            · intro _ _ _
              exact inter_empty_of_subsets (Finset.Subset.refl _) hsub
                (inter_sdiff_empty (b ∩ e.token.bits) b)
            · intro _ hpr' hname
              have hposr : 0 < r.tape.numTapes := he1 ▸ hpr'
              have hnm : e.tape.tapeName = r.tape.tapeName := by
                rw [← hEq, ← he1]
                exact hname
              have hdisj := hpwE r hr hposE hposr hnm
              exact inter_empty_of_subsets Finset.inter_subset_right he2 hdisj
          · have haa := mem_ite_singleton h2
            rw [haa]
            rcases ih2 r' hr' with ⟨htape, hsub⟩ | ⟨r, hr, he1, he2⟩
            · intro _ _ _
              exact inter_empty_of_subsets (Finset.Subset.refl _) (hsub.trans hb1)
                (sdiff_inter_left_empty b e.token.bits)
            · intro hpe hpr' hname
              have hposr : 0 < r.tape.numTapes := he1 ▸ hpr'
              have hnm : e.tape.tapeName = r.tape.tapeName := by
                rw [← he1]
                exact hname
              have hdisj := hpwE r hr hposE hposr hnm
              exact inter_empty_of_subsets Finset.sdiff_subset he2 hdisj

/-- One determinizer step preserves positivity and pairwise disjointness of
the accumulator (for a positive incoming transition). -/
theorem determinizeStep_inv (acc : List QueryResult) (x : QueryResult)
    (hx : 0 < x.tape.numTapes)
    (hacc : ∀ r ∈ acc, 0 < r.tape.numTapes)
    (hdisj : acc.Pairwise SameNameDisjoint) :
    (∀ r ∈ determinizeStep acc x, 0 < r.tape.numTapes) ∧
    (determinizeStep acc x).Pairwise SameNameDisjoint := by
  have h0 : ¬ x.tape.numTapes = 0 := Nat.pos_iff_ne_zero.mp hx
  have hstep : determinizeStep acc x =
      if ¬ (dqFold x.tape x.matched x.next acc x.token.bits).2 = ∅ then
        (dqFold x.tape x.matched x.next acc x.token.bits).1 ++
          [⟨x.tape, ⟨(dqFold x.tape x.matched x.next acc x.token.bits).2⟩, x.matched, x.next⟩]
      else (dqFold x.tape x.matched x.next acc x.token.bits).1 := by
    unfold determinizeStep
    rw [if_neg h0]
  rw [hstep]
  obtain ⟨hf1, hf2, hf3, hf4⟩ :=
    dqFold_spec x.tape x.matched x.next acc x.token.bits hacc hdisj
  have hpos' : ∀ r' ∈ (dqFold x.tape x.matched x.next acc x.token.bits).1,
      0 < r'.tape.numTapes := by
    intro r' hr'
    rcases hf2 r' hr' with ⟨ht, _⟩ | ⟨r, hr, ht, _⟩
    · rw [ht]; exact hx
    · rw [ht]; exact hacc r hr
  by_cases hb : ¬ (dqFold x.tape x.matched x.next acc x.token.bits).2 = ∅
  · rw [if_pos hb]
    constructor
    · intro r hr
      rcases List.mem_append.mp hr with h1 | h1
      · exact hpos' r h1
      · rw [List.mem_singleton.mp h1]
        exact hx
    · rw [List.pairwise_append]
      refine ⟨hf4, List.pairwise_singleton _ _, ?_⟩
      intro a ha b hbm
      rw [List.mem_singleton.mp hbm]
      intro _ _ hname
      exact hf3 a ha hname
  · rw [if_neg hb]
    exact ⟨hpos', hf4⟩

/-- The determinizer output of an all-positive transition list is pairwise
disjoint per tape name. -/
theorem determinize_disjoint (l : List QueryResult)
    (hl : ∀ r ∈ l, 0 < r.tape.numTapes) : ResultsDisjoint (determinize l) := by
  have main : ∀ (l acc : List QueryResult),
      (∀ r ∈ l, 0 < r.tape.numTapes) → (∀ r ∈ acc, 0 < r.tape.numTapes) →
      acc.Pairwise SameNameDisjoint →
      (∀ r ∈ l.foldl determinizeStep acc, 0 < r.tape.numTapes) ∧
      (l.foldl determinizeStep acc).Pairwise SameNameDisjoint := by
    intro l
    induction l with
    | nil => intro acc _ hacc hdisj; exact ⟨hacc, hdisj⟩
    | cons x l ih =>
      intro acc hl hacc hdisj
      rw [List.foldl_cons]
      have hx : 0 < x.tape.numTapes := hl x (List.mem_cons_self x l)
      have step := determinizeStep_inv acc x hx hacc hdisj
      exact ih (determinizeStep acc x)
        (fun r hr => hl r (List.mem_cons_of_mem x hr)) step.1 step.2
  exact (main l [] hl (by intro r hr; exact absurd hr (List.not_mem_nil r))
    List.Pairwise.nil).2

/-- A list of transitions that all sit on zero-numTapes tapes is trivially
pairwise disjoint per (real) tape. -/
theorem resultsDisjoint_of_zero (l : List QueryResult)
    (h : ∀ r ∈ l, ¬ 0 < r.tape.numTapes) : ResultsDisjoint l := by
  induction l with
  | nil => exact List.Pairwise.nil
  | cons x l ih =>
    rw [ResultsDisjoint, List.pairwise_cons]
    constructor
    · intro r _ hx _ _
      exact absurd hx (h x (List.mem_cons_self x l))
    · exact ih (fun r hr => h r (List.mem_cons_of_mem x hr))

/-- A successful matchTape always returns a real (positive) tape, and only
succeeds on a positive query tape. -/
theorem matchTape_spec (tape : Tape) (nm : String) (mt : Tape)
    (h : tape.matchTape nm = some mt) : 0 < mt.numTapes ∧ 0 < tape.numTapes := by
  cases tape with
  | collection names vocab =>
    simp only [Tape.matchTape] at h
    by_cases hm : nm ∈ names
    · rw [if_pos hm] at h
      injection h with h
      constructor
      · rw [← h]; exact Nat.zero_lt_one
      · show 0 < names.length
        exact List.length_pos.mpr (List.ne_nil_of_mem hm)
    · rw [if_neg hm] at h
      exact absurd h (Option.some_ne_none mt).symm
  | stringTape n vocab =>
    simp only [Tape.matchTape] at h
    by_cases hm : nm = n
    · rw [if_pos hm] at h
      injection h with h
      exact ⟨by rw [← h]; exact Nat.zero_lt_one, Nat.zero_lt_one⟩
    · rw [if_neg hm] at h
      exact absurd h (Option.some_ne_none mt).symm

theorem ndQuery_literal_cons_eq (T : String) (text : List Char) (tok : Token)
    (rest : List Token) (collected : Bool) (tape : Tape) (target : Token)
    (stk : CounterStack) (mt : Tape) (hmt : tape.matchTape T = some mt) :
    State.ndQuery (.literal T text (tok :: rest) collected) tape target stk =
      (mt.matchToken tok target).bind (fun result =>
        (literalSuccessor T text tok rest collected mt).bind (fun nextState =>
          some [⟨mt, result, true, nextState⟩])) := by
  simp [State.ndQuery, hmt]

theorem ndQuery_literal_nil_eq (T : String) (text : List Char) (collected : Bool)
    (tape : Tape) (target : Token) (stk : CounterStack) (mt : Tape)
    (hmt : tape.matchTape T = some mt) :
    State.ndQuery (.literal T text [] collected) tape target stk = some [] := by
  simp [State.ndQuery, hmt]

theorem ndQuery_literal_stay_eq (T : String) (text : List Char) (tokens : List Token)
    (collected : Bool) (tape : Tape) (target : Token) (stk : CounterStack)
    (hmt : tape.matchTape T = none) :
    State.ndQuery (.literal T text tokens collected) tape target stk =
      some [⟨tape, target, false, .literal T text tokens collected⟩] := by
  simp [State.ndQuery, hmt]

theorem ndQuery_anyChar_some_eq (T : String) (tape : Tape) (target : Token)
    (stk : CounterStack) (mt : Tape) (hmt : tape.matchTape T = some mt) :
    State.ndQuery (.anyChar T) tape target stk =
      (mt.anyToken).bind (fun bits =>
        (mt.matchToken bits target).bind (fun result =>
          some [⟨mt, result, true, .trivial⟩])) := by
  simp [State.ndQuery, hmt]

theorem ndQuery_anyChar_stay_eq (T : String) (tape : Tape) (target : Token)
    (stk : CounterStack) (hmt : tape.matchTape T = none) :
    State.ndQuery (.anyChar T) tape target stk =
      some [⟨tape, target, false, .anyChar T⟩] := by
  simp [State.ndQuery, hmt]

/-- Every transition yielded by `ndQuery` either carries the query tape
itself (a stay transition) or a real member tape, the latter only when the
query tape is itself real. -/
theorem ndQuery_tape_origin (s : State) :
    ∀ (tape : Tape) (target : Token) (stk : CounterStack) (l : List QueryResult),
      s.ndQuery tape target stk = some l →
      ∀ r ∈ l, r.tape = tape ∨ (0 < r.tape.numTapes ∧ 0 < tape.numTapes) := by
  induction s with
  | literal T text tokens collected =>
    intro tape target stk l h r hr
    cases hmt : tape.matchTape T with
    | none =>
      rw [ndQuery_literal_stay_eq T text tokens collected tape target stk hmt] at h
      injection h with h
      rw [← h] at hr
      rw [List.mem_singleton.mp hr]
      exact Or.inl rfl
    | some mt =>
      cases tokens with
      | nil =>
        rw [ndQuery_literal_nil_eq T text collected tape target stk mt hmt] at h
        injection h with h
        rw [← h] at hr
        exact absurd hr (List.not_mem_nil r)
      | cons tok rest =>
        rw [ndQuery_literal_cons_eq T text tok rest collected tape target stk mt hmt] at h
        cases hm : mt.matchToken tok target with
        | none => rw [hm] at h; simp at h
        | some res =>
          rw [hm] at h
          simp only [Option.some_bind'] at h
          cases hsucc : literalSuccessor T text tok rest collected mt with
          | none => rw [hsucc] at h; simp at h
          | some ns =>
            rw [hsucc] at h
            simp only [Option.some_bind'] at h
            injection h with h
            rw [← h] at hr
            rw [List.mem_singleton.mp hr]
            exact Or.inr (matchTape_spec tape T mt hmt)
  | anyChar T =>
    intro tape target stk l h r hr
    cases hmt : tape.matchTape T with
    | none =>
      rw [ndQuery_anyChar_stay_eq T tape target stk hmt] at h
      injection h with h
      rw [← h] at hr
      rw [List.mem_singleton.mp hr]
      exact Or.inl rfl
    | some mt =>
      rw [ndQuery_anyChar_some_eq T tape target stk mt hmt] at h
      cases ha : mt.anyToken with
      | none => rw [ha] at h; simp at h
      | some bits =>
        rw [ha] at h
        simp only [Option.some_bind'] at h
        cases hm : mt.matchToken bits target with
        | none => rw [hm] at h; simp at h
        | some res =>
          rw [hm] at h
          simp only [Option.some_bind'] at h
          injection h with h
          rw [← h] at hr
          rw [List.mem_singleton.mp hr]
          exact Or.inr (matchTape_spec tape T mt hmt)
  | trivial =>
    intro tape target stk l h r hr
    simp [State.ndQuery] at h
  | concat c1 c2 ih1 ih2 =>
    intro tape target stk l h r hr
    simp only [State.ndQuery] at h
    cases h1 : c1.ndQuery tape target stk with
    | none => rw [h1] at h; simp at h
    | some l1 =>
      rw [h1] at h
      simp only [Option.map_some', Option.bind_eq_bind', Option.some_bind'] at h
      have horigin1 : ∀ a ∈ determinize l1,
          a.tape = tape ∨ (0 < a.tape.numTapes ∧ 0 < tape.numTapes) := by
        intro a ha
        obtain ⟨ro, hro, htape⟩ := determinize_tapes l1 a ha
        rcases ih1 tape target stk l1 h1 ro hro with hh | hh
        · exact Or.inl (by rw [htape, hh])
        · exact Or.inr (by rw [htape]; exact hh)
      by_cases hAny : (determinize l1).any (fun r => !r.matched) = true
      · rw [if_pos hAny] at h
        cases h2 : c2.ndQuery tape target stk with
        | none => rw [h2] at h; simp at h
        | some l2 =>
          rw [h2] at h
          simp only [Option.map_some', Option.bind_eq_bind', Option.some_bind'] at h
          have horigin2 : ∀ a ∈ determinize l2,
              a.tape = tape ∨ (0 < a.tape.numTapes ∧ 0 < tape.numTapes) := by
            intro a ha
            obtain ⟨ro, hro, htape⟩ := determinize_tapes l2 a ha
            rcases ih2 tape target stk l2 h2 ro hro with hh | hh
            · exact Or.inl (by rw [htape, hh])
            · exact Or.inr (by rw [htape]; exact hh)
          have hpart : ∀ r' ∈ (determinize l1).flatMap (fun a =>
              if a.matched then
                ([⟨a.tape, a.token, a.matched, .concat a.next c2⟩] : List QueryResult)
              else (determinize l2).map
                (fun r2 => (⟨r2.tape, r2.token, r2.matched, .concat c1 r2.next⟩ : QueryResult))),
              r'.tape = tape ∨ (0 < r'.tape.numTapes ∧ 0 < tape.numTapes) := by
            intro r' hr'
            obtain ⟨a, ha, hmem⟩ := List.mem_flatMap.mp hr'
            by_cases ham : a.matched = true
            · rw [if_pos ham] at hmem
              rw [List.mem_singleton.mp hmem]
              exact horigin1 a ha
            · rw [if_neg ham] at hmem
              obtain ⟨a2, ha2, heq⟩ := List.mem_map.mp hmem
              rw [← heq]
              exact horigin2 a2 ha2
          by_cases hif : ((determinize l2).isEmpty && c1.accepting stk) = true
          · rw [if_pos hif] at h
            injection h with h
            rw [← h] at hr
            rcases List.mem_append.mp hr with hm1 | hm2
            · exact hpart r hm1
            · exact horigin2 r hm2
          · rw [if_neg hif] at h
            injection h with h
            rw [← h] at hr
            exact hpart r hr
      · rw [if_neg hAny] at h
        have hpart : ∀ r' ∈ (determinize l1).map
            (fun a => (⟨a.tape, a.token, a.matched, .concat a.next c2⟩ : QueryResult)),
            r'.tape = tape ∨ (0 < r'.tape.numTapes ∧ 0 < tape.numTapes) := by
          intro r' hr'
          obtain ⟨a, ha, heq⟩ := List.mem_map.mp hr'
          rw [← heq]
          exact horigin1 a ha
        by_cases hacc : c1.accepting stk = true
        · rw [if_pos hacc] at h
          cases h2 : c2.ndQuery tape target stk with
          | none => rw [h2] at h; simp at h
          | some l2 =>
            rw [h2] at h
            simp only [Option.map_some', Option.bind_eq_bind', Option.some_bind'] at h
            injection h with h
            rw [← h] at hr
            rcases List.mem_append.mp hr with hm1 | hm2
            · exact hpart r hm1
            · obtain ⟨ro, hro, htape⟩ := determinize_tapes l2 r hm2
              rcases ih2 tape target stk l2 h2 ro hro with hh | hh
              · exact Or.inl (by rw [htape, hh])
              · exact Or.inr (by rw [htape]; exact hh)
        · rw [if_neg hacc] at h
          injection h with h
          rw [← h] at hr
          exact hpart r hr
  | union c1 c2 ih1 ih2 =>
    intro tape target stk l h r hr
    simp only [State.ndQuery] at h
    cases h1 : c1.ndQuery tape target stk with
    | none => rw [h1] at h; simp at h
    | some l1 =>
      rw [h1] at h
      cases h2 : c2.ndQuery tape target stk with
      | none => rw [h2] at h; simp at h
      | some l2 =>
        rw [h2] at h
        simp only [Option.map_some', Option.bind_eq_bind', Option.some_bind', Option.pure_def] at h
        injection h with h
        rw [← h] at hr
        rcases List.mem_append.mp hr with hm1 | hm2
        · obtain ⟨ro, hro, htape⟩ := determinize_tapes l1 r hm1
          rcases ih1 tape target stk l1 h1 ro hro with hh | hh
          · exact Or.inl (by rw [htape, hh])
          · exact Or.inr (by rw [htape]; exact hh)
        · obtain ⟨ro, hro, htape⟩ := determinize_tapes l2 r hm2
          rcases ih2 tape target stk l2 h2 ro hro with hh | hh
          · exact Or.inl (by rw [htape, hh])
          · exact Or.inr (by rw [htape]; exact hh)
  | join c1 c2 ih1 ih2 =>
    intro tape target stk l h r hr
    simp only [State.ndQuery] at h
    cases h1 : c1.ndQuery tape target stk with
    | none => rw [h1] at h; simp at h
    | some l1 =>
      rw [h1] at h
      cases h2 : c2.ndQuery tape target stk with
      | none => rw [h2] at h; simp at h
      | some l2 =>
        rw [h2] at h
        simp only [Option.map_some', Option.bind_eq_bind', Option.some_bind', Option.pure_def] at h
        injection h with h
        rw [← h] at hr
        obtain ⟨r1, hr1, hmem⟩ := List.mem_flatMap.mp hr
        obtain ⟨r2, hr2, hf⟩ := List.mem_filterMap.mp hmem
        have horigin1 : r1.tape = tape ∨ (0 < r1.tape.numTapes ∧ 0 < tape.numTapes) := by
          obtain ⟨ro, hro, htape⟩ := determinize_tapes l1 r1 hr1
          rcases ih1 tape target stk l1 h1 ro hro with hh | hh
          · exact Or.inl (by rw [htape, hh])
          · exact Or.inr (by rw [htape]; exact hh)
        have horigin2 : r2.tape = tape ∨ (0 < r2.tape.numTapes ∧ 0 < tape.numTapes) := by
          obtain ⟨ro, hro, htape⟩ := determinize_tapes l2 r2 hr2
          rcases ih2 tape target stk l2 h2 ro hro with hh | hh
          · exact Or.inl (by rw [htape, hh])
          · exact Or.inr (by rw [htape]; exact hh)
        by_cases hmm : (r1.matched && r2.matched) = true
        · rw [if_pos hmm] at hf
          by_cases hnm : r1.tape.tapeName = r2.tape.tapeName
          · rw [if_pos hnm] at hf
            by_cases hint : ¬ r1.token.bits ∩ r2.token.bits = ∅
            · rw [if_pos hint] at hf
              injection hf with hf
              rw [← hf]
              exact horigin1
            · rw [if_neg hint] at hf
              simp at hf
          · rw [if_neg hnm] at hf
            simp at hf
        · rw [if_neg hmm] at hf
          by_cases hm1 : r1.matched = true
          · rw [if_pos hm1] at hf
            injection hf with hf
            rw [← hf]
            exact horigin1
          · rw [if_neg hm1] at hf
            by_cases hm2 : r2.matched = true
            · rw [if_pos hm2] at hf
              injection hf with hf
              rw [← hf]
              exact horigin2
            · rw [if_neg hm2] at hf
              injection hf with hf
              rw [← hf]
              exact Or.inl rfl

theorem determinizeStep_pos_eq (acc : List QueryResult) (x : QueryResult)
    (h0 : ¬ x.tape.numTapes = 0) :
    determinizeStep acc x =
      if ¬ (dqFold x.tape x.matched x.next acc x.token.bits).2 = ∅ then
        (dqFold x.tape x.matched x.next acc x.token.bits).1 ++
          [⟨x.tape, ⟨(dqFold x.tape x.matched x.next acc x.token.bits).2⟩, x.matched, x.next⟩]
      else (dqFold x.tape x.matched x.next acc x.token.bits).1 := by
  unfold determinizeStep
  rw [if_neg h0]

/-- C1: (1) dQuery results are pairwise disjoint per tape: no two results
whose tapes share a tapeName (both with positive numTapes) have tokens
sharing a bit, for any state built from the constructors and any query.
(2) When ndQuery yields exactly two overlapping results on the same tape,
dQuery yields the shared bit portion exactly once, with a UnionState of the
two original continuations and the OR of the two matched flags, followed by
the two non-shared remainders (each only when non-empty). -/
theorem dQuery_disjoint_spec :
    (∀ (s : State) (tape : Tape) (target : Token) (stk : CounterStack)
        (l : List QueryResult),
      s.dQuery tape target stk = some l → ResultsDisjoint l) ∧
    (∀ (s : State) (tape : Tape) (target : Token) (stk : CounterStack)
        (r1 r2 : QueryResult),
      s.ndQuery tape target stk = some [r1, r2] →
      r1.tape.tapeName = r2.tape.tapeName →
      0 < r1.tape.numTapes → 0 < r2.tape.numTapes →
      ¬ r1.token.bits ∩ r2.token.bits = ∅ →
      s.dQuery tape target stk = some (
        ⟨r2.tape, ⟨r2.token.bits ∩ r1.token.bits⟩, r2.matched || r1.matched,
          .union r2.next r1.next⟩ ::
        ((if r1.token.bits \ r2.token.bits = ∅ then [] else
            [⟨r1.tape, ⟨r1.token.bits \ r2.token.bits⟩, r1.matched, r1.next⟩]) ++
         (if r2.token.bits \ r1.token.bits = ∅ then [] else
            [⟨r2.tape, ⟨r2.token.bits \ r1.token.bits⟩, r2.matched, r2.next⟩])))) := by
  constructor
  · intro s tape target stk l h
    unfold State.dQuery at h
    cases hn : s.ndQuery tape target stk with
    | none => rw [hn] at h; simp at h
    | some l0 =>
      rw [hn] at h
      simp only [Option.map_some'] at h
      injection h with h
      rw [← h]
      by_cases hpos : 0 < tape.numTapes
      · apply determinize_disjoint
        intro r hr
        rcases ndQuery_tape_origin s tape target stk l0 hn r hr with he | he
        · rw [he]; exact hpos
        · exact he.1
      · apply resultsDisjoint_of_zero
        intro r hr
        obtain ⟨ro, hro, htape⟩ := determinize_tapes l0 r hr
        rcases ndQuery_tape_origin s tape target stk l0 hn ro hro with he | he
        · rw [htape, he]; exact hpos
        · exact absurd he.2 hpos
  · intro s tape target stk r1 r2 hnd hname hp1 hp2 hinter
    have h01 : ¬ r1.tape.numTapes = 0 := Nat.pos_iff_ne_zero.mp hp1
    have h02 : ¬ r2.tape.numTapes = 0 := Nat.pos_iff_ne_zero.mp hp2
    have hb1ne : ¬ r1.token.bits = ∅ := by
      intro hb
      apply hinter
      rw [hb]
      exact Finset.empty_inter r2.token.bits
    have hinter' : ¬ r2.token.bits ∩ r1.token.bits = ∅ := by
      rw [Finset.inter_comm]
      exact hinter
    have hstep1 : determinizeStep [] r1 = [r1] := by
      rw [determinizeStep_pos_eq [] r1 h01, dqFold_nil]
      rw [if_pos hb1ne]
      rfl
    have hcond : ¬ r2.tape.tapeName ≠ r1.tape.tapeName := not_not_intro hname.symm
    have hstep2 : determinizeStep [r1] r2 =
        ⟨r2.tape, ⟨r2.token.bits ∩ r1.token.bits⟩, r2.matched || r1.matched,
          .union r2.next r1.next⟩ ::
        ((if r1.token.bits \ r2.token.bits = ∅ then [] else
            [⟨r1.tape, ⟨r1.token.bits \ r2.token.bits⟩, r1.matched, r1.next⟩]) ++
         (if r2.token.bits \ r1.token.bits = ∅ then [] else
            [⟨r2.tape, ⟨r2.token.bits \ r1.token.bits⟩, r2.matched, r2.next⟩])) := by
      rw [determinizeStep_pos_eq [r1] r2 h02]
      rw [dqFold_cons_eq r2.tape r2.matched r2.next r1 [] r2.token.bits hcond]
      rw [dqFold_nil]
      simp only [Finset.sdiff_inter_self_left, Finset.sdiff_inter_self_right]
      rw [if_pos hinter']
      by_cases hs1 : r1.token.bits \ r2.token.bits = ∅
      · rw [if_neg (not_not_intro hs1), if_pos hs1]
        by_cases hs2 : r2.token.bits \ r1.token.bits = ∅
        · rw [if_neg (not_not_intro hs2), if_pos hs2]
          simp
        · rw [if_pos hs2, if_neg hs2]
          simp
      · rw [if_pos hs1, if_neg hs1]
        by_cases hs2 : r2.token.bits \ r1.token.bits = ∅
        · rw [if_neg (not_not_intro hs2), if_pos hs2]
          simp
        · rw [if_pos hs2, if_neg hs2]
          simp
    unfold State.dQuery
    rw [hnd]
    simp only [Option.map_some']
    congr 1
    show determinizeStep (determinizeStep [] r1) r2 = _
    rw [hstep1, hstep2]

/-- Witness for dQuery_disjoint_spec at a concrete two-result overlapping
query: the union of two any-char states on the same tape. -/
theorem dQuery_disjoint_spec_witness :
    ResultsDisjoint
      [⟨.stringTape "T" [], ⟨Finset.univ ∩ Finset.univ⟩, true || true,
        .union .trivial .trivial⟩] ∧
    State.dQuery (.union (.anyChar "T") (.anyChar "T"))
        (.collection ["T"] []) ANY_CHAR (.init 4) =
      some (
        ⟨.stringTape "T" [], ⟨Finset.univ ∩ Finset.univ⟩, true || true,
          .union .trivial .trivial⟩ ::
        ((if (Finset.univ : BitSet) \ Finset.univ = ∅ then [] else
            [⟨.stringTape "T" [], ⟨Finset.univ \ Finset.univ⟩, true, .trivial⟩]) ++
         (if (Finset.univ : BitSet) \ Finset.univ = ∅ then [] else
            [⟨.stringTape "T" [], ⟨Finset.univ \ Finset.univ⟩, true, .trivial⟩]))) := by
  constructor
  · exact dQuery_disjoint_spec.1 (.union (.anyChar "T") (.anyChar "T"))
      (.collection ["T"] []) ANY_CHAR (.init 4)
      [⟨.stringTape "T" [], ⟨Finset.univ ∩ Finset.univ⟩, true || true,
        .union .trivial .trivial⟩] (by decide)
  · exact dQuery_disjoint_spec.2 (.union (.anyChar "T") (.anyChar "T"))
      (.collection ["T"] []) ANY_CHAR (.init 4)
      ⟨.stringTape "T" [], ⟨Finset.univ⟩, true, .trivial⟩
      ⟨.stringTape "T" [], ⟨Finset.univ⟩, true, .trivial⟩
      (by decide) rfl (by decide) (by decide) (by decide)

/-! The vocabulary built by tokenization, and the tokens it produces
(toward claims C2, C5, C6). -/

/-- The one-hot bit set at index `i` (the value `toBits` produces for a
registered character whose index fits). -/
def oneHot (i : Nat) : BitSet :=
  if h : i < 32 then {⟨i, h⟩} else ∅

/-- The vocabulary after tokenizing the given characters (pure growth part
of `tokenize`). -/
def registerChars (v : List Char) : List Char → List Char
  | [] => v
  | c :: cs => registerChars (if c ∈ v then v else v ++ [c]) cs

/-- The tokens `tokenize` produces against a final vocabulary `w`. -/
def tokensOf (w : List Char) (cs : List Char) : List Token :=
  cs.map (fun c => ⟨oneHot (w.indexOf c)⟩)

theorem registerChars_append : ∀ (cs v : List Char), ∃ u, registerChars v cs = v ++ u := by
  intro cs
  induction cs with
  | nil => intro v; exact ⟨[], by rw [registerChars, List.append_nil]⟩
  | cons c cs ih =>
    intro v
    by_cases hc : c ∈ v
    · obtain ⟨u, hu⟩ := ih v
      exact ⟨u, by rw [registerChars, if_pos hc, hu]⟩
    · obtain ⟨u, hu⟩ := ih (v ++ [c])
      exact ⟨[c] ++ u, by rw [registerChars, if_neg hc, hu, List.append_assoc]⟩

theorem registerChars_nodup : ∀ (cs v : List Char), v.Nodup → (registerChars v cs).Nodup := by
  intro cs
  induction cs with
  | nil => intro v hv; exact hv
  | cons c cs ih =>
    intro v hv
    by_cases hc : c ∈ v
    · rw [registerChars, if_pos hc]
      exact ih v hv
    · rw [registerChars, if_neg hc]
      apply ih
      simp [List.nodup_append, hv, hc]

theorem mem_registerChars_left : ∀ (cs v : List Char) (c : Char), c ∈ v →
    c ∈ registerChars v cs := by
  intro cs v c hc
  obtain ⟨u, hu⟩ := registerChars_append cs v
  rw [hu]
  exact List.mem_append_left u hc

theorem mem_registerChars : ∀ (cs v : List Char) (c : Char), c ∈ cs →
    c ∈ registerChars v cs := by
  intro cs
  induction cs with
  | nil => intro v c hc; exact absurd hc (List.not_mem_nil c)
  | cons c0 cs ih =>
    intro v c hc
    rcases List.mem_cons.mp hc with h | h
    · subst h
      by_cases hc0 : c ∈ v
      · rw [registerChars, if_pos hc0]
        exact mem_registerChars_left cs v c hc0
      · rw [registerChars, if_neg hc0]
        exact mem_registerChars_left cs (v ++ [c]) c (by simp)
    · rw [registerChars]
      exact ih _ c h

theorem length_le_registerChars (cs v : List Char) :
    v.length ≤ (registerChars v cs).length := by
  obtain ⟨u, hu⟩ := registerChars_append cs v
  rw [hu, List.length_append]
  exact Nat.le_add_right v.length u.length

theorem indexOf_registerChars (cs v : List Char) (c : Char) (hc : c ∈ v) :
    (registerChars v cs).indexOf c = v.indexOf c := by
  obtain ⟨u, hu⟩ := registerChars_append cs v
  rw [hu]
  exact List.indexOf_append_of_mem hc

theorem toBitsRaw_mem (v : List Char) (c : Char) (hc : c ∈ v) (h32 : v.indexOf c < 32) :
    toBitsRaw v c = some (oneHot (v.indexOf c)) := by
  simp [toBitsRaw, strToIndexGet, oneHot, hc, h32]

/-- tokenize succeeds exactly as the spec of the vocabulary says, producing
one-hot tokens indexed against the final vocabulary, provided the final
vocabulary fits in 32 characters. -/
theorem tokenizeGo_ok : ∀ (cs v : List Char), v.Nodup →
    (registerChars v cs).length ≤ 32 →
    tokenizeGo v cs = some (tokensOf (registerChars v cs) cs, registerChars v cs) := by
  intro cs
  induction cs with
  | nil => intro v _ _; rfl
  | cons c cs ih =>
    intro v hv hlen
    by_cases hc : c ∈ v
    · have hreg : registerChars v (c :: cs) = registerChars v cs := by
        rw [registerChars, if_pos hc]
      have hidx : v.indexOf c < v.length := List.indexOf_lt_length.mpr hc
      have h32 : v.indexOf c < 32 := by
        have := length_le_registerChars cs v
        rw [hreg] at hlen
        omega
      have hget : strToIndexGet v c = some (v.indexOf c) := by
        unfold strToIndexGet
        rw [if_pos hc]
      rw [tokenizeGo]
      rw [show (if (strToIndexGet v c).isSome = true then v else registerToken v c) = v from by
        rw [hget]; rfl]
      rw [toBitsRaw_mem v c hc h32]
      simp only [Option.bind_eq_bind', Option.some_bind']
      rw [ih v hv (by rw [hreg] at hlen; exact hlen)]
      simp only [Option.bind_eq_bind', Option.some_bind']
      rw [hreg]
      unfold tokensOf
      rw [List.map_cons]
      rw [indexOf_registerChars cs v c hc]
      rfl
    · have hreg : registerChars v (c :: cs) = registerChars (v ++ [c]) cs := by
        rw [registerChars, if_neg hc]
      have hnodup : (v ++ [c]).Nodup := by simp [List.nodup_append, hv, hc]
      have hmem : c ∈ v ++ [c] := by simp
      have hidx : (v ++ [c]).indexOf c = v.length := by
        rw [List.indexOf_append_of_not_mem hc]
        simp
      have h32 : (v ++ [c]).indexOf c < 32 := by
        have h1 := length_le_registerChars cs (v ++ [c])
        rw [hreg] at hlen
        rw [hidx]
        have : (v ++ [c]).length = v.length + 1 := by simp
        omega
      have hget : strToIndexGet v c = none := by
        unfold strToIndexGet
        rw [if_neg hc]
      rw [tokenizeGo]
      rw [show (if (strToIndexGet v c).isSome = true then v else registerToken v c) =
          v ++ [c] from by rw [hget]; rfl]
      rw [toBitsRaw_mem (v ++ [c]) c hmem h32]
      simp only [Option.bind_eq_bind', Option.some_bind']
      rw [ih (v ++ [c]) hnodup (by rw [hreg] at hlen; exact hlen)]
      simp only [Option.bind_eq_bind', Option.some_bind']
      rw [hreg]
      unfold tokensOf
      rw [List.map_cons]
      rw [indexOf_registerChars cs (v ++ [c]) c hmem]
      rfl

theorem fromBitsGo_skip (w : List Char) (bits : BitSet) :
    ∀ (fuel j : Nat), (∀ (i : Nat) (h : i < 32), j ≤ i → (⟨i, h⟩ : Fin 32) ∉ bits) →
    fromBitsGo w bits j fuel = [] := by
  intro fuel
  induction fuel with
  | zero => intro j _; rfl
  | succ fuel ih =>
    intro j hj
    rw [fromBitsGo]
    by_cases h : j < 32
    · rw [dif_pos h, if_neg (hj j h (Nat.le_refl j))]
      exact ih (j + 1) (fun i hi hji => hj i hi (Nat.le_of_succ_le hji))
    · rw [dif_neg h]

theorem fromBitsGo_single (w : List Char) (k : Nat) (hk : k < 32) (hkw : k < w.length) :
    ∀ (fuel j : Nat), j ≤ k → k < j + fuel →
    fromBitsGo w ({⟨k, hk⟩} : BitSet) j fuel = [w.get ⟨k, hkw⟩] := by
  intro fuel
  induction fuel with
  | zero => intro j h1 h2; omega
  | succ fuel ih =>
    intro j h1 h2
    rw [fromBitsGo]
    by_cases hj : j = k
    · subst hj
      rw [dif_pos (by omega : j < 32)]
      rw [if_pos (by simp)]
      rw [List.get?_eq_get hkw]
      have htail : fromBitsGo w ({⟨j, hk⟩} : BitSet) (j + 1) fuel = [] := by
        apply fromBitsGo_skip
        intro i hi hji
        simp only [Finset.mem_singleton]
        intro hcon
        have : i = j := by
          have := congrArg Fin.val hcon
          simpa using this
        omega
      rw [htail]
    · have hjk : j < k := Nat.lt_of_le_of_ne h1 hj
      rw [dif_pos (by omega : j < 32)]
      rw [if_neg (by
        simp only [Finset.mem_singleton]
        intro hcon
        have := congrArg Fin.val hcon
        simp only at this
        omega)]
      exact ih (j + 1) (by omega) (by omega)

theorem fromBitsRaw_oneHot (w : List Char) (k : Nat) (hk32 : k < 32) (hkw : k < w.length) :
    fromBitsRaw w (oneHot k) = [w.get ⟨k, hkw⟩] := by
  unfold fromBitsRaw oneHot
  rw [dif_pos hk32]
  exact fromBitsGo_single w k hk32 hkw 32 0 (Nat.zero_le k) (by omega)

theorem fromBitsRaw_oneHot_indexOf (w : List Char) (c : Char) (hc : c ∈ w)
    (h32 : w.indexOf c < 32) : fromBitsRaw w (oneHot (w.indexOf c)) = [c] := by
  have hkw : w.indexOf c < w.length := List.indexOf_lt_length.mpr hc
  rw [fromBitsRaw_oneHot w _ h32 hkw, List.indexOf_get]

theorem oneHot_nonempty (k : Nat) (hk : k < 32) : ¬ oneHot k = ∅ := by
  unfold oneHot
  rw [dif_pos hk]
  simp

/-- The determinizer is the identity on a single positive non-empty
transition. -/
theorem determinize_single (x : QueryResult) (h0 : ¬ x.tape.numTapes = 0)
    (hb : ¬ x.token.bits = ∅) : determinize [x] = [x] := by
  show determinizeStep [] x = [x]
  rw [determinizeStep_pos_eq [] x h0, dqFold_nil, if_pos hb]
  rfl

/-- A query on a non-accepting annotated literal under a collection that
contains its tape: one matched transition consuming the first token. -/
theorem dQuery_literal_cons_run (T : String) (names : List String) (w : List Char)
    (hT : T ∈ names) (text : List Char) (tok : Token) (rest : List Token)
    (stk : CounterStack) (hne : ¬ tok.bits = ∅) :
    State.dQuery (.literal T text (tok :: rest) true) (.collection names w) ANY_CHAR stk =
      some [⟨.stringTape T w, tok, true,
        .literal T (text.drop (fromBitsRaw w tok.bits).length) rest true⟩] := by
  have hmt : (Tape.collection names w).matchTape T = some (.stringTape T w) := by
    simp [Tape.matchTape, hT]
  unfold State.dQuery
  rw [ndQuery_literal_cons_eq T text tok rest true (.collection names w) ANY_CHAR stk _ hmt]
  have hmatch : (Tape.stringTape T w).matchToken tok ANY_CHAR = some ⟨tok.bits ∩ Finset.univ⟩ :=
    rfl
  rw [hmatch]
  simp only [Option.some_bind']
  have hsucc : literalSuccessor T text tok rest true (.stringTape T w) =
      some (.literal T (text.drop (fromBitsRaw w tok.bits).length) rest true) := by
    unfold literalSuccessor
    rw [if_pos rfl]
    have hfb : (Tape.stringTape T w).fromBits T tok.bits = some (fromBitsRaw w tok.bits) := by
      simp [Tape.fromBits, StringTape.fromBits]
    rw [hfb]
    simp only [Option.bind_eq_bind', Option.some_bind']
    rfl
  rw [hsucc]
  simp only [Option.some_bind', Option.map_some']
  have htok : (⟨tok.bits ∩ Finset.univ⟩ : Token) = tok := by
    rw [Finset.inter_univ]
  rw [htok]
  congr 1
  exact determinize_single _ (by simp [Tape.numTapes]) hne

/-- A query on an accepting annotated literal under a collection containing
its tape yields nothing. -/
theorem dQuery_literal_nil_run (T : String) (names : List String) (w : List Char)
    (hT : T ∈ names) (text : List Char) (collected : Bool) (stk : CounterStack) :
    State.dQuery (.literal T text [] collected) (.collection names w) ANY_CHAR stk =
      some [] := by
  have hmt : (Tape.collection names w).matchTape T = some (.stringTape T w) := by
    simp [Tape.matchTape, hT]
  unfold State.dQuery
  rw [ndQuery_literal_nil_eq T text collected (.collection names w) ANY_CHAR stk _ hmt]
  rfl

theorem generateAux_nil_queue (tapes : Tape) (stk : CounterStack) :
    ∀ fuel, generateAux tapes stk [] fuel = (some [], 0, []) := by
  intro fuel
  cases fuel with
  | zero => rfl
  | succ fuel => simp [generateAux]

theorem genStep_singleton_eq (tapes : Tape) (stk : CounterStack) (out : MultiTapeOutput)
    (st : State) (os : List StringDict) (rs : List QueryResult)
    (hacc : acceptOutputs stk out st = some os)
    (hdq : st.dQuery tapes ANY_CHAR stk = some rs) :
    genStep tapes stk [(out, st)] = some (os, matchedSuccessors out rs) := by
  simp [genStep, List.mapM, List.mapM.loop, hacc, hdq,
    Option.bind_eq_bind', Option.some_bind']

theorem genStep_singleton_accept_none (tapes : Tape) (stk : CounterStack)
    (out : MultiTapeOutput) (st : State)
    (hacc : acceptOutputs stk out st = none) :
    genStep tapes stk [(out, st)] = none := by
  simp [genStep, List.mapM, List.mapM.loop, hacc,
    Option.bind_eq_bind', Option.none_bind']

/-- The breadth-first run of a single annotated literal: each iteration
consumes one token onto the output, and the accepting step emits the decoded
records. -/
theorem generateAux_literal_run (T : String) (names : List String) (w : List Char)
    (hT : T ∈ names) (stk : CounterStack) :
    ∀ (toks : List Token) (text : List Char) (out : MultiTapeOutput) (fuel : Nat),
      (∀ tok ∈ toks, ¬ tok.bits = ∅) →
      toks.length < fuel →
      (generateAux (.collection names w) stk [(out, .literal T text toks true)] fuel).1 =
        (toks.foldl (fun o tok => o.add (.stringTape T w) tok) out).toStrings := by
  intro toks
  induction toks with
  | nil =>
    intro text out fuel _ hfuel
    cases fuel with
    | zero => omega
    | succ fuel =>
      rw [List.foldl_nil]
      have hdq := dQuery_literal_nil_run T names w hT text true stk
      cases hts : out.toStrings with
      | none =>
        have hacc : acceptOutputs stk out (State.literal T text [] true) = none := by
          unfold acceptOutputs
          rw [if_pos (show (State.literal T text [] true).accepting stk = true from rfl), hts]
        have hgs := genStep_singleton_accept_none (.collection names w) stk out
          (.literal T text [] true) hacc
        simp [generateAux, hgs]
      | some ss =>
        have hacc : acceptOutputs stk out (State.literal T text [] true) = some ss := by
          unfold acceptOutputs
          rw [if_pos (show (State.literal T text [] true).accepting stk = true from rfl), hts]
        have hgs := genStep_singleton_eq (.collection names w) stk out
          (.literal T text [] true) ss [] hacc hdq
        have hms : matchedSuccessors out [] = [] := rfl
        rw [hms] at hgs
        simp [generateAux, hgs, generateAux_nil_queue]
  | cons tok toks ih =>
    intro text out fuel hbits hfuel
    cases fuel with
    | zero => simp at hfuel
    | succ fuel =>
      have hne : ¬ tok.bits = ∅ := hbits tok (List.mem_cons_self tok toks)
      have hdq := dQuery_literal_cons_run T names w hT text tok toks stk hne
      have hacc : acceptOutputs stk out (.literal T text (tok :: toks) true) = some [] := by
        unfold acceptOutputs
        rw [if_neg (by simp [State.accepting])]
      have hgs := genStep_singleton_eq (.collection names w) stk out
        (.literal T text (tok :: toks) true) []
        [⟨.stringTape T w, tok, true,
          .literal T (text.drop (fromBitsRaw w tok.bits).length) toks true⟩] hacc hdq
      have hms : matchedSuccessors out
          [⟨.stringTape T w, tok, true,
            .literal T (text.drop (fromBitsRaw w tok.bits).length) toks true⟩] =
          [(out.add (.stringTape T w) tok,
            .literal T (text.drop (fromBitsRaw w tok.bits).length) toks true)] := rfl
      rw [hms] at hgs
      have hrec := ih (text.drop (fromBitsRaw w tok.bits).length)
        (out.add (.stringTape T w) tok) fuel
        (fun t ht => hbits t (List.mem_cons_of_mem tok ht))
        (by simp at hfuel; omega)
      rw [List.foldl_cons]
      rw [← hrec]
      cases hgen : generateAux (.collection names w) stk
          [(out.add (.stringTape T w) tok,
            .literal T (text.drop (fromBitsRaw w tok.bits).length) toks true)] fuel with
      | mk r rest =>
        cases r with
        | none => simp [generateAux, hgs, hgen]
        | some rr => simp [generateAux, hgs, hgen]

/-- The decoded strings of an optional output chain (`None` stands for no
previous output, decoding to the single empty string). -/
def getStringsOpt : Option SingleTapeOutput → Option (List (List Char))
  | none => some [([] : List Char)]
  | some p => p.getStrings

/-- The entry list of a MultiTapeOutput holding at most the one tape `T`. -/
def entriesOf (T : String) : Option SingleTapeOutput → List (String × SingleTapeOutput)
  | none => []
  | some sto => [(T, sto)]

/-- The chain of output nodes created by successive adds on one tape. -/
def chainTok (T : String) (w : List Char) (ent : Option SingleTapeOutput)
    (toks : List Token) : Option SingleTapeOutput :=
  toks.foldl (fun e tok => some (.node (.stringTape T w) tok e)) ent

theorem flatMap_single {α β : Type} (l : List α) (g : α → β) :
    (l.flatMap (fun a => [g a])) = l.map g := by
  induction l with
  | nil => rfl
  | cons a l ih => simp [ih]

theorem getStrings_node (tape : Tape) (token : Token) (prev : Option SingleTapeOutput) :
    (SingleTapeOutput.node tape token prev).getStrings =
      (getStringsOpt prev).bind (fun prevStrings =>
        (tape.fromBits tape.tapeName token.bits).bind (fun cs =>
          some (prevStrings.flatMap (fun s => cs.map (fun c => s ++ [c]))))) := by
  cases prev <;>
    simp [SingleTapeOutput.getStrings, getStringsOpt, Option.bind_eq_bind']

theorem mto_fold_add (T : String) (w : List Char) :
    ∀ (toks : List Token) (ent : Option SingleTapeOutput),
      toks.foldl (fun (o : MultiTapeOutput) tok => o.add (.stringTape T w) tok)
          (MultiTapeOutput.mk (entriesOf T ent)) =
        MultiTapeOutput.mk (entriesOf T (chainTok T w ent toks)) := by
  intro toks
  induction toks with
  | nil => intro ent; rfl
  | cons tok toks ih =>
    intro ent
    rw [List.foldl_cons]
    have hadd : (MultiTapeOutput.mk (entriesOf T ent)).add (.stringTape T w) tok =
        ⟨entriesOf T (some (.node (.stringTape T w) tok ent))⟩ := by
      cases ent with
      | none =>
        simp [MultiTapeOutput.add, Tape.numTapes, Tape.tapeName, entriesOf,
          dictGet, dictUpd]
      | some sto =>
        simp [MultiTapeOutput.add, Tape.numTapes, Tape.tapeName, entriesOf,
          dictGet, dictUpd, List.find?]
    rw [hadd]
    exact ih (some (.node (.stringTape T w) tok ent))

theorem chainTok_getStrings (T : String) (w : List Char) (hlen : w.length ≤ 32) :
    ∀ (cs : List Char), (∀ c ∈ cs, c ∈ w) →
    ∀ (ent : Option SingleTapeOutput) (ss : List (List Char)),
      getStringsOpt ent = some ss →
      getStringsOpt (chainTok T w ent (tokensOf w cs)) =
        some (ss.map (fun s => s ++ cs)) := by
  intro cs
  induction cs with
  | nil =>
    intro _ ent ss hent
    unfold chainTok tokensOf
    simp only [List.map_nil, List.foldl_nil]
    rw [hent]
    simp
  | cons c cs ih =>
    intro hall ent ss hent
    have hcw : c ∈ w := hall c (List.mem_cons_self c cs)
    have hidx : w.indexOf c < w.length := List.indexOf_lt_length.mpr hcw
    have h32 : w.indexOf c < 32 := by omega
    have hfb : (Tape.stringTape T w).fromBits T (oneHot (w.indexOf c)) =
        some (fromBitsRaw w (oneHot (w.indexOf c))) := by
      simp [Tape.fromBits, StringTape.fromBits]
    have hnode : getStringsOpt (some (.node (.stringTape T w)
        ⟨oneHot (w.indexOf c)⟩ ent)) = some (ss.map (fun s => s ++ [c])) := by
      show (SingleTapeOutput.node (.stringTape T w) ⟨oneHot (w.indexOf c)⟩ ent).getStrings = _
      rw [getStrings_node, hent]
      simp only [Option.some_bind']
      rw [show (Tape.stringTape T w).tapeName = T from rfl]
      rw [hfb]
      simp only [Option.some_bind']
      rw [fromBitsRaw_oneHot_indexOf w c hcw h32]
      congr 1
      rw [show (fun s => List.map (fun ch => s ++ [ch]) [c]) =
        (fun s => [s ++ [c]]) from rfl]
      exact flatMap_single ss (fun s => s ++ [c])
    have hchain : chainTok T w ent (tokensOf w (c :: cs)) =
        chainTok T w (some (.node (.stringTape T w) ⟨oneHot (w.indexOf c)⟩ ent))
          (tokensOf w cs) := by
      unfold chainTok tokensOf
      simp
    rw [hchain]
    rw [ih (fun c' hc' => hall c' (List.mem_cons_of_mem c hc'))
      (some (.node (.stringTape T w) ⟨oneHot (w.indexOf c)⟩ ent))
      (ss.map (fun s => s ++ [c])) hnode]
    congr 1
    rw [List.map_map]
    apply List.map_congr_left
    intro s _
    simp

theorem toStrings_single_entry (T : String) (sto : SingleTapeOutput)
    (ss : List (List Char)) (hs : sto.getStrings = some ss) :
    (MultiTapeOutput.mk [(T, sto)]).toStrings =
      some (ss.map (fun s => [(T, s)])) := by
  unfold MultiTapeOutput.toStrings
  simp only [List.foldlM, hs, Option.bind_eq_bind', Option.some_bind']
  rw [show (fun (s : List Char) => List.map (fun (r : StringDict) => dictUpd r T s)
    [[]]) = (fun s => [[(T, s)]]) from by
    funext s
    simp [dictUpd]]
  rw [flatMap_single]
  rfl

/-- A non-empty token chain always produces a node. -/
theorem chainTok_isSome (T : String) (w : List Char) :
    ∀ (toks : List Token) (ent : Option SingleTapeOutput), toks ≠ [] →
      ∃ sto, chainTok T w ent toks = some sto := by
  intro toks
  induction toks with
  | nil => intro ent h; exact absurd rfl h
  | cons tok toks ih =>
    intro ent _
    cases toks with
    | nil => exact ⟨.node (.stringTape T w) tok ent, rfl⟩
    | cons tok2 toks2 =>
      exact ih (some (.node (.stringTape T w) tok ent)) (by simp)

theorem collectVocab_lit (T : String) (s : List Char) (toks0 : List Token) (c0 : Bool)
    (names : List String) (v : List Char) (hv : v.Nodup)
    (hlen : (registerChars v s).length ≤ 32) :
    collectVocab (.literal T s toks0 c0) names v =
      some (.literal T s (tokensOf (registerChars v s) s) true,
        (if T ∈ names then names else names ++ [T]), registerChars v s) := by
  unfold collectVocab TapeCollection.tokenize StringTape.tokenize
  rw [if_neg (show ¬ T ≠ T from by simp)]
  rw [tokenizeGo_ok s v hv hlen]
  simp [Option.bind_eq_bind', Option.some_bind']

/-- C2 (amended): for a non-empty literal whose characters fit in the 32-slot
vocabulary and whose length is under the default maxChars, generate yields
exactly the one record mapping the tape to the string. -/
theorem generate_literal_spec (T : String) (s : List Char)
    (hne : s ≠ [])
    (hlen : (registerChars [] s).length ≤ 32)
    (hfu : s.length < 1000) :
    State.generate (Lit T s) 4 1000 [] = some ([[(T, s)]], registerChars [] s) := by
  have hnodup : (registerChars [] s).Nodup := registerChars_nodup s [] List.nodup_nil
  have hcv : collectVocab (Lit T s) [] [] =
      some (.literal T s (tokensOf (registerChars [] s) s) true, [T], registerChars [] s) := by
    rw [show Lit T s = State.literal T s [] false from rfl]
    rw [collectVocab_lit T s [] false [] [] List.nodup_nil hlen]
    simp
  have hall : ∀ tok ∈ tokensOf (registerChars [] s) s, ¬ tok.bits = ∅ := by
    intro tok htok
    obtain ⟨c, hc, heq⟩ := List.mem_map.mp htok
    rw [← heq]
    apply oneHot_nonempty
    have hcw : c ∈ registerChars [] s := mem_registerChars s [] c hc
    have := List.indexOf_lt_length.mpr hcw
    omega
  have hlenToks : (tokensOf (registerChars [] s) s).length < 1000 := by
    unfold tokensOf
    rw [List.length_map]
    exact hfu
  have hrun := generateAux_literal_run T [T] (registerChars [] s)
    (by simp) (CounterStack.init 4) (tokensOf (registerChars [] s) s) s
    MultiTapeOutput.empty 1000 hall hlenToks
  have hfold := mto_fold_add T (registerChars [] s) (tokensOf (registerChars [] s) s) none
  have htoksne : tokensOf (registerChars [] s) s ≠ [] := by
    unfold tokensOf
    cases s with
    | nil => exact absurd rfl hne
    | cons c cs => simp
  obtain ⟨sto, hsto⟩ := chainTok_isSome T (registerChars [] s)
    (tokensOf (registerChars [] s) s) none htoksne
  have hchainS := chainTok_getStrings T (registerChars [] s) hlen s
    (fun c hc => mem_registerChars s [] c hc) none [[]] rfl
  rw [hsto] at hchainS
  have hstoS : sto.getStrings = some [s] := by
    have h1 : getStringsOpt (some sto) = some ([[]].map (fun x => x ++ s)) := hchainS
    simpa [getStringsOpt] using h1
  have hts : (MultiTapeOutput.mk [(T, sto)]).toStrings = some [[(T, s)]] := by
    rw [toStrings_single_entry T sto [s] hstoS]
    rfl
  rw [show MultiTapeOutput.empty = MultiTapeOutput.mk (entriesOf T none) from rfl] at hrun
  rw [hfold, hsto] at hrun
  rw [show entriesOf T (some sto) = [(T, sto)] from rfl, hts] at hrun
  unfold State.generate
  rw [hcv]
  simp only [Option.bind_eq_bind', Option.some_bind']
  cases hgen : generateAux (.collection [T] (registerChars [] s)) (CounterStack.init 4)
      [(MultiTapeOutput.mk (entriesOf T none),
        .literal T s (tokensOf (registerChars [] s) s) true)] 1000 with
  | mk r rest =>
    rw [hgen] at hrun
    simp only at hrun
    rw [show MultiTapeOutput.empty = MultiTapeOutput.mk (entriesOf T none) from rfl]
    rw [hgen, hrun]
    rfl

/-- C2 counterexample: with the empty string the driver accepts immediately
on the empty output, yielding the empty record, not a record mapping the
tape to the empty string. -/
theorem generate_literal_empty_counterexample :
    (State.generate (Lit "text" []) 4 1000 []).map Prod.fst = some [[]] ∧
    ¬ (State.generate (Lit "text" []) 4 1000 []).map Prod.fst =
        some [[("text", ([] : List Char))]] := by
  exact ⟨by decide, by decide⟩

/-- Witness for generate_literal_spec on a concrete literal. -/
theorem generate_literal_spec_witness :
    State.generate (Lit "text" ['h', 'i']) 4 1000 [] =
      some ([[("text", ['h', 'i'])]], ['h', 'i']) := by
  have h := generate_literal_spec "text" ['h', 'i'] (by decide) (by decide) (by decide)
  rw [h]
  decide

/-! Join lemmas (toward claim C6; `JoinState` is Modelled from the spec). -/

theorem ndQuery_join_run (c1 c2 : State) (tape : Tape) (target : Token)
    (stk : CounterStack) (rs1 rs2 : List QueryResult)
    (hd1 : c1.dQuery tape target stk = some rs1)
    (hd2 : c2.dQuery tape target stk = some rs2) :
    (State.join c1 c2).ndQuery tape target stk =
      some (rs1.flatMap (fun r1 => rs2.filterMap (fun r2 =>
        if r1.matched && r2.matched then
          if r1.tape.tapeName = r2.tape.tapeName then
            if ¬ r1.token.bits ∩ r2.token.bits = ∅ then
              some ⟨r1.tape, ⟨r1.token.bits ∩ r2.token.bits⟩, true, .join r1.next r2.next⟩
            else none
          else none
        else if r1.matched then some ⟨r1.tape, r1.token, true, .join r1.next r2.next⟩
        else if r2.matched then some ⟨r2.tape, r2.token, true, .join r1.next r2.next⟩
        else some ⟨tape, target, false, .join r1.next r2.next⟩))) := by
  unfold State.dQuery at hd1 hd2
  cases hn1 : c1.ndQuery tape target stk with
  | none => rw [hn1] at hd1; simp at hd1
  | some l1 =>
    cases hn2 : c2.ndQuery tape target stk with
    | none => rw [hn2] at hd2; simp at hd2
    | some l2 =>
      rw [hn1] at hd1
      rw [hn2] at hd2
      simp only [Option.map_some'] at hd1 hd2
      injection hd1 with hd1
      injection hd2 with hd2
      simp only [State.ndQuery, hn1, hn2, Option.map_some', Option.bind_eq_bind',
        Option.some_bind', Option.pure_def]
      rw [hd1, hd2]

/-- Querying a join of two annotated literals on the same tape, both
non-accepting: the intersection transition when the first tokens overlap,
nothing otherwise. -/
theorem dQuery_join_lits_cons (T : String) (names : List String) (w : List Char)
    (hT : T ∈ names) (t1 t2 : List Char) (tok1 tok2 : Token)
    (r1 r2 : List Token) (stk : CounterStack)
    (h1 : ¬ tok1.bits = ∅) (h2 : ¬ tok2.bits = ∅) :
    (State.join (.literal T t1 (tok1 :: r1) true) (.literal T t2 (tok2 :: r2) true)).dQuery
        (.collection names w) ANY_CHAR stk =
      (if ¬ tok1.bits ∩ tok2.bits = ∅ then
        some [⟨.stringTape T w, ⟨tok1.bits ∩ tok2.bits⟩, true,
          .join (.literal T (t1.drop (fromBitsRaw w tok1.bits).length) r1 true)
                (.literal T (t2.drop (fromBitsRaw w tok2.bits).length) r2 true)⟩]
      else some []) := by
  have hd1 := dQuery_literal_cons_run T names w hT t1 tok1 r1 stk h1
  have hd2 := dQuery_literal_cons_run T names w hT t2 tok2 r2 stk h2
  unfold State.dQuery
  rw [ndQuery_join_run _ _ _ _ _ _ _ hd1 hd2]
  simp only [Option.map_some']
  by_cases hint : ¬ tok1.bits ∩ tok2.bits = ∅
  · rw [if_pos hint]
    have hone := determinize_single (⟨.stringTape T w, ⟨tok1.bits ∩ tok2.bits⟩, true,
      .join (.literal T (t1.drop (fromBitsRaw w tok1.bits).length) r1 true)
            (.literal T (t2.drop (fromBitsRaw w tok2.bits).length) r2 true)⟩ : QueryResult)
      (by simp [Tape.numTapes]) (by simpa using hint)
    simp only [List.flatMap_cons, List.flatMap_nil, List.filterMap_cons, List.filterMap_nil,
      List.append_nil]
    simp [hint, hone]
  · rw [if_neg hint]
    simp only [List.flatMap_cons, List.flatMap_nil, List.filterMap_cons, List.filterMap_nil,
      List.append_nil]
    simp [hint, determinize, determinizeStep]

theorem determinize_nil : determinize [] = [] := rfl

theorem flatMap_const_nil {α β : Type} (l : List α) :
    (l.flatMap (fun _ => ([] : List β))) = [] := by
  induction l with
  | nil => rfl
  | cons a l ih => simp [ih]

/-- Querying a join whose left conjunct yields no transitions yields
nothing. -/
theorem dQuery_join_nil_left (c1 c2 : State) (tape : Tape) (target : Token)
    (stk : CounterStack) (rs2 : List QueryResult)
    (hd1 : c1.dQuery tape target stk = some [])
    (hd2 : c2.dQuery tape target stk = some rs2) :
    (State.join c1 c2).dQuery tape target stk = some [] := by
  unfold State.dQuery
  rw [ndQuery_join_run _ _ _ _ _ _ _ hd1 hd2]
  simp [determinize_nil]

/-- Querying a join whose right conjunct yields no transitions yields
nothing. -/
theorem dQuery_join_nil_right (c1 c2 : State) (tape : Tape) (target : Token)
    (stk : CounterStack) (rs1 : List QueryResult)
    (hd1 : c1.dQuery tape target stk = some rs1)
    (hd2 : c2.dQuery tape target stk = some []) :
    (State.join c1 c2).dQuery tape target stk = some [] := by
  unfold State.dQuery
  rw [ndQuery_join_run _ _ _ _ _ _ _ hd1 hd2]
  simp [flatMap_const_nil, determinize_nil]

theorem registerChars_id : ∀ (cs v : List Char), (∀ c ∈ cs, c ∈ v) →
    registerChars v cs = v := by
  intro cs
  induction cs with
  | nil => intro v _; rfl
  | cons c cs ih =>
    intro v h
    rw [registerChars, if_pos (h c (List.mem_cons_self c cs))]
    exact ih v (fun c' hc' => h c' (List.mem_cons_of_mem c hc'))

theorem tokensOf_registerChars (v cs ds : List Char) (h : ∀ c ∈ cs, c ∈ v) :
    tokensOf (registerChars v ds) cs = tokensOf v cs := by
  unfold tokensOf
  apply List.map_congr_left
  intro c hc
  rw [indexOf_registerChars ds v c (h c hc)]

theorem oneHot_disjoint (i j : Nat) (hij : i ≠ j) : oneHot i ∩ oneHot j = ∅ := by
  unfold oneHot
  by_cases hi : i < 32
  · by_cases hj : j < 32
    · rw [dif_pos hi, dif_pos hj]
      ext x
      simp only [Finset.mem_inter, Finset.mem_singleton, Finset.not_mem_empty, iff_false]
      intro ⟨h1, h2⟩
      apply hij
      have := h1.symm.trans h2
      have := congrArg Fin.val this
      simpa using this
    · rw [dif_neg hj]
      exact Finset.inter_empty _
  · rw [dif_neg hi]
    exact Finset.empty_inter _

theorem indexOf_ne_of_ne (w : List Char) (a b : Char) (ha : a ∈ w) (hb : b ∈ w)
    (hab : a ≠ b) : w.indexOf a ≠ w.indexOf b := by
  intro heq
  apply hab
  have hla : w.indexOf a < w.length := List.indexOf_lt_length.mpr ha
  have hlb : w.indexOf b < w.length := List.indexOf_lt_length.mpr hb
  have h1 : w.get ⟨w.indexOf a, hla⟩ = a := List.indexOf_get hla
  have h2 : w.get ⟨w.indexOf b, hlb⟩ = b := List.indexOf_get hlb
  rw [← h1, ← h2]
  congr 1
  exact Fin.ext heq

/-- The breadth-first run of a join of two identical-token literals: each
iteration consumes the shared token onto the output. -/
theorem generateAux_join_eq_run (T : String) (names : List String) (w : List Char)
    (hT : T ∈ names) (stk : CounterStack) :
    ∀ (toks : List Token) (t1 t2 : List Char) (out : MultiTapeOutput) (fuel : Nat),
      (∀ tok ∈ toks, ¬ tok.bits = ∅) →
      toks.length < fuel →
      (generateAux (.collection names w) stk
        [(out, .join (.literal T t1 toks true) (.literal T t2 toks true))] fuel).1 =
        (toks.foldl (fun o tok => o.add (.stringTape T w) tok) out).toStrings := by
  intro toks
  induction toks with
  | nil =>
    intro t1 t2 out fuel _ hfuel
    cases fuel with
    | zero => omega
    | succ fuel =>
      rw [List.foldl_nil]
      have hdq := dQuery_join_nil_left (.literal T t1 [] true) (.literal T t2 [] true)
        (.collection names w) ANY_CHAR stk []
        (dQuery_literal_nil_run T names w hT t1 true stk)
        (dQuery_literal_nil_run T names w hT t2 true stk)
      cases hts : out.toStrings with
      | none =>
        have hacc : acceptOutputs stk out
            (.join (.literal T t1 [] true) (.literal T t2 [] true)) = none := by
          unfold acceptOutputs
          rw [if_pos (show (State.join (.literal T t1 [] true)
            (.literal T t2 [] true)).accepting stk = true from rfl), hts]
        have hgs := genStep_singleton_accept_none (.collection names w) stk out
          (.join (.literal T t1 [] true) (.literal T t2 [] true)) hacc
        simp [generateAux, hgs]
      | some ss =>
        have hacc : acceptOutputs stk out
            (.join (.literal T t1 [] true) (.literal T t2 [] true)) = some ss := by
          unfold acceptOutputs
          rw [if_pos (show (State.join (.literal T t1 [] true)
            (.literal T t2 [] true)).accepting stk = true from rfl), hts]
        have hgs := genStep_singleton_eq (.collection names w) stk out
          (.join (.literal T t1 [] true) (.literal T t2 [] true)) ss [] hacc hdq
        have hms : matchedSuccessors out [] = [] := rfl
        rw [hms] at hgs
        simp [generateAux, hgs, generateAux_nil_queue]
  | cons tok toks ih =>
    intro t1 t2 out fuel hbits hfuel
    cases fuel with
    | zero => simp at hfuel
    | succ fuel =>
      have hne : ¬ tok.bits = ∅ := hbits tok (List.mem_cons_self tok toks)
      have hdq := dQuery_join_lits_cons T names w hT t1 t2 tok tok toks toks stk hne hne
      rw [if_pos (show ¬ tok.bits ∩ tok.bits = ∅ from by rw [Finset.inter_self]; exact hne)]
        at hdq
      rw [show (⟨tok.bits ∩ tok.bits⟩ : Token) = tok from by rw [Finset.inter_self]] at hdq
      have hacc : acceptOutputs stk out
          (.join (.literal T t1 (tok :: toks) true) (.literal T t2 (tok :: toks) true)) =
          some [] := by
        unfold acceptOutputs
        rw [if_neg (by simp [State.accepting])]
      have hgs := genStep_singleton_eq (.collection names w) stk out
        (.join (.literal T t1 (tok :: toks) true) (.literal T t2 (tok :: toks) true)) []
        [⟨.stringTape T w, tok, true,
          .join (.literal T (t1.drop (fromBitsRaw w tok.bits).length) toks true)
                (.literal T (t2.drop (fromBitsRaw w tok.bits).length) toks true)⟩] hacc hdq
      have hms : matchedSuccessors out
          [⟨.stringTape T w, tok, true,
            .join (.literal T (t1.drop (fromBitsRaw w tok.bits).length) toks true)
                  (.literal T (t2.drop (fromBitsRaw w tok.bits).length) toks true)⟩] =
          [(out.add (.stringTape T w) tok,
            .join (.literal T (t1.drop (fromBitsRaw w tok.bits).length) toks true)
                  (.literal T (t2.drop (fromBitsRaw w tok.bits).length) toks true))] := rfl
      rw [hms] at hgs
      have hrec := ih (t1.drop (fromBitsRaw w tok.bits).length)
        (t2.drop (fromBitsRaw w tok.bits).length)
        (out.add (.stringTape T w) tok) fuel
        (fun t ht => hbits t (List.mem_cons_of_mem tok ht))
        (by simp at hfuel; omega)
      rw [List.foldl_cons]
      rw [← hrec]
      cases hgen : generateAux (.collection names w) stk
          [(out.add (.stringTape T w) tok,
            .join (.literal T (t1.drop (fromBitsRaw w tok.bits).length) toks true)
                  (.literal T (t2.drop (fromBitsRaw w tok.bits).length) toks true))] fuel with
      | mk r rest =>
        cases r with
        | none => simp [generateAux, hgs, hgen]
        | some rr => simp [generateAux, hgs, hgen]

/-- The breadth-first run of a join of two distinct literal strings yields
no records: the run dies at the first difference (or at a prefix end), and
acceptance never holds. -/
theorem generateAux_join_ne_run (T : String) (names : List String) (w : List Char)
    (hT : T ∈ names) (hlen : w.length ≤ 32) (stk : CounterStack) :
    ∀ (fuel : Nat) (sa sb t1 t2 : List Char) (out : MultiTapeOutput),
      (∀ c ∈ sa, c ∈ w) → (∀ c ∈ sb, c ∈ w) → sa ≠ sb →
      (generateAux (.collection names w) stk
        [(out, .join (.literal T t1 (tokensOf w sa) true)
                     (.literal T t2 (tokensOf w sb) true))] fuel).1 = some [] := by
  intro fuel
  induction fuel with
  | zero => intro sa sb t1 t2 out _ _ _; rfl
  | succ fuel ih =>
    intro sa sb t1 t2 out ha hb hne
    have honeH : ∀ (c : Char), c ∈ w → ¬ (⟨oneHot (w.indexOf c)⟩ : Token).bits = ∅ := by
      intro c hc
      apply oneHot_nonempty
      have := List.indexOf_lt_length.mpr hc
      omega
    cases sa with
    | nil =>
      cases sb with
      | nil => exact absurd rfl hne
      | cons b bs =>
        have hd1 := dQuery_literal_nil_run T names w hT t1 true stk
        have hd2 := dQuery_literal_cons_run T names w hT t2
          ⟨oneHot (w.indexOf b)⟩ (tokensOf w bs) stk (honeH b (hb b (List.mem_cons_self b bs)))
        have hdq := dQuery_join_nil_left _ _ (.collection names w) ANY_CHAR stk _
          (by exact hd1) (by exact hd2)
        have hacc : acceptOutputs stk out
            (.join (.literal T t1 (tokensOf w []) true)
                   (.literal T t2 (tokensOf w (b :: bs)) true)) = some [] := by
          unfold acceptOutputs
          rw [if_neg (by simp [State.accepting, tokensOf])]
        have hgs := genStep_singleton_eq (.collection names w) stk out _ [] [] hacc
          (by unfold tokensOf at hdq ⊢; simpa using hdq)
        have hms : matchedSuccessors out [] = [] := rfl
        rw [hms] at hgs
        simp [generateAux, hgs, generateAux_nil_queue]
    | cons a as =>
      cases sb with
      | nil =>
        have hd1 := dQuery_literal_cons_run T names w hT t1
          ⟨oneHot (w.indexOf a)⟩ (tokensOf w as) stk (honeH a (ha a (List.mem_cons_self a as)))
        have hd2 := dQuery_literal_nil_run T names w hT t2 true stk
        have hdq := dQuery_join_nil_right _ _ (.collection names w) ANY_CHAR stk _
          (by exact hd1) (by exact hd2)
        have hacc : acceptOutputs stk out
            (.join (.literal T t1 (tokensOf w (a :: as)) true)
                   (.literal T t2 (tokensOf w []) true)) = some [] := by
          unfold acceptOutputs
          rw [if_neg (by simp [State.accepting, tokensOf])]
        have hgs := genStep_singleton_eq (.collection names w) stk out _ [] [] hacc
          (by unfold tokensOf at hdq ⊢; simpa using hdq)
        have hms : matchedSuccessors out [] = [] := rfl
        rw [hms] at hgs
        simp [generateAux, hgs, generateAux_nil_queue]
      | cons b bs =>
        have hacc : acceptOutputs stk out
            (.join (.literal T t1 (tokensOf w (a :: as)) true)
                   (.literal T t2 (tokensOf w (b :: bs)) true)) = some [] := by
          unfold acceptOutputs
          rw [if_neg (by simp [State.accepting, tokensOf])]
        by_cases hab : a = b
        · subst hab
          have hne2 : as ≠ bs := by
            intro hcon
            exact hne (by rw [hcon])
          have hdq := dQuery_join_lits_cons T names w hT t1 t2
            ⟨oneHot (w.indexOf a)⟩ ⟨oneHot (w.indexOf a)⟩ (tokensOf w as) (tokensOf w bs) stk
            (honeH a (ha a (List.mem_cons_self a as)))
            (honeH a (ha a (List.mem_cons_self a as)))
          rw [if_pos (show ¬ (⟨oneHot (w.indexOf a)⟩ : Token).bits ∩
              (⟨oneHot (w.indexOf a)⟩ : Token).bits = ∅ from by
            rw [Finset.inter_self]
            exact honeH a (ha a (List.mem_cons_self a as)))] at hdq
          rw [show (⟨(⟨oneHot (w.indexOf a)⟩ : Token).bits ∩
              (⟨oneHot (w.indexOf a)⟩ : Token).bits⟩ : Token) = ⟨oneHot (w.indexOf a)⟩ from by
            rw [Finset.inter_self]] at hdq
          have hgs := genStep_singleton_eq (.collection names w) stk out _ []
            [⟨.stringTape T w, ⟨oneHot (w.indexOf a)⟩, true,
              .join (.literal T
                  (t1.drop (fromBitsRaw w (⟨oneHot (w.indexOf a)⟩ : Token).bits).length)
                  (tokensOf w as) true)
                (.literal T
                  (t2.drop (fromBitsRaw w (⟨oneHot (w.indexOf a)⟩ : Token).bits).length)
                  (tokensOf w bs) true)⟩] hacc
            (by unfold tokensOf at hdq ⊢; simpa using hdq)
          have hms : matchedSuccessors out
              [⟨.stringTape T w, ⟨oneHot (w.indexOf a)⟩, true,
                .join (.literal T
                    (t1.drop (fromBitsRaw w (⟨oneHot (w.indexOf a)⟩ : Token).bits).length)
                    (tokensOf w as) true)
                  (.literal T
                    (t2.drop (fromBitsRaw w (⟨oneHot (w.indexOf a)⟩ : Token).bits).length)
                    (tokensOf w bs) true)⟩] =
              [(out.add (.stringTape T w) ⟨oneHot (w.indexOf a)⟩,
                .join (.literal T
                    (t1.drop (fromBitsRaw w (⟨oneHot (w.indexOf a)⟩ : Token).bits).length)
                    (tokensOf w as) true)
                  (.literal T
                    (t2.drop (fromBitsRaw w (⟨oneHot (w.indexOf a)⟩ : Token).bits).length)
                    (tokensOf w bs) true))] := rfl
          rw [hms] at hgs
          have hrec := ih as bs
            (t1.drop (fromBitsRaw w (⟨oneHot (w.indexOf a)⟩ : Token).bits).length)
            (t2.drop (fromBitsRaw w (⟨oneHot (w.indexOf a)⟩ : Token).bits).length)
            (out.add (.stringTape T w) ⟨oneHot (w.indexOf a)⟩)
            (fun c hc => ha c (List.mem_cons_of_mem a hc))
            (fun c hc => hb c (List.mem_cons_of_mem a hc))
            hne2
          cases hgen : generateAux (.collection names w) stk
              [(out.add (.stringTape T w) ⟨oneHot (w.indexOf a)⟩,
                .join (.literal T
                    (t1.drop (fromBitsRaw w (⟨oneHot (w.indexOf a)⟩ : Token).bits).length)
                    (tokensOf w as) true)
                  (.literal T
                    (t2.drop (fromBitsRaw w (⟨oneHot (w.indexOf a)⟩ : Token).bits).length)
                    (tokensOf w bs) true))] fuel with
          | mk r rest =>
            rw [hgen] at hrec
            simp only at hrec
            rw [hrec] at hgen
            simp [generateAux, hgs, hgen]
        · have hdisj : (⟨oneHot (w.indexOf a)⟩ : Token).bits ∩
              (⟨oneHot (w.indexOf b)⟩ : Token).bits = ∅ :=
            oneHot_disjoint _ _ (indexOf_ne_of_ne w a b
              (ha a (List.mem_cons_self a as)) (hb b (List.mem_cons_self b bs)) hab)
          have hdq := dQuery_join_lits_cons T names w hT t1 t2
            ⟨oneHot (w.indexOf a)⟩ ⟨oneHot (w.indexOf b)⟩ (tokensOf w as) (tokensOf w bs) stk
            (honeH a (ha a (List.mem_cons_self a as)))
            (honeH b (hb b (List.mem_cons_self b bs)))
          rw [if_neg (not_not_intro hdisj)] at hdq
          have hgs := genStep_singleton_eq (.collection names w) stk out _ [] [] hacc
            (by unfold tokensOf at hdq ⊢; simpa using hdq)
          have hms : matchedSuccessors out [] = [] := rfl
          rw [hms] at hgs
          simp [generateAux, hgs, generateAux_nil_queue]

theorem collectVocab_join (c1 c2 : State) (names : List String) (vocab : List Char) :
    collectVocab (.join c1 c2) names vocab =
      (collectVocab c1 names vocab).bind (fun p1 =>
        (collectVocab c2 p1.2.1 p1.2.2).bind (fun p2 =>
          some (.join p1.1 p2.1, p2.2.1, p2.2.2))) := rfl

/-- C6 (amended, JoinState modelled from the spec): joining a non-empty
literal with itself yields exactly the one record; joining two distinct
literal strings on the same tape yields no records (and the vocabulary
registers both strings in order). -/
theorem generate_join_literal_spec (T : String) (s s2 : List Char)
    (hne : s ≠ [])
    (hlen : (registerChars [] s).length ≤ 32)
    (hfu : s.length < 1000)
    (hlen2 : (registerChars (registerChars [] s) s2).length ≤ 32)
    (hss : s ≠ s2) :
    State.generate (.join (Lit T s) (Lit T s)) 4 1000 [] =
      some ([[(T, s)]], registerChars [] s) ∧
    State.generate (.join (Lit T s) (Lit T s2)) 4 1000 [] =
      some ([], registerChars (registerChars [] s) s2) := by
  have hwnodup : (registerChars [] s).Nodup := registerChars_nodup s [] List.nodup_nil
  have hmem : ∀ c ∈ s, c ∈ registerChars [] s := fun c hc => mem_registerChars s [] c hc
  have hid : registerChars (registerChars [] s) s = registerChars [] s :=
    registerChars_id s (registerChars [] s) hmem
  have hcv1 : collectVocab (Lit T s) [] [] =
      some (.literal T s (tokensOf (registerChars [] s) s) true, [T], registerChars [] s) := by
    rw [show Lit T s = State.literal T s [] false from rfl]
    rw [collectVocab_lit T s [] false [] [] List.nodup_nil hlen]
    simp
  have hall : ∀ tok ∈ tokensOf (registerChars [] s) s, ¬ tok.bits = ∅ := by
    intro tok htok
    obtain ⟨c, hc, heq⟩ := List.mem_map.mp htok
    rw [← heq]
    apply oneHot_nonempty
    have := List.indexOf_lt_length.mpr (hmem c hc)
    omega
  constructor
  · have hcv2 : collectVocab (Lit T s) [T] (registerChars [] s) =
        some (.literal T s (tokensOf (registerChars [] s) s) true, [T], registerChars [] s) := by
      rw [show Lit T s = State.literal T s [] false from rfl]
      rw [collectVocab_lit T s [] false [T] (registerChars [] s) hwnodup
        (by rw [hid]; exact hlen)]
      rw [hid]
      simp
    have hcv : collectVocab (.join (Lit T s) (Lit T s)) [] [] =
        some (.join (.literal T s (tokensOf (registerChars [] s) s) true)
                    (.literal T s (tokensOf (registerChars [] s) s) true),
          [T], registerChars [] s) := by
      rw [collectVocab_join, hcv1]
      simp only [Option.bind_eq_bind', Option.some_bind']
      rw [hcv2]
      rfl
    have hlenToks : (tokensOf (registerChars [] s) s).length < 1000 := by
      unfold tokensOf
      rw [List.length_map]
      exact hfu
    have hrun := generateAux_join_eq_run T [T] (registerChars [] s)
      (by simp) (CounterStack.init 4) (tokensOf (registerChars [] s) s) s s
      MultiTapeOutput.empty 1000 hall hlenToks
    have hfold := mto_fold_add T (registerChars [] s) (tokensOf (registerChars [] s) s) none
    have htoksne : tokensOf (registerChars [] s) s ≠ [] := by
      unfold tokensOf
      cases s with
      | nil => exact absurd rfl hne
      | cons c cs => simp
    obtain ⟨sto, hsto⟩ := chainTok_isSome T (registerChars [] s)
      (tokensOf (registerChars [] s) s) none htoksne
    have hchainS := chainTok_getStrings T (registerChars [] s) hlen s hmem none [[]] rfl
    rw [hsto] at hchainS
    have hstoS : sto.getStrings = some [s] := by
      have h1 : getStringsOpt (some sto) = some ([[]].map (fun x => x ++ s)) := hchainS
      simpa [getStringsOpt] using h1
    have hts : (MultiTapeOutput.mk [(T, sto)]).toStrings = some [[(T, s)]] := by
      rw [toStrings_single_entry T sto [s] hstoS]
      rfl
    rw [show MultiTapeOutput.empty = MultiTapeOutput.mk (entriesOf T none) from rfl] at hrun
    rw [hfold, hsto] at hrun
    rw [show entriesOf T (some sto) = [(T, sto)] from rfl, hts] at hrun
    unfold State.generate
    rw [hcv]
    simp only [Option.bind_eq_bind', Option.some_bind']
    cases hgen : generateAux (.collection [T] (registerChars [] s)) (CounterStack.init 4)
        [(MultiTapeOutput.mk (entriesOf T none),
          .join (.literal T s (tokensOf (registerChars [] s) s) true)
                (.literal T s (tokensOf (registerChars [] s) s) true))] 1000 with
    | mk r rest =>
      rw [hgen] at hrun
      simp only at hrun
      rw [show MultiTapeOutput.empty = MultiTapeOutput.mk (entriesOf T none) from rfl]
      rw [hgen, hrun]
      rfl
  · have hcv2 : collectVocab (Lit T s2) [T] (registerChars [] s) =
        some (.literal T s2 (tokensOf (registerChars (registerChars [] s) s2) s2) true,
          [T], registerChars (registerChars [] s) s2) := by
      rw [show Lit T s2 = State.literal T s2 [] false from rfl]
      rw [collectVocab_lit T s2 [] false [T] (registerChars [] s) hwnodup hlen2]
      simp
    have htoks1 : tokensOf (registerChars (registerChars [] s) s2) s =
        tokensOf (registerChars [] s) s :=
      tokensOf_registerChars (registerChars [] s) s s2 hmem
    have hcv : collectVocab (.join (Lit T s) (Lit T s2)) [] [] =
        some (.join
          (.literal T s (tokensOf (registerChars (registerChars [] s) s2) s) true)
          (.literal T s2 (tokensOf (registerChars (registerChars [] s) s2) s2) true),
          [T], registerChars (registerChars [] s) s2) := by
      rw [collectVocab_join, hcv1]
      simp only [Option.bind_eq_bind', Option.some_bind']
      rw [hcv2, htoks1]
      rfl
    have hmemS : ∀ c ∈ s, c ∈ registerChars (registerChars [] s) s2 :=
      fun c hc => mem_registerChars_left s2 (registerChars [] s) c (hmem c hc)
    have hmemS2 : ∀ c ∈ s2, c ∈ registerChars (registerChars [] s) s2 :=
      fun c hc => mem_registerChars s2 (registerChars [] s) c hc
    have hrun := generateAux_join_ne_run T [T] (registerChars (registerChars [] s) s2)
      (by simp) hlen2 (CounterStack.init 4) 1000 s s2 s s2
      MultiTapeOutput.empty hmemS hmemS2 hss
    unfold State.generate
    rw [hcv]
    simp only [Option.bind_eq_bind', Option.some_bind']
    cases hgen : generateAux (.collection [T] (registerChars (registerChars [] s) s2))
        (CounterStack.init 4)
        [(MultiTapeOutput.empty,
          .join (.literal T s (tokensOf (registerChars (registerChars [] s) s2) s) true)
                (.literal T s2 (tokensOf (registerChars (registerChars [] s) s2) s2) true))]
        1000 with
    | mk r rest =>
      rw [hgen] at hrun
      simp only at hrun
      rw [hrun]
      rfl

/-- C6 counterexample: joining the empty literal with itself accepts at step
0 on the empty output and yields the empty record, not a record mapping the
tape to the empty string. -/
theorem generate_join_empty_counterexample :
    (State.generate (.join (Lit "text" []) (Lit "text" [])) 4 1000 []).map Prod.fst =
      some [[]] ∧
    ¬ (State.generate (.join (Lit "text" []) (Lit "text" [])) 4 1000 []).map Prod.fst =
        some [[("text", ([] : List Char))]] := by
  exact ⟨by decide, by decide⟩

/-- Witness for generate_join_literal_spec on concrete literals. -/
theorem generate_join_literal_spec_witness :
    State.generate (.join (Lit "text" ['a']) (Lit "text" ['a'])) 4 1000 [] =
      some ([[("text", ['a'])]], ['a']) ∧
    State.generate (.join (Lit "text" ['a']) (Lit "text" ['b'])) 4 1000 [] =
      some ([], ['a', 'b']) := by
  have h := generate_join_literal_spec "text" ['a'] ['b']
    (by decide) (by decide) (by decide) (by decide) (by decide)
  refine ⟨?_, ?_⟩
  · rw [h.1]
    decide
  · rw [h.2]
    decide

/-! The shared-vocabulary invariant (toward claim C4).  The mutable default
dictionaries of `StringTape.__init__` are the single `vocab` threaded through
the embedding; the lemmas make the aliasing observable. -/

/-- `generate` on a literal starting from an arbitrary already-registered
(shared) vocabulary: the vocabulary only grows by the unregistered
characters, and the run is unaffected by the pre-registered entries. -/
theorem generate_literal_vocab (T : String) (s v : List Char)
    (hne : s ≠ []) (hv : v.Nodup)
    (hlen : (registerChars v s).length ≤ 32)
    (hfu : s.length < 1000) :
    State.generate (Lit T s) 4 1000 v = some ([[(T, s)]], registerChars v s) := by
  have hnodup : (registerChars v s).Nodup := registerChars_nodup s v hv
  have hcv : collectVocab (Lit T s) [] v =
      some (.literal T s (tokensOf (registerChars v s) s) true, [T], registerChars v s) := by
    rw [show Lit T s = State.literal T s [] false from rfl]
    rw [collectVocab_lit T s [] false [] v hv hlen]
    simp
  have hall : ∀ tok ∈ tokensOf (registerChars v s) s, ¬ tok.bits = ∅ := by
    intro tok htok
    obtain ⟨c, hc, heq⟩ := List.mem_map.mp htok
    rw [← heq]
    apply oneHot_nonempty
    have hcw : c ∈ registerChars v s := mem_registerChars s v c hc
    have := List.indexOf_lt_length.mpr hcw
    omega
  have hlenToks : (tokensOf (registerChars v s) s).length < 1000 := by
    unfold tokensOf
    rw [List.length_map]
    exact hfu
  have hrun := generateAux_literal_run T [T] (registerChars v s)
    (by simp) (CounterStack.init 4) (tokensOf (registerChars v s) s) s
    MultiTapeOutput.empty 1000 hall hlenToks
  have hfold := mto_fold_add T (registerChars v s) (tokensOf (registerChars v s) s) none
  have htoksne : tokensOf (registerChars v s) s ≠ [] := by
    unfold tokensOf
    cases s with
    | nil => exact absurd rfl hne
    | cons c cs => simp
  obtain ⟨sto, hsto⟩ := chainTok_isSome T (registerChars v s)
    (tokensOf (registerChars v s) s) none htoksne
  have hchainS := chainTok_getStrings T (registerChars v s) hlen s
    (fun c hc => mem_registerChars s v c hc) none [[]] rfl
  rw [hsto] at hchainS
  have hstoS : sto.getStrings = some [s] := by
    have h1 : getStringsOpt (some sto) = some ([[]].map (fun x => x ++ s)) := hchainS
    simpa [getStringsOpt] using h1
  have hts : (MultiTapeOutput.mk [(T, sto)]).toStrings = some [[(T, s)]] := by
    rw [toStrings_single_entry T sto [s] hstoS]
    rfl
  rw [show MultiTapeOutput.empty = MultiTapeOutput.mk (entriesOf T none) from rfl] at hrun
  rw [hfold, hsto] at hrun
  rw [show entriesOf T (some sto) = [(T, sto)] from rfl, hts] at hrun
  unfold State.generate
  rw [hcv]
  simp only [Option.bind_eq_bind', Option.some_bind']
  cases hgen : generateAux (.collection [T] (registerChars v s)) (CounterStack.init 4)
      [(MultiTapeOutput.mk (entriesOf T none),
        .literal T s (tokensOf (registerChars v s) s) true)] 1000 with
  | mk r rest =>
    rw [hgen] at hrun
    simp only at hrun
    rw [show MultiTapeOutput.empty = MultiTapeOutput.mk (entriesOf T none) from rfl]
    rw [hgen, hrun]
    rfl

/-- C4: all default-constructed tapes share one vocabulary.  Before
registration, `toBits` on tape B answers the empty bit set for `c`; after
tokenizing `c` on tape A (through any TapeCollection, which creates tape A
sharing the vocabulary), `toBits` on the distinct tape B answers the same
one-hot bit set at the newly assigned index; and the assignment persists
into later `generate` calls, which neither re-register `c` nor move it. -/
theorem sharedVocab_spec (A B : String) (c : Char) (v0 : List Char)
    (hnd : v0.Nodup) (hc : c ∉ v0) (h32 : v0.length < 32) :
    StringTape.toBits B v0 B c = some ∅ ∧
    (∀ names, TapeCollection.tokenize names v0 A [c] =
      some ([⟨oneHot v0.length⟩],
        (if A ∈ names then names else names ++ [A]), v0 ++ [c])) ∧
    StringTape.toBits B (v0 ++ [c]) B c = some (oneHot v0.length) ∧
    State.generate (Lit B [c]) 4 1000 (v0 ++ [c]) =
      some ([[(B, [c])]], v0 ++ [c]) := by
  have hmem : c ∈ v0 ++ [c] := List.mem_append_right v0 (List.mem_singleton.mpr rfl)
  have hidx : (v0 ++ [c]).indexOf c = v0.length := by
    rw [List.indexOf_append_of_not_mem hc]
    simp
  refine ⟨?_, ?_, ?_, ?_⟩
  · simp [StringTape.toBits, toBitsRaw, strToIndexGet, hc]
  · intro names
    unfold TapeCollection.tokenize StringTape.tokenize
    rw [if_neg (show ¬ A ≠ A from by simp)]
    unfold tokenizeGo
    rw [show strToIndexGet v0 c = none from by simp [strToIndexGet, hc]]
    simp only [Option.isSome_none, Bool.false_eq_true, if_false]
    rw [show toBitsRaw (registerToken v0 c) c = some (oneHot v0.length) from by
      unfold toBitsRaw strToIndexGet registerToken
      rw [if_pos hmem, hidx]
      simp [oneHot, h32]]
    simp only [Option.bind_eq_bind', Option.some_bind']
    rfl
  · unfold StringTape.toBits toBitsRaw strToIndexGet
    rw [if_neg (show ¬ B ≠ B from by simp), if_pos hmem, hidx]
    simp [oneHot, h32]
  · have hid : registerChars (v0 ++ [c]) [c] = v0 ++ [c] :=
      registerChars_id [c] (v0 ++ [c]) (by intro x hx; rw [List.mem_singleton.mp hx]; exact hmem)
    have h := generate_literal_vocab B [c] (v0 ++ [c]) (by simp)
      (by
        rw [List.nodup_append]
        exact ⟨hnd, List.nodup_singleton c, by simpa using hc⟩)
      (by rw [hid]; simp; omega)
      (by simp)
    rw [hid] at h
    exact h

/-- Witness for sharedVocab_spec at concrete tapes and an empty initial
vocabulary. -/
theorem sharedVocab_spec_witness :
    StringTape.toBits "B" [] "B" 'x' = some ∅ ∧
    TapeCollection.tokenize [] [] "A" ['x'] = some ([⟨oneHot 0⟩], ["A"], ['x']) ∧
    StringTape.toBits "B" ['x'] "B" 'x' = some (oneHot 0) ∧
    State.generate (Lit "B" ['x']) 4 1000 ['x'] = some ([[("B", ['x'])]], ['x']) := by
  have h := sharedVocab_spec "A" "B" 'x' [] (by decide) (by decide) (by decide)
  refine ⟨h.1, ?_, h.2.2.1, h.2.2.2⟩
  have h2 := h.2.1 []
  simpa using h2

/-! Concat with an empty literal (toward claim C5). -/

/-- The literal/concat/union fragment: states built from `Lit`, `Seq` and
`Uni`, closed under the run-time successors the driver can reach. -/
def LCU : State → Bool
  | .literal _ _ _ _ => true
  | .concat c1 c2 => LCU c1 && LCU c2
  | .union c1 c2 => LCU c1 && LCU c2
  | _ => false

/-- The tape names syntactically occurring in a state. -/
def stateNames : State → List String
  | .literal n _ _ _ => [n]
  | .anyChar n => [n]
  | .trivial => []
  | .concat c1 c2 => stateNames c1 ++ stateNames c2
  | .union c1 c2 => stateNames c1 ++ stateNames c2
  | .join c1 c2 => stateNames c1 ++ stateNames c2

/-- C5 counterexample: prefixing the empty literal is not an identity for
`AnyCharState`.  Alone, `Any("text")` finds no tape named "text" (nothing
registers the name), stays unmatched and yields no records; prefixed with
`Lit("text", "")`, the name is registered, the any-char transition matches
and its `TrivialState` successor makes the next query raise `TypeError`. -/
theorem concat_empty_identity_counterexample :
    State.generate (.concat (Lit "text" []) (.anyChar "text")) 4 1000 [] = none ∧
    State.generate (.anyChar "text") 4 1000 [] = some ([], []) := by
  exact ⟨by decide, by decide⟩

theorem genStep_nil (tapes : Tape) (stk : CounterStack) :
    genStep tapes stk [] = some ([], []) := rfl

theorem genStep_cons (tapes : Tape) (stk : CounterStack) (out : MultiTapeOutput)
    (s : State) (q : List (MultiTapeOutput × State)) :
    genStep tapes stk ((out, s) :: q) =
      (acceptOutputs stk out s).bind (fun outs =>
        (s.dQuery tapes ANY_CHAR stk).bind (fun rs =>
          (genStep tapes stk q).map (fun pr =>
            (outs ++ pr.1, matchedSuccessors out rs ++ pr.2)))) := by
  unfold genStep
  rw [List.mapM_cons]
  cases ha : acceptOutputs stk out s with
  | none =>
    simp [Option.bind_eq_bind', Option.none_bind', ha]
  | some outs =>
    cases hd : State.dQuery s tapes ANY_CHAR stk with
    | none =>
      simp [Option.bind_eq_bind', Option.none_bind', Option.some_bind', ha, hd]
    | some rs =>
      cases hm : q.mapM (fun p => do
          let outs ← acceptOutputs stk p.1 p.2
          let rs ← State.dQuery p.2 tapes ANY_CHAR stk
          pure (outs, matchedSuccessors p.1 rs)) with
      | none =>
        simp [Option.bind_eq_bind', Option.none_bind', Option.some_bind',
          Option.pure_def, ha, hd, hm]
      | some results =>
        simp [Option.bind_eq_bind', Option.none_bind', Option.some_bind',
          Option.pure_def, Option.map_some', ha, hd, hm]

/-- On the literal/concat/union fragment, a query only consults the
collection through `matchTape` on the state's own tape names; two
collections sharing the vocabulary and registering all those names are
indistinguishable. -/
theorem ndQuery_names_irrel (names1 names2 : List String) (v : List Char)
    (target : Token) (stk : CounterStack) (s : State) :
    LCU s = true →
    (∀ n ∈ stateNames s, n ∈ names1) → (∀ n ∈ stateNames s, n ∈ names2) →
    s.ndQuery (.collection names1 v) target stk =
      s.ndQuery (.collection names2 v) target stk := by
  induction s with
  | literal T text tokens collected =>
    intro _ h1 h2
    have hT1 : T ∈ names1 := h1 T (by simp [stateNames])
    have hT2 : T ∈ names2 := h2 T (by simp [stateNames])
    have hmt1 : (Tape.collection names1 v).matchTape T = some (.stringTape T v) := by
      simp [Tape.matchTape, hT1]
    have hmt2 : (Tape.collection names2 v).matchTape T = some (.stringTape T v) := by
      simp [Tape.matchTape, hT2]
    cases tokens with
    | nil =>
      rw [ndQuery_literal_nil_eq T text collected _ target stk _ hmt1,
        ndQuery_literal_nil_eq T text collected _ target stk _ hmt2]
    | cons tok rest =>
      rw [ndQuery_literal_cons_eq T text tok rest collected _ target stk _ hmt1,
        ndQuery_literal_cons_eq T text tok rest collected _ target stk _ hmt2]
  | anyChar n => intro hs _ _; simp [LCU] at hs
  | trivial => intro hs _ _; simp [LCU] at hs
  | concat c1 c2 ih1 ih2 =>
    intro hs h1 h2
    rw [LCU] at hs
    rcases Bool.and_eq_true_iff.mp hs with ⟨hs1, hs2⟩
    have e1 := ih1 hs1
      (fun n hn => h1 n (by rw [stateNames]; exact List.mem_append_left _ hn))
      (fun n hn => h2 n (by rw [stateNames]; exact List.mem_append_left _ hn))
    have e2 := ih2 hs2
      (fun n hn => h1 n (by rw [stateNames]; exact List.mem_append_right _ hn))
      (fun n hn => h2 n (by rw [stateNames]; exact List.mem_append_right _ hn))
    simp only [State.ndQuery, e1, e2]
  | union c1 c2 ih1 ih2 =>
    intro hs h1 h2
    rw [LCU] at hs
    rcases Bool.and_eq_true_iff.mp hs with ⟨hs1, hs2⟩
    have e1 := ih1 hs1
      (fun n hn => h1 n (by rw [stateNames]; exact List.mem_append_left _ hn))
      (fun n hn => h2 n (by rw [stateNames]; exact List.mem_append_left _ hn))
    have e2 := ih2 hs2
      (fun n hn => h1 n (by rw [stateNames]; exact List.mem_append_right _ hn))
      (fun n hn => h2 n (by rw [stateNames]; exact List.mem_append_right _ hn))
    simp only [State.ndQuery, e1, e2]
  | join c1 c2 ih1 ih2 => intro hs _ _; simp [LCU] at hs

/-- Successor states produced by the determinizer fold are unions of the
incoming successor and accumulator successors. -/
theorem dqFold_next_closed (P : State → Prop)
    (hP : ∀ a b, P a → P b → P (.union a b)) (t : Tape) (m : Bool) (n : State)
    (hn : P n) :
    ∀ (acc : List QueryResult) (b : BitSet), (∀ r ∈ acc, P r.next) →
      ∀ r' ∈ (dqFold t m n acc b).1, P r'.next := by
  intro acc
  induction acc with
  | nil =>
    intro b _ r' hr'
    rw [dqFold_nil] at hr'
    exact absurd hr' (List.not_mem_nil r')
  | cons r rest ih =>
    intro b hacc r' hr'
    by_cases h : t.tapeName ≠ r.tape.tapeName
    · rw [dqFold_cons_ne t m n r rest b h] at hr'
      rcases List.mem_cons.mp hr' with h1 | h1
      · rw [h1]
        exact hacc r (List.mem_cons_self r rest)
      · exact ih b (fun x hx => hacc x (List.mem_cons_of_mem r hx)) r' h1
    · rw [dqFold_cons_eq t m n r rest b h] at hr'
      rcases List.mem_append.mp hr' with h1 | h1
      · rcases List.mem_append.mp h1 with h2 | h2
        · rw [mem_ite_singleton h2]
          exact hP n r.next hn (hacc r (List.mem_cons_self r rest))
        · rw [mem_ite_singleton h2]
          exact hacc r (List.mem_cons_self r rest)
      · exact ih _ (fun x hx => hacc x (List.mem_cons_of_mem r hx)) r' h1

theorem determinizeStep_next_closed (P : State → Prop)
    (hP : ∀ a b, P a → P b → P (.union a b)) (acc : List QueryResult)
    (x : QueryResult) (hacc : ∀ r ∈ acc, P r.next) (hx : P x.next) :
    ∀ r ∈ determinizeStep acc x, P r.next := by
  intro r hr
  unfold determinizeStep at hr
  by_cases h0 : x.tape.numTapes = 0
  · rw [if_pos h0] at hr
    rcases List.mem_append.mp hr with h1 | h1
    · exact hacc r h1
    · rw [List.mem_singleton.mp h1]
      exact hx
  · rw [if_neg h0] at hr
    cases hd : dqFold x.tape x.matched x.next acc x.token.bits with
    | mk nr bits' =>
      rw [hd] at hr
      simp only at hr
      by_cases hb : ¬ bits' = ∅
      · rw [if_pos hb] at hr
        rcases List.mem_append.mp hr with h1 | h1
        · exact dqFold_next_closed P hP x.tape x.matched x.next hx acc x.token.bits hacc r
            (by rw [hd]; exact h1)
        · rw [List.mem_singleton.mp h1]
          exact hx
      · rw [if_neg hb] at hr
        exact dqFold_next_closed P hP x.tape x.matched x.next hx acc x.token.bits hacc r
          (by rw [hd]; exact hr)

/-- Any union-closed property of successor states survives the determinizer. -/
theorem determinize_next_closed (P : State → Prop)
    (hP : ∀ a b, P a → P b → P (.union a b)) (l : List QueryResult)
    (hl : ∀ r ∈ l, P r.next) : ∀ r ∈ determinize l, P r.next := by
  have main : ∀ (l acc : List QueryResult), (∀ r ∈ l, P r.next) →
      (∀ r ∈ acc, P r.next) → ∀ r ∈ l.foldl determinizeStep acc, P r.next := by
    intro l
    induction l with
    | nil => intro acc _ hacc r hr; exact hacc r hr
    | cons x l ih =>
      intro acc hl hacc r hr
      rw [List.foldl_cons] at hr
      exact ih (determinizeStep acc x)
        (fun y hy => hl y (List.mem_cons_of_mem x hy))
        (determinizeStep_next_closed P hP acc x hacc (hl x (List.mem_cons_self x l)))
        r hr
  intro r hr
  exact main l [] hl (fun y hy => absurd hy (List.not_mem_nil y)) r hr

theorem literalSuccessor_shape (T : String) (text : List Char) (tok : Token)
    (rest : List Token) (collected : Bool) (mt : Tape) (ns : State)
    (h : literalSuccessor T text tok rest collected mt = some ns) :
    ∃ text', ns = .literal T text' rest collected := by
  unfold literalSuccessor at h
  by_cases hcol : collected
  · rw [if_pos hcol] at h
    cases hfb : mt.fromBits T tok.bits with
    | none => rw [hfb] at h; simp at h
    | some ft =>
      rw [hfb] at h
      simp only [Option.some_bind', Option.pure_def] at h
      injection h with h
      exact ⟨text.drop ft.length, h.symm⟩
  · rw [if_neg hcol] at h
    simp at h

theorem lcuNames_union (N : List String) :
    ∀ a b, (LCU a = true ∧ ∀ n ∈ stateNames a, n ∈ N) →
      (LCU b = true ∧ ∀ n ∈ stateNames b, n ∈ N) →
      (LCU (.union a b) = true ∧ ∀ n ∈ stateNames (.union a b), n ∈ N) := by
  intro a b ⟨ha1, ha2⟩ ⟨hb1, hb2⟩
  constructor
  · rw [LCU, ha1, hb1]
    rfl
  · intro n hn
    rw [stateNames] at hn
    rcases List.mem_append.mp hn with h | h
    · exact ha2 n h
    · exact hb2 n h

/-- `ConcatState.ndQuery` expressed through the children's `dQuery`. -/
theorem ndQuery_concat_run (c1 c2 : State) (tape : Tape) (target : Token)
    (stk : CounterStack) (rs1 : List QueryResult)
    (hd1 : c1.dQuery tape target stk = some rs1) :
    (State.concat c1 c2).ndQuery tape target stk =
      (if rs1.any (fun r => !r.matched) then
        (c2.dQuery tape target stk).bind (fun rs2 =>
          if rs2.isEmpty && c1.accepting stk then
            some ((rs1.flatMap (fun r =>
              if r.matched then [⟨r.tape, r.token, r.matched, .concat r.next c2⟩]
              else rs2.map (fun r2 =>
                ⟨r2.tape, r2.token, r2.matched, .concat c1 r2.next⟩))) ++ rs2)
          else
            some (rs1.flatMap (fun r =>
              if r.matched then [⟨r.tape, r.token, r.matched, .concat r.next c2⟩]
              else rs2.map (fun r2 =>
                ⟨r2.tape, r2.token, r2.matched, .concat c1 r2.next⟩))))
      else
        if c1.accepting stk then
          (c2.dQuery tape target stk).bind (fun rs2 =>
            some ((rs1.map (fun r =>
              ⟨r.tape, r.token, r.matched, .concat r.next c2⟩)) ++ rs2))
        else
          some (rs1.map (fun r =>
            ⟨r.tape, r.token, r.matched, .concat r.next c2⟩))) := by
  unfold State.dQuery at hd1
  cases hn1 : c1.ndQuery tape target stk with
  | none => rw [hn1] at hd1; simp at hd1
  | some l1 =>
    rw [hn1] at hd1
    simp only [Option.map_some'] at hd1
    injection hd1 with hd1
    simp only [State.ndQuery, State.dQuery, hn1, Option.map_some',
      Option.bind_eq_bind', Option.some_bind', Option.pure_def]
    rw [hd1]

/-- On the literal/concat/union fragment, every successor yielded by a query
stays in the fragment with tape names inside the original state's. -/
theorem ndQuery_next_closed (N : List String) (tape : Tape) (target : Token)
    (stk : CounterStack) (s : State) :
    LCU s = true → (∀ n ∈ stateNames s, n ∈ N) →
    ∀ l, s.ndQuery tape target stk = some l →
      ∀ r ∈ l, LCU r.next = true ∧ ∀ n ∈ stateNames r.next, n ∈ N := by
  induction s with
  | literal T text tokens collected =>
    intro hs hN l h r hr
    cases hmt : tape.matchTape T with
    | none =>
      rw [ndQuery_literal_stay_eq T text tokens collected tape target stk hmt] at h
      injection h with h
      rw [← h] at hr
      rw [List.mem_singleton.mp hr]
      exact ⟨hs, hN⟩
    | some mt =>
      cases tokens with
      | nil =>
        rw [ndQuery_literal_nil_eq T text collected tape target stk mt hmt] at h
        injection h with h
        rw [← h] at hr
        exact absurd hr (List.not_mem_nil r)
      | cons tok rest =>
        rw [ndQuery_literal_cons_eq T text tok rest collected tape target stk mt hmt] at h
        cases hm : mt.matchToken tok target with
        | none => rw [hm] at h; simp at h
        | some res =>
          rw [hm] at h
          simp only [Option.some_bind'] at h
          cases hsucc : literalSuccessor T text tok rest collected mt with
          | none => rw [hsucc] at h; simp at h
          | some ns =>
            rw [hsucc] at h
            simp only [Option.some_bind'] at h
            injection h with h
            rw [← h] at hr
            rw [List.mem_singleton.mp hr]
            obtain ⟨text', hns⟩ := literalSuccessor_shape T text tok rest collected mt ns hsucc
            constructor
            · show LCU ns = true
              rw [hns]
              rfl
            · show ∀ n ∈ stateNames ns, n ∈ N
              intro n hn
              rw [hns, stateNames] at hn
              rw [List.mem_singleton.mp hn]
              exact hN T (by rw [stateNames]; exact List.mem_singleton.mpr rfl)
  | anyChar n => intro hs; simp [LCU] at hs
  | trivial => intro hs; simp [LCU] at hs
  | join c1 c2 ih1 ih2 => intro hs; simp [LCU] at hs
  | union c1 c2 ih1 ih2 =>
    intro hs hN l h r hr
    rw [LCU] at hs
    rcases Bool.and_eq_true_iff.mp hs with ⟨hs1, hs2⟩
    have hN1 : ∀ n ∈ stateNames c1, n ∈ N :=
      fun n hn => hN n (by rw [stateNames]; exact List.mem_append_left _ hn)
    have hN2 : ∀ n ∈ stateNames c2, n ∈ N :=
      fun n hn => hN n (by rw [stateNames]; exact List.mem_append_right _ hn)
    cases hn1 : c1.ndQuery tape target stk with
    | none =>
      simp only [State.ndQuery, hn1, Option.map_none', Option.bind_eq_bind',
        Option.none_bind'] at h
      exact Option.noConfusion h
    | some l1 =>
      cases hn2 : c2.ndQuery tape target stk with
      | none =>
        simp only [State.ndQuery, hn1, hn2, Option.map_none', Option.map_some',
          Option.bind_eq_bind', Option.none_bind', Option.some_bind'] at h
        exact Option.noConfusion h
      | some l2 =>
        simp only [State.ndQuery, hn1, hn2, Option.map_some', Option.bind_eq_bind',
          Option.some_bind', Option.pure_def] at h
        injection h with h
        rw [← h] at hr
        rcases List.mem_append.mp hr with h1 | h1
        · exact determinize_next_closed _ (lcuNames_union N) l1 (ih1 hs1 hN1 l1 hn1) r h1
        · exact determinize_next_closed _ (lcuNames_union N) l2 (ih2 hs2 hN2 l2 hn2) r h1
  | concat c1 c2 ih1 ih2 =>
    intro hs hN l h r hr
    rw [LCU] at hs
    rcases Bool.and_eq_true_iff.mp hs with ⟨hs1, hs2⟩
    have hN1 : ∀ n ∈ stateNames c1, n ∈ N :=
      fun n hn => hN n (by rw [stateNames]; exact List.mem_append_left _ hn)
    have hN2 : ∀ n ∈ stateNames c2, n ∈ N :=
      fun n hn => hN n (by rw [stateNames]; exact List.mem_append_right _ hn)
    have hc1P : LCU c1 = true ∧ ∀ n ∈ stateNames c1, n ∈ N := ⟨hs1, hN1⟩
    have hc2P : LCU c2 = true ∧ ∀ n ∈ stateNames c2, n ∈ N := ⟨hs2, hN2⟩
    cases hn1 : c1.ndQuery tape target stk with
    | none =>
      simp only [State.ndQuery, hn1, Option.map_none', Option.bind_eq_bind',
        Option.none_bind'] at h
      exact Option.noConfusion h
    | some l1 =>
      have hd1 : c1.dQuery tape target stk = some (determinize l1) := by
        unfold State.dQuery
        rw [hn1]
        rfl
      have hsucc1 : ∀ x ∈ determinize l1, LCU x.next = true ∧ ∀ n ∈ stateNames x.next, n ∈ N :=
        determinize_next_closed _ (lcuNames_union N) l1 (ih1 hs1 hN1 l1 hn1)
      have hwrapR : ∀ (x : QueryResult),
          (LCU x.next = true ∧ ∀ n ∈ stateNames x.next, n ∈ N) →
          LCU (State.concat x.next c2) = true ∧
            ∀ n ∈ stateNames (State.concat x.next c2), n ∈ N := by
        intro x ⟨hx1, hx2⟩
        constructor
        · rw [LCU, hx1, hs2]
          rfl
        · intro n hn
          rw [stateNames] at hn
          rcases List.mem_append.mp hn with hh | hh
          · exact hx2 n hh
          · exact hN2 n hh
      have hwrapL : ∀ (x : QueryResult),
          (LCU x.next = true ∧ ∀ n ∈ stateNames x.next, n ∈ N) →
          LCU (State.concat c1 x.next) = true ∧
            ∀ n ∈ stateNames (State.concat c1 x.next), n ∈ N := by
        intro x ⟨hx1, hx2⟩
        constructor
        · rw [LCU, hs1, hx1]
          rfl
        · intro n hn
          rw [stateNames] at hn
          rcases List.mem_append.mp hn with hh | hh
          · exact hN1 n hh
          · exact hx2 n hh
      rw [ndQuery_concat_run c1 c2 tape target stk (determinize l1) hd1] at h
      by_cases hany : (determinize l1).any (fun x => !x.matched)
      · rw [if_pos hany] at h
        cases hn2 : c2.dQuery tape target stk with
        | none => rw [hn2] at h; simp at h
        | some rs2 =>
          have hsucc2 : ∀ x ∈ rs2, LCU x.next = true ∧ ∀ n ∈ stateNames x.next, n ∈ N := by
            unfold State.dQuery at hn2
            cases hn2' : c2.ndQuery tape target stk with
            | none => rw [hn2'] at hn2; simp at hn2
            | some l2 =>
              rw [hn2'] at hn2
              simp only [Option.map_some'] at hn2
              injection hn2 with hn2
              rw [← hn2]
              exact determinize_next_closed _ (lcuNames_union N) l2 (ih2 hs2 hN2 l2 hn2')
          have hpart : ∀ x ∈ (determinize l1).flatMap (fun x =>
              if x.matched then [⟨x.tape, x.token, x.matched, .concat x.next c2⟩]
              else rs2.map (fun r2 =>
                (⟨r2.tape, r2.token, r2.matched, .concat c1 r2.next⟩ : QueryResult))),
              LCU x.next = true ∧ ∀ n ∈ stateNames x.next, n ∈ N := by
            intro x hx
            obtain ⟨r1, hr1, hmem⟩ := List.mem_flatMap.mp hx
            by_cases hm1 : r1.matched
            · rw [if_pos hm1] at hmem
              rw [List.mem_singleton.mp hmem]
              exact hwrapR r1 (hsucc1 r1 hr1)
            · rw [if_neg hm1] at hmem
              obtain ⟨r2, hr2, he⟩ := List.mem_map.mp hmem
              rw [← he]
              exact hwrapL r2 (hsucc2 r2 hr2)
          rw [hn2] at h
          simp only [Option.some_bind'] at h
          by_cases hce : rs2.isEmpty && c1.accepting stk
          · rw [if_pos hce] at h
            injection h with h
            rw [← h] at hr
            rcases List.mem_append.mp hr with h1 | h1
            · exact hpart r h1
            · exact hsucc2 r h1
          · rw [if_neg hce] at h
            injection h with h
            rw [← h] at hr
            exact hpart r hr
      · rw [if_neg hany] at h
        by_cases hacc : c1.accepting stk
        · rw [if_pos hacc] at h
          cases hn2 : c2.dQuery tape target stk with
          | none => rw [hn2] at h; simp at h
          | some rs2 =>
            have hsucc2 : ∀ x ∈ rs2, LCU x.next = true ∧
                ∀ n ∈ stateNames x.next, n ∈ N := by
              unfold State.dQuery at hn2
              cases hn2' : c2.ndQuery tape target stk with
              | none => rw [hn2'] at hn2; simp at hn2
              | some l2 =>
                rw [hn2'] at hn2
                simp only [Option.map_some'] at hn2
                injection hn2 with hn2
                rw [← hn2]
                exact determinize_next_closed _ (lcuNames_union N) l2 (ih2 hs2 hN2 l2 hn2')
            rw [hn2] at h
            simp only [Option.some_bind'] at h
            injection h with h
            rw [← h] at hr
            rcases List.mem_append.mp hr with h1 | h1
            · obtain ⟨r1, hr1, he⟩ := List.mem_map.mp h1
              rw [← he]
              exact hwrapR r1 (hsucc1 r1 hr1)
            · exact hsucc2 r h1
        · rw [if_neg hacc] at h
          injection h with h
          rw [← h] at hr
          obtain ⟨r1, hr1, he⟩ := List.mem_map.mp hr
          rw [← he]
          exact hwrapR r1 (hsucc1 r1 hr1)

/-- The successor-closure at the `dQuery` level. -/
theorem dQuery_next_closed (N : List String) (tape : Tape) (target : Token)
    (stk : CounterStack) (s : State) (hs : LCU s = true)
    (hN : ∀ n ∈ stateNames s, n ∈ N) :
    ∀ rs, s.dQuery tape target stk = some rs →
      ∀ r ∈ rs, LCU r.next = true ∧ ∀ n ∈ stateNames r.next, n ∈ N := by
  intro rs h
  unfold State.dQuery at h
  cases hn : s.ndQuery tape target stk with
  | none => rw [hn] at h; simp at h
  | some l =>
    rw [hn] at h
    simp only [Option.map_some'] at h
    injection h with h
    rw [← h]
    exact determinize_next_closed _ (lcuNames_union N) l
      (ndQuery_next_closed N tape target stk s hs hN l hn)

theorem dQuery_names_irrel (names1 names2 : List String) (v : List Char)
    (target : Token) (stk : CounterStack) (s : State) (hs : LCU s = true)
    (h1 : ∀ n ∈ stateNames s, n ∈ names1) (h2 : ∀ n ∈ stateNames s, n ∈ names2) :
    s.dQuery (.collection names1 v) target stk =
      s.dQuery (.collection names2 v) target stk := by
  unfold State.dQuery
  rw [ndQuery_names_irrel names1 names2 v target stk s hs h1 h2]

theorem genStep_names_irrel (names1 names2 : List String) (v : List Char)
    (stk : CounterStack) (N : List String)
    (h1 : ∀ n ∈ N, n ∈ names1) (h2 : ∀ n ∈ N, n ∈ names2) :
    ∀ q : List (MultiTapeOutput × State),
      (∀ p ∈ q, LCU p.2 = true ∧ ∀ n ∈ stateNames p.2, n ∈ N) →
      genStep (.collection names1 v) stk q = genStep (.collection names2 v) stk q := by
  intro q
  induction q with
  | nil => intro _; rfl
  | cons p q ih =>
    intro hq
    obtain ⟨hp1, hp2⟩ := hq p (List.mem_cons_self p q)
    cases p with
    | mk out s =>
      rw [genStep_cons, genStep_cons]
      rw [dQuery_names_irrel names1 names2 v ANY_CHAR stk s hp1
        (fun n hn => h1 n (hp2 n hn)) (fun n hn => h2 n (hp2 n hn))]
      rw [ih (fun p hp => hq p (List.mem_cons_of_mem _ hp))]

theorem genStep_next_closed (tape : Tape) (stk : CounterStack) (N : List String) :
    ∀ (q : List (MultiTapeOutput × State)) (outs : List StringDict)
      (nq : List (MultiTapeOutput × State)),
      (∀ p ∈ q, LCU p.2 = true ∧ ∀ n ∈ stateNames p.2, n ∈ N) →
      genStep tape stk q = some (outs, nq) →
      ∀ p ∈ nq, LCU p.2 = true ∧ ∀ n ∈ stateNames p.2, n ∈ N := by
  intro q
  induction q with
  | nil =>
    intro outs nq _ h p hp
    rw [genStep_nil] at h
    injection h with h
    rw [show nq = [] from congrArg Prod.snd h.symm] at hp
    exact absurd hp (List.not_mem_nil p)
  | cons p0 q ih =>
    intro outs nq hq h p hp
    obtain ⟨hp1, hp2⟩ := hq p0 (List.mem_cons_self p0 q)
    cases p0 with
    | mk out s =>
      rw [genStep_cons] at h
      cases ha : acceptOutputs stk out s with
      | none => rw [ha] at h; simp at h
      | some o =>
        rw [ha] at h
        simp only [Option.some_bind'] at h
        cases hd : s.dQuery tape ANY_CHAR stk with
        | none => rw [hd] at h; simp at h
        | some rs =>
          rw [hd] at h
          simp only [Option.some_bind'] at h
          cases hg : genStep tape stk q with
          | none => rw [hg] at h; simp at h
          | some pr =>
            rw [hg] at h
            simp only [Option.map_some'] at h
            injection h with h
            have hnq : nq = matchedSuccessors out rs ++ pr.2 :=
              congrArg Prod.snd h.symm
            rw [hnq] at hp
            rcases List.mem_append.mp hp with h1 | h1
            · obtain ⟨r, hr, he⟩ := List.mem_filterMap.mp h1
              by_cases hm : r.matched
              · rw [if_pos hm] at he
                injection he with he
                rw [← he]
                exact dQuery_next_closed N tape ANY_CHAR stk s hp1 hp2 rs hd r hr
              · rw [if_neg hm] at he
                exact absurd he (Option.noConfusion ·)
            · exact ih pr.1 pr.2 (fun x hx => hq x (List.mem_cons_of_mem _ hx))
                (by rw [hg]) p h1

/-- The whole driver loop cannot tell two collections apart that register
all the tape names of the (literal/concat/union) states in its queue. -/
theorem generateAux_names_irrel (names1 names2 : List String) (v : List Char)
    (stk : CounterStack) (N : List String)
    (h1 : ∀ n ∈ N, n ∈ names1) (h2 : ∀ n ∈ N, n ∈ names2) :
    ∀ (fuel : Nat) (q : List (MultiTapeOutput × State)),
      (∀ p ∈ q, LCU p.2 = true ∧ ∀ n ∈ stateNames p.2, n ∈ N) →
      generateAux (.collection names1 v) stk q fuel =
        generateAux (.collection names2 v) stk q fuel := by
  intro fuel
  induction fuel with
  | zero => intro q _; rfl
  | succ fuel ih =>
    intro q hq
    by_cases he : q.isEmpty
    · simp [generateAux, he]
    · have hgs := genStep_names_irrel names1 names2 v stk N h1 h2 q hq
      cases hg : genStep (.collection names2 v) stk q with
      | none => simp [generateAux, he, hgs, hg]
      | some pr =>
        cases pr with
        | mk outs nq =>
          have hnq := genStep_next_closed (.collection names2 v) stk N q outs nq hq hg
          have hrec := ih nq hnq
          simp [generateAux, he, hgs, hg, hrec]

/-- Folding an incoming transition against an accumulator it is disjoint
from (per tape name) reproduces the accumulator and keeps all bits. -/
theorem dqFold_disjoint_id (t : Tape) (m : Bool) (n : State) :
    ∀ (acc : List QueryResult) (b : BitSet),
      (∀ r ∈ acc, t.tapeName = r.tape.tapeName → b ∩ r.token.bits = ∅) →
      (∀ r ∈ acc, ¬ r.token.bits = ∅) →
      dqFold t m n acc b = (acc, b) := by
  intro acc
  induction acc with
  | nil => intro b _ _; rfl
  | cons r rest ih =>
    intro b hdisj hne
    have htl := ih b (fun x hx => hdisj x (List.mem_cons_of_mem r hx))
      (fun x hx => hne x (List.mem_cons_of_mem r hx))
    by_cases h : t.tapeName ≠ r.tape.tapeName
    · rw [dqFold_cons_ne t m n r rest b h, htl]
    · have hint : b ∩ r.token.bits = ∅ :=
        hdisj r (List.mem_cons_self r rest) (not_ne_iff.mp h)
      rw [dqFold_cons_eq t m n r rest b h]
      simp only [hint, Finset.sdiff_empty]
      rw [if_neg (by simp), if_pos (hne r (List.mem_cons_self r rest)), htl]
      rfl

/-- A determinizer step on a transition disjoint from the accumulator just
appends it. -/
theorem determinizeStep_disjoint_id (acc : List QueryResult) (x : QueryResult)
    (hx0 : ¬ x.tape.numTapes = 0) (hxb : ¬ x.token.bits = ∅)
    (hdisj : ∀ r ∈ acc, x.tape.tapeName = r.tape.tapeName →
      x.token.bits ∩ r.token.bits = ∅)
    (hne : ∀ r ∈ acc, ¬ r.token.bits = ∅) :
    determinizeStep acc x = acc ++ [x] := by
  unfold determinizeStep
  rw [if_neg hx0]
  rw [dqFold_disjoint_id x.tape x.matched x.next acc x.token.bits hdisj hne]
  simp only
  rw [if_pos hxb]

theorem dqFold_nonempty (t : Tape) (m : Bool) (n : State) :
    ∀ (acc : List QueryResult) (b : BitSet),
      (∀ r ∈ acc, 0 < r.tape.numTapes → ¬ r.token.bits = ∅) →
      ∀ r' ∈ (dqFold t m n acc b).1, 0 < r'.tape.numTapes → ¬ r'.token.bits = ∅ := by
  intro acc
  induction acc with
  | nil =>
    intro b _ r' hr'
    rw [dqFold_nil] at hr'
    exact absurd hr' (List.not_mem_nil r')
  | cons r rest ih =>
    intro b hacc r' hr'
    by_cases h : t.tapeName ≠ r.tape.tapeName
    · rw [dqFold_cons_ne t m n r rest b h] at hr'
      rcases List.mem_cons.mp hr' with h1 | h1
      · rw [h1]
        exact hacc r (List.mem_cons_self r rest)
      · exact ih b (fun x hx => hacc x (List.mem_cons_of_mem r hx)) r' h1
    · rw [dqFold_cons_eq t m n r rest b h] at hr'
      rcases List.mem_append.mp hr' with h1 | h1
      · rcases List.mem_append.mp h1 with h2 | h2
        · by_cases hc : ¬ b ∩ r.token.bits = ∅
          · rw [if_pos hc] at h2
            rw [List.mem_singleton.mp h2]
            intro _
            exact hc
          · rw [if_neg hc] at h2
            exact absurd h2 (List.not_mem_nil r')
        · by_cases hc : ¬ r.token.bits \ (b ∩ r.token.bits) = ∅
          · rw [if_pos hc] at h2
            rw [List.mem_singleton.mp h2]
            intro _
            exact hc
          · rw [if_neg hc] at h2
            exact absurd h2 (List.not_mem_nil r')
      · exact ih _ (fun x hx => hacc x (List.mem_cons_of_mem r hx)) r' h1

theorem determinizeStep_nonempty (acc : List QueryResult) (x : QueryResult)
    (hacc : ∀ r ∈ acc, 0 < r.tape.numTapes → ¬ r.token.bits = ∅) :
    ∀ r ∈ determinizeStep acc x, 0 < r.tape.numTapes → ¬ r.token.bits = ∅ := by
  intro r hr
  unfold determinizeStep at hr
  by_cases h0 : x.tape.numTapes = 0
  · rw [if_pos h0] at hr
    rcases List.mem_append.mp hr with h1 | h1
    · exact hacc r h1
    · rw [List.mem_singleton.mp h1]
      intro hp
      rw [h0] at hp
      exact absurd hp (lt_irrefl 0)
  · rw [if_neg h0] at hr
    cases hd : dqFold x.tape x.matched x.next acc x.token.bits with
    | mk nr bits' =>
      rw [hd] at hr
      simp only at hr
      by_cases hb : ¬ bits' = ∅
      · rw [if_pos hb] at hr
        rcases List.mem_append.mp hr with h1 | h1
        · exact dqFold_nonempty x.tape x.matched x.next acc x.token.bits hacc r
            (by rw [hd]; exact h1)
        · rw [List.mem_singleton.mp h1]
          intro _
          exact hb
      · rw [if_neg hb] at hr
        exact dqFold_nonempty x.tape x.matched x.next acc x.token.bits hacc r
          (by rw [hd]; exact hr)

/-- Transitions leaving the determinizer on a real tape carry non-empty bit
sets. -/
theorem determinize_nonempty (l : List QueryResult) :
    ∀ r ∈ determinize l, 0 < r.tape.numTapes → ¬ r.token.bits = ∅ := by
  have main : ∀ (l acc : List QueryResult),
      (∀ r ∈ acc, 0 < r.tape.numTapes → ¬ r.token.bits = ∅) →
      ∀ r ∈ l.foldl determinizeStep acc, 0 < r.tape.numTapes → ¬ r.token.bits = ∅ := by
    intro l
    induction l with
    | nil => intro acc hacc r hr; exact hacc r hr
    | cons x l ih =>
      intro acc hacc r hr
      rw [List.foldl_cons] at hr
      exact ih (determinizeStep acc x) (determinizeStep_nonempty acc x hacc) r hr
  intro r hr
  exact main l [] (fun y hy => absurd hy (List.not_mem_nil y)) r hr

/-- The determinizer is the identity on an already pairwise-disjoint list of
real-tape transitions with non-empty bit sets. -/
theorem determinize_eq_self (l : List QueryResult)
    (hpos : ∀ r ∈ l, 0 < r.tape.numTapes)
    (hne : ∀ r ∈ l, ¬ r.token.bits = ∅)
    (hdisj : l.Pairwise SameNameDisjoint) :
    determinize l = l := by
  have main : ∀ (l acc : List QueryResult),
      (∀ r ∈ l, 0 < r.tape.numTapes) →
      (∀ r ∈ l, ¬ r.token.bits = ∅) → (∀ r ∈ acc, ¬ r.token.bits = ∅) →
      (∀ x ∈ l, ∀ r ∈ acc, x.tape.tapeName = r.tape.tapeName →
        x.token.bits ∩ r.token.bits = ∅) →
      l.Pairwise SameNameDisjoint →
      l.foldl determinizeStep acc = acc ++ l := by
    intro l
    induction l with
    | nil => intro acc _ _ _ _ _; simp
    | cons x l ih =>
      intro acc hlp hlb hab hcross hpw
      rw [List.foldl_cons]
      have hxpos : 0 < x.tape.numTapes := hlp x (List.mem_cons_self x l)
      rw [determinizeStep_disjoint_id acc x (Nat.pos_iff_ne_zero.mp hxpos)
        (hlb x (List.mem_cons_self x l))
        (fun r hr hn => hcross x (List.mem_cons_self x l) r hr hn) hab]
      rcases List.pairwise_cons.mp hpw with ⟨hx, hpw'⟩
      rw [ih (acc ++ [x])
        (fun r hr => hlp r (List.mem_cons_of_mem x hr))
        (fun r hr => hlb r (List.mem_cons_of_mem x hr))
        (by
          intro r hr
          rcases List.mem_append.mp hr with h1 | h1
          · exact hab r h1
          · rw [List.mem_singleton.mp h1]
            exact hlb x (List.mem_cons_self x l))
        (by
          intro y hy r hr hname
          rcases List.mem_append.mp hr with h1 | h1
          · exact hcross y (List.mem_cons_of_mem x hy) r h1 hname
          · rw [List.mem_singleton.mp h1] at hname ⊢
            rw [Finset.inter_comm]
            exact hx y hy hxpos (hlp y (List.mem_cons_of_mem x hy)) hname.symm)
        hpw']
      simp
  have := main l [] hpos hne (fun y hy => absurd hy (List.not_mem_nil y))
    (fun x _ r hr => absurd hr (List.not_mem_nil r)) hdisj
  rw [determinize, this]
  simp

/-- A `dQuery` on a real collection is a fixed point of the determinizer. -/
theorem determinize_dQuery_idem (s : State) (tape : Tape) (target : Token)
    (stk : CounterStack) (rs : List QueryResult) (hpos : 0 < tape.numTapes)
    (h : s.dQuery tape target stk = some rs) : determinize rs = rs := by
  unfold State.dQuery at h
  cases hn : s.ndQuery tape target stk with
  | none => rw [hn] at h; simp at h
  | some l =>
    rw [hn] at h
    simp only [Option.map_some'] at h
    injection h with h
    have hl : ∀ r ∈ l, 0 < r.tape.numTapes := by
      intro r hr
      rcases ndQuery_tape_origin s tape target stk l hn r hr with he | ⟨hp, _⟩
      · rw [he]
        exact hpos
      · exact hp
    rw [← h]
    apply determinize_eq_self
    · intro r hr
      obtain ⟨r0, hr0, he⟩ := determinize_tapes l r hr
      rw [he]
      exact hl r0 hr0
    · intro r hr
      apply determinize_nonempty l r hr
      obtain ⟨r0, hr0, he⟩ := determinize_tapes l r hr
      rw [he]
      exact hl r0 hr0
    · exact determinize_disjoint l hl

/-- Prefixing an accepting state that yields no transitions (the annotated
empty literal) is invisible to `dQuery`: the concat forwards the second
child's transitions unwrapped, and re-determinizing them is the identity. -/
theorem dQuery_concat_accepting_left (E X : State) (tape : Tape) (target : Token)
    (stk : CounterStack) (hpos : 0 < tape.numTapes)
    (haccE : E.accepting stk = true)
    (hE : E.dQuery tape target stk = some []) :
    (State.concat E X).dQuery tape target stk = X.dQuery tape target stk := by
  have hnd := ndQuery_concat_run E X tape target stk [] hE
  rw [if_neg (by simp)] at hnd
  rw [if_pos haccE] at hnd
  cases hX : X.dQuery tape target stk with
  | none =>
    rw [hX] at hnd
    simp only [Option.none_bind'] at hnd
    unfold State.dQuery
    rw [hnd]
    simp only [Option.map_none']
  | some rs =>
    rw [hX] at hnd
    simp only [Option.some_bind', List.map_nil, List.nil_append] at hnd
    unfold State.dQuery
    rw [hnd]
    simp only [Option.map_some']
    rw [determinize_dQuery_idem X tape target stk rs hpos hX]

/-- Two states with the same acceptance and the same query answers drive the
breadth-first loop identically. -/
theorem generateAux_congr_single (tapes : Tape) (stk : CounterStack) (s0 s1 : State)
    (hacc : ∀ out, acceptOutputs stk out s0 = acceptOutputs stk out s1)
    (hdq : s0.dQuery tapes ANY_CHAR stk = s1.dQuery tapes ANY_CHAR stk) :
    ∀ (fuel : Nat) (out : MultiTapeOutput),
      (generateAux tapes stk [(out, s0)] fuel).1 =
      (generateAux tapes stk [(out, s1)] fuel).1 := by
  intro fuel out
  cases fuel with
  | zero => rfl
  | succ fuel =>
    have hgs : genStep tapes stk [(out, s0)] = genStep tapes stk [(out, s1)] := by
      rw [genStep_cons, genStep_cons, hacc out, hdq]
    cases hg : genStep tapes stk [(out, s1)] with
    | none => simp [generateAux, hgs, hg]
    | some pr =>
      cases pr with
      | mk outs nq => simp [generateAux, hgs, hg]

theorem flatMap_ite_single {α β : Type} (l : List α) (p : α → Bool) (f : α → β) :
    l.flatMap (fun a => if p a then [f a] else []) = (l.filter p).map f := by
  induction l with
  | nil => rfl
  | cons a l ih =>
    rw [List.flatMap_cons, List.filter_cons]
    by_cases h : p a
    · rw [if_pos h, if_pos h, List.map_cons, ih]
      rfl
    · rw [if_neg h, if_neg h, ih]
      rfl

theorem filterMap_ite_some {α β : Type} (l : List α) (p : α → Bool) (f : α → Option β) :
    l.filterMap (fun a => if p a then f a else none) =
      (l.filter p).filterMap f := by
  induction l with
  | nil => rfl
  | cons a l ih =>
    rw [List.filterMap_cons, List.filter_cons]
    by_cases h : p a
    · rw [if_pos h, if_pos h, List.filterMap_cons, ih]
    · rw [if_neg h, if_neg h, ih]

/-- The transitions of a `dQuery` on a real collection sit on real tapes,
carry non-empty bit sets and are pairwise disjoint per tape name. -/
theorem dQuery_results_wf (s : State) (tape : Tape) (target : Token)
    (stk : CounterStack) (rs : List QueryResult) (hpos : 0 < tape.numTapes)
    (h : s.dQuery tape target stk = some rs) :
    (∀ r ∈ rs, 0 < r.tape.numTapes) ∧ (∀ r ∈ rs, ¬ r.token.bits = ∅) ∧
      rs.Pairwise SameNameDisjoint := by
  unfold State.dQuery at h
  cases hn : s.ndQuery tape target stk with
  | none => rw [hn] at h; simp at h
  | some l =>
    rw [hn] at h
    simp only [Option.map_some'] at h
    injection h with h
    have hl : ∀ r ∈ l, 0 < r.tape.numTapes := by
      intro r hr
      rcases ndQuery_tape_origin s tape target stk l hn r hr with he | ⟨hp, _⟩
      · rw [he]
        exact hpos
      · exact hp
    have hp1 : ∀ r ∈ rs, 0 < r.tape.numTapes := by
      intro r hr
      rw [← h] at hr
      obtain ⟨r0, hr0, he⟩ := determinize_tapes l r hr
      rw [he]
      exact hl r0 hr0
    refine ⟨hp1, ?_, ?_⟩
    · intro r hr
      have := determinize_nonempty l r (by rw [h]; exact hr)
      exact this (hp1 r hr)
    · rw [← h]
      exact determinize_disjoint l hl

/-- Appending an accepting state that yields no transitions: the concat
keeps exactly the first child's matched transitions, with wrapped
successors. -/
theorem dQuery_concat_accepting_right (X E : State) (tape : Tape) (target : Token)
    (stk : CounterStack) (hpos : 0 < tape.numTapes)
    (hE : E.dQuery tape target stk = some []) :
    (State.concat X E).dQuery tape target stk =
      (X.dQuery tape target stk).map (fun rs =>
        (rs.filter (fun r => r.matched)).map
          (fun r => ⟨r.tape, r.token, r.matched, .concat r.next E⟩)) := by
  cases hX : X.dQuery tape target stk with
  | none =>
    unfold State.dQuery at hX ⊢
    cases hn : X.ndQuery tape target stk with
    | none =>
      simp [State.ndQuery, hn, Option.bind_eq_bind', Option.none_bind']
    | some l =>
      rw [hn] at hX
      simp at hX
  | some rs =>
    obtain ⟨hrsp, hrsb, hrsd⟩ := dQuery_results_wf X tape target stk rs hpos hX
    have hwf : ∀ (part : List QueryResult),
        part = (rs.filter (fun r => r.matched)).map
          (fun r => (⟨r.tape, r.token, r.matched, .concat r.next E⟩ : QueryResult)) →
        determinize part = part := by
      intro part hpart
      rw [hpart]
      apply determinize_eq_self
      · intro r hr
        obtain ⟨r0, hr0, he⟩ := List.mem_map.mp hr
        rw [← he]
        exact hrsp r0 (List.mem_of_mem_filter hr0)
      · intro r hr
        obtain ⟨r0, hr0, he⟩ := List.mem_map.mp hr
        rw [← he]
        exact hrsb r0 (List.mem_of_mem_filter hr0)
      · apply List.Pairwise.map
          (S := SameNameDisjoint)
        · intro a b hab
          exact hab
        · exact List.Pairwise.sublist (List.filter_sublist rs) hrsd
    have hnd := ndQuery_concat_run X E tape target stk rs hX
    by_cases hany : rs.any (fun r => !r.matched) = true
    · rw [if_pos hany, hE] at hnd
      simp only [Option.some_bind', List.map_nil, List.append_nil] at hnd
      have hflat : rs.flatMap (fun r =>
          if r.matched then
            [(⟨r.tape, r.token, r.matched, .concat r.next E⟩ : QueryResult)]
          else ([] : List QueryResult)) =
          (rs.filter (fun r => r.matched)).map
            (fun r => ⟨r.tape, r.token, r.matched, .concat r.next E⟩) :=
        flatMap_ite_single rs (fun r => r.matched)
          (fun r => (⟨r.tape, r.token, r.matched, .concat r.next E⟩ : QueryResult))
      by_cases haccX : X.accepting stk
      · rw [if_pos (by simp [haccX])] at hnd
        unfold State.dQuery
        rw [hnd]
        simp only [Option.map_some', List.append_nil]
        rw [hflat, hwf _ rfl]
      · rw [if_neg (by simp [haccX])] at hnd
        unfold State.dQuery
        rw [hnd]
        simp only [Option.map_some']
        rw [hflat, hwf _ rfl]
    · have hallm : ∀ r ∈ rs, r.matched = true := by
        intro r hr
        rcases Bool.eq_false_or_eq_true r.matched with ht | hf
        · exact ht
        · exact absurd (List.any_eq_true.mpr ⟨r, hr, by rw [hf]; rfl⟩) hany
      have hfilter : rs.filter (fun r => r.matched) = rs :=
        List.filter_eq_self.mpr (fun r hr => by rw [hallm r hr])
      rw [if_neg hany] at hnd
      by_cases haccX : X.accepting stk
      · rw [if_pos haccX, hE] at hnd
        simp only [Option.some_bind', List.append_nil] at hnd
        unfold State.dQuery
        rw [hnd]
        simp only [Option.map_some']
        rw [hfilter, hwf _ (by rw [hfilter])]
      · rw [if_neg haccX] at hnd
        unfold State.dQuery
        rw [hnd]
        simp only [Option.map_some']
        rw [hfilter, hwf _ (by rw [hfilter])]

theorem matchedSuccessors_eq (out : MultiTapeOutput) (rs : List QueryResult) :
    matchedSuccessors out rs = (rs.filter (fun r => r.matched)).map
      (fun r => (out.add r.tape r.token, r.next)) := by
  induction rs with
  | nil => rfl
  | cons r rs ih =>
    unfold matchedSuccessors at ih ⊢
    rw [List.filterMap_cons, List.filter_cons]
    by_cases h : r.matched
    · rw [if_pos h, if_pos h, ih, List.map_cons]
    · rw [if_neg h, if_neg h, ih]

theorem matchedSuccessors_wrap (out : MultiTapeOutput) (E : State)
    (rs : List QueryResult) :
    matchedSuccessors out ((rs.filter (fun r => r.matched)).map
      (fun r => (⟨r.tape, r.token, r.matched, .concat r.next E⟩ : QueryResult))) =
    (matchedSuccessors out rs).map (fun p => (p.1, State.concat p.2 E)) := by
  rw [matchedSuccessors_eq, matchedSuccessors_eq]
  have hall : ∀ x ∈ (rs.filter (fun r => r.matched)).map
      (fun r => (⟨r.tape, r.token, r.matched, .concat r.next E⟩ : QueryResult)),
      x.matched = true := by
    intro x hx
    obtain ⟨r, hr, he⟩ := List.mem_map.mp hx
    rw [← he]
    exact (List.mem_filter.mp hr).2
  rw [List.filter_eq_self.mpr hall]
  rw [List.map_map, List.map_map]
  rfl

theorem genStep_concat_wrap (tapes : Tape) (stk : CounterStack) (E : State)
    (hpos : 0 < tapes.numTapes)
    (haccE : E.accepting stk = true)
    (hE : E.dQuery tapes ANY_CHAR stk = some []) :
    ∀ q : List (MultiTapeOutput × State),
      genStep tapes stk (q.map (fun p => (p.1, State.concat p.2 E))) =
        (genStep tapes stk q).map (fun pr =>
          (pr.1, pr.2.map (fun p => (p.1, State.concat p.2 E)))) := by
  intro q
  induction q with
  | nil => rfl
  | cons p q ih =>
    cases p with
    | mk out s =>
      rw [List.map_cons]
      rw [genStep_cons, genStep_cons]
      have haccs : acceptOutputs stk out (State.concat s E) = acceptOutputs stk out s := by
        unfold acceptOutputs
        have hacc2 : (State.concat s E).accepting stk =
            (s.accepting stk && E.accepting stk) := rfl
        rw [hacc2, haccE, Bool.and_true]
      rw [haccs, dQuery_concat_accepting_right s E tapes ANY_CHAR stk hpos hE, ih]
      cases ha : acceptOutputs stk out s with
      | none => simp
      | some o =>
        simp only [Option.some_bind']
        cases hd : s.dQuery tapes ANY_CHAR stk with
        | none => simp
        | some rs =>
          simp only [Option.map_some', Option.some_bind']
          cases hg : genStep tapes stk q with
          | none => simp
          | some pr =>
            simp only [Option.map_some']
            rw [matchedSuccessors_wrap out E rs]
            simp [List.map_append]

/-- Appending the accepting empty literal wraps every queue state in
`Concat(·, E)` without changing any emitted record. -/
theorem generateAux_concat_right (tapes : Tape) (stk : CounterStack) (E : State)
    (hpos : 0 < tapes.numTapes)
    (haccE : E.accepting stk = true)
    (hE : E.dQuery tapes ANY_CHAR stk = some []) :
    ∀ (fuel : Nat) (q : List (MultiTapeOutput × State)),
      (generateAux tapes stk (q.map (fun p => (p.1, State.concat p.2 E))) fuel).1 =
      (generateAux tapes stk q fuel).1 := by
  intro fuel
  induction fuel with
  | zero => intro q; rfl
  | succ fuel ih =>
    intro q
    by_cases he : q.isEmpty
    · rw [List.isEmpty_iff.mp he]
      rfl
    · have he' : ¬ (q.map (fun p => (p.1, State.concat p.2 E))).isEmpty = true := by
        intro hcon
        rw [List.isEmpty_iff] at hcon
        rw [List.map_eq_nil_iff.mp hcon] at he
        exact he rfl
      have hgs := genStep_concat_wrap tapes stk E hpos haccE hE q
      cases hg : genStep tapes stk q with
      | none =>
        rw [hg] at hgs
        simp only [Option.map_none'] at hgs
        simp [generateAux, he, he', hgs, hg]
      | some pr =>
        cases pr with
        | mk outs nq =>
          rw [hg] at hgs
          simp only [Option.map_some'] at hgs
          have hrec := ih nq
          cases hga : generateAux tapes stk
              (nq.map (fun p => (p.1, State.concat p.2 E))) fuel with
          | mk r1 rest1 =>
            cases hgb : generateAux tapes stk nq fuel with
            | mk r2 rest2 =>
              have hr12 : r1 = r2 := by
                rw [hga, hgb] at hrec
                exact hrec
              cases r2 with
              | none => simp [generateAux, he, he', hgs, hg, hga, hgb, hr12]
              | some rr => simp [generateAux, he, he', hgs, hg, hga, hgb, hr12]

theorem collectVocab_concat (c1 c2 : State) (names : List String) (vocab : List Char) :
    collectVocab (.concat c1 c2) names vocab =
      (collectVocab c1 names vocab).bind (fun p1 =>
        (collectVocab c2 p1.2.1 p1.2.2).bind (fun p2 =>
          some (.concat p1.1 p2.1, p2.2.1, p2.2.2))) := rfl

theorem collectVocab_union (c1 c2 : State) (names : List String) (vocab : List Char) :
    collectVocab (.union c1 c2) names vocab =
      (collectVocab c1 names vocab).bind (fun p1 =>
        (collectVocab c2 p1.2.1 p1.2.2).bind (fun p2 =>
          some (.union p1.1 p2.1, p2.2.1, p2.2.2))) := rfl

/-- Collecting the vocabulary of an empty literal succeeds with no tokens and
no new characters: only the tape name is registered. -/
theorem collectVocab_empty_lit (T : String) (names : List String) (v : List Char) :
    collectVocab (.literal T [] [] false) names v =
      some (.literal T [] [] true,
        (if T ∈ names then names else names ++ [T]), v) := by
  unfold collectVocab TapeCollection.tokenize StringTape.tokenize
  rw [if_neg (show ¬ T ≠ T from by simp)]
  simp [tokenizeGo, Option.bind_eq_bind', Option.some_bind', Option.pure_def]

/-- The registered tape names are the only part of `collectVocab`'s input the
result state and the vocabulary do not depend on. -/
theorem collectVocab_names_indep (s : State) :
    ∀ (names1 names2 : List String) (v : List Char),
      Option.map (fun p => (p.1, p.2.2)) (collectVocab s names1 v) =
      Option.map (fun p => (p.1, p.2.2)) (collectVocab s names2 v) := by
  have hbin : ∀ (c1 c2 : State)
      (mk : State → State → State),
      (∀ (names1 names2 : List String) (v : List Char),
        Option.map (fun p => (p.1, p.2.2)) (collectVocab c1 names1 v) =
        Option.map (fun p => (p.1, p.2.2)) (collectVocab c1 names2 v)) →
      (∀ (names1 names2 : List String) (v : List Char),
        Option.map (fun p => (p.1, p.2.2)) (collectVocab c2 names1 v) =
        Option.map (fun p => (p.1, p.2.2)) (collectVocab c2 names2 v)) →
      ∀ (names1 names2 : List String) (v : List Char),
        Option.map (fun p => (p.1, p.2.2))
          ((collectVocab c1 names1 v).bind (fun p1 =>
            (collectVocab c2 p1.2.1 p1.2.2).bind (fun p2 =>
              some (mk p1.1 p2.1, p2.2.1, p2.2.2)))) =
        Option.map (fun p => (p.1, p.2.2))
          ((collectVocab c1 names2 v).bind (fun p1 =>
            (collectVocab c2 p1.2.1 p1.2.2).bind (fun p2 =>
              some (mk p1.1 p2.1, p2.2.1, p2.2.2)))) := by
    intro c1 c2 mk ih1 ih2 names1 names2 v
    have h1 := ih1 names1 names2 v
    cases h1a : collectVocab c1 names1 v with
    | none =>
      rw [h1a] at h1
      simp only [Option.map_none'] at h1
      cases h1c : collectVocab c1 names2 v with
      | none => simp [h1a, h1c]
      | some p => rw [h1c] at h1; simp at h1
    | some p1 =>
      rw [h1a] at h1
      simp only [Option.map_some'] at h1
      cases h1c : collectVocab c1 names2 v with
      | none => rw [h1c] at h1; simp at h1
      | some p2 =>
        rw [h1c] at h1
        simp only [Option.map_some'] at h1
        injection h1 with h1
        rw [Prod.mk.injEq] at h1
        obtain ⟨hstate, hvocab⟩ := h1
        simp only [Option.some_bind']
        rw [← hvocab]
        simp only [← hstate]
        have h2 := ih2 p1.2.1 p2.2.1 p1.2.2
        cases h2a : collectVocab c2 p1.2.1 p1.2.2 with
        | none =>
          rw [h2a] at h2
          simp only [Option.map_none'] at h2
          cases h2c : collectVocab c2 p2.2.1 p1.2.2 with
          | none => simp
          | some q => rw [h2c] at h2; simp at h2
        | some q1 =>
          rw [h2a] at h2
          simp only [Option.map_some'] at h2
          cases h2c : collectVocab c2 p2.2.1 p1.2.2 with
          | none => rw [h2c] at h2; simp at h2
          | some q2 =>
            rw [h2c] at h2
            simp only [Option.map_some'] at h2
            injection h2 with h2
            rw [Prod.mk.injEq] at h2
            obtain ⟨hstate2, hvocab2⟩ := h2
            simp only [Option.some_bind', Option.map_some']
            rw [hstate2, hvocab2]
  intro names1 names2 v
  induction s generalizing names1 names2 v with
  | literal T text tokens collected =>
    unfold collectVocab TapeCollection.tokenize
    cases htok : StringTape.tokenize T v T text with
    | none => simp [htok]
    | some p =>
      cases p with
      | mk toks v2 => simp [htok, Option.bind_eq_bind', Option.some_bind', Option.pure_def]
  | anyChar n => simp [collectVocab]
  | trivial => simp [collectVocab]
  | concat c1 c2 ih1 ih2 =>
    rw [collectVocab_concat, collectVocab_concat]
    exact hbin c1 c2 State.concat ih1 ih2 names1 names2 v
  | union c1 c2 ih1 ih2 =>
    rw [collectVocab_union, collectVocab_union]
    exact hbin c1 c2 State.union ih1 ih2 names1 names2 v
  | join c1 c2 ih1 ih2 =>
    rw [collectVocab_join, collectVocab_join]
    exact hbin c1 c2 State.join ih1 ih2 names1 names2 v

/-- `collectVocab` only ever appends tape names; the annotated state keeps
the same names and stays in the literal/concat/union fragment. -/
theorem collectVocab_names (s : State) :
    ∀ (names : List String) (v : List Char) (s' : State) (ns : List String)
      (v' : List Char),
      collectVocab s names v = some (s', ns, v') →
      (∀ n ∈ names, n ∈ ns) ∧ (LCU s = true → ∀ n ∈ stateNames s, n ∈ ns) ∧
        stateNames s' = stateNames s ∧ (LCU s = true → LCU s' = true) := by
  induction s with
  | literal T text tokens collected =>
    intro names v s' ns v' h
    unfold collectVocab TapeCollection.tokenize at h
    cases htok : StringTape.tokenize T v T text with
    | none => rw [htok] at h; simp at h
    | some p =>
      cases p with
      | mk toks v2 =>
        rw [htok] at h
        simp only [Option.bind_eq_bind', Option.some_bind', Option.pure_def] at h
        injection h with h1
        rw [Prod.mk.injEq] at h1
        obtain ⟨h1, h23⟩ := h1
        rw [Prod.mk.injEq] at h23
        obtain ⟨h2, h3⟩ := h23
        refine ⟨?_, ?_, ?_, ?_⟩
        · intro n hn
          rw [← h2]
          by_cases hT : T ∈ names
          · rw [if_pos hT]
            exact hn
          · rw [if_neg hT]
            exact List.mem_append_left _ hn
        · intro _ n hn
          rw [stateNames] at hn
          rw [List.mem_singleton.mp hn, ← h2]
          by_cases hT : T ∈ names
          · rw [if_pos hT]
            exact hT
          · rw [if_neg hT]
            exact List.mem_append_right _ (List.mem_singleton.mpr rfl)
        · rw [← h1]
          rfl
        · intro _
          rw [← h1]
          rfl
  | anyChar n =>
    intro names v s' ns v' h
    injection h with h1
    rw [Prod.mk.injEq] at h1
    obtain ⟨hA, hB⟩ := h1
    rw [Prod.mk.injEq] at hB
    obtain ⟨hB, hC⟩ := hB
    subst hA
    subst hB
    exact ⟨fun n hn => hn, fun hl => by simp [LCU] at hl, rfl, fun h => h⟩
  | trivial =>
    intro names v s' ns v' h
    injection h with h1
    rw [Prod.mk.injEq] at h1
    obtain ⟨hA, hB⟩ := h1
    rw [Prod.mk.injEq] at hB
    obtain ⟨hB, hC⟩ := hB
    subst hA
    subst hB
    exact ⟨fun n hn => hn, fun hl => by simp [LCU] at hl, rfl, fun h => h⟩
  | concat c1 c2 ih1 ih2 =>
    intro names v s' ns v' h
    rw [collectVocab_concat] at h
    cases h1 : collectVocab c1 names v with
    | none => rw [h1] at h; simp at h
    | some p1 =>
      rw [h1] at h
      simp only [Option.some_bind'] at h
      cases h2 : collectVocab c2 p1.2.1 p1.2.2 with
      | none => rw [h2] at h; simp at h
      | some p2 =>
        rw [h2] at h
        simp only [Option.some_bind'] at h
        injection h with ha
        rw [Prod.mk.injEq] at ha
        obtain ⟨ha, hb⟩ := ha
        rw [Prod.mk.injEq] at hb
        obtain ⟨hb, hc⟩ := hb
        obtain ⟨m1, sn1, se1, lcu1⟩ := ih1 names v p1.1 p1.2.1 p1.2.2 (by rw [h1])
        obtain ⟨m2, sn2, se2, lcu2⟩ := ih2 p1.2.1 p1.2.2 p2.1 p2.2.1 p2.2.2 (by rw [h2])
        rw [← ha, ← hb]
        refine ⟨fun n hn => m2 n (m1 n hn), ?_, ?_, ?_⟩
        · intro hl n hn
          rw [LCU] at hl
          rcases Bool.and_eq_true_iff.mp hl with ⟨hl1, hl2⟩
          rw [stateNames] at hn
          rcases List.mem_append.mp hn with hh | hh
          · exact m2 n (sn1 hl1 n hh)
          · exact sn2 hl2 n hh
        · rw [stateNames, stateNames, se1, se2]
        · intro hl
          rw [LCU] at hl ⊢
          rcases Bool.and_eq_true_iff.mp hl with ⟨hl1, hl2⟩
          rw [lcu1 hl1, lcu2 hl2]
          rfl
  | union c1 c2 ih1 ih2 =>
    intro names v s' ns v' h
    rw [collectVocab_union] at h
    cases h1 : collectVocab c1 names v with
    | none => rw [h1] at h; simp at h
    | some p1 =>
      rw [h1] at h
      simp only [Option.some_bind'] at h
      cases h2 : collectVocab c2 p1.2.1 p1.2.2 with
      | none => rw [h2] at h; simp at h
      | some p2 =>
        rw [h2] at h
        simp only [Option.some_bind'] at h
        injection h with ha
        rw [Prod.mk.injEq] at ha
        obtain ⟨ha, hb⟩ := ha
        rw [Prod.mk.injEq] at hb
        obtain ⟨hb, hc⟩ := hb
        obtain ⟨m1, sn1, se1, lcu1⟩ := ih1 names v p1.1 p1.2.1 p1.2.2 (by rw [h1])
        obtain ⟨m2, sn2, se2, lcu2⟩ := ih2 p1.2.1 p1.2.2 p2.1 p2.2.1 p2.2.2 (by rw [h2])
        rw [← ha, ← hb]
        refine ⟨fun n hn => m2 n (m1 n hn), ?_, ?_, ?_⟩
        · intro hl n hn
          rw [LCU] at hl
          rcases Bool.and_eq_true_iff.mp hl with ⟨hl1, hl2⟩
          rw [stateNames] at hn
          rcases List.mem_append.mp hn with hh | hh
          · exact m2 n (sn1 hl1 n hh)
          · exact sn2 hl2 n hh
        · rw [stateNames, stateNames, se1, se2]
        · intro hl
          rw [LCU] at hl ⊢
          rcases Bool.and_eq_true_iff.mp hl with ⟨hl1, hl2⟩
          rw [lcu1 hl1, lcu2 hl2]
          rfl
  | join c1 c2 ih1 ih2 =>
    intro names v s' ns v' h
    rw [collectVocab_join] at h
    cases h1 : collectVocab c1 names v with
    | none => rw [h1] at h; simp at h
    | some p1 =>
      rw [h1] at h
      simp only [Option.some_bind'] at h
      cases h2 : collectVocab c2 p1.2.1 p1.2.2 with
      | none => rw [h2] at h; simp at h
      | some p2 =>
        rw [h2] at h
        simp only [Option.some_bind'] at h
        injection h with ha
        rw [Prod.mk.injEq] at ha
        obtain ⟨ha, hb⟩ := ha
        rw [Prod.mk.injEq] at hb
        obtain ⟨hb, hc⟩ := hb
        obtain ⟨m1, sn1, se1, lcu1⟩ := ih1 names v p1.1 p1.2.1 p1.2.2 (by rw [h1])
        obtain ⟨m2, sn2, se2, lcu2⟩ := ih2 p1.2.1 p1.2.2 p2.1 p2.2.1 p2.2.2 (by rw [h2])
        rw [← ha, ← hb]
        refine ⟨fun n hn => m2 n (m1 n hn), ?_, ?_, ?_⟩
        · intro hl
          simp [LCU] at hl
        · rw [stateNames, stateNames, se1, se2]
        · intro hl
          simp [LCU] at hl

/-- C5 (amended): for states X built from Lit, Seq and Uni, sequencing with
the empty literal on either side leaves generate unchanged (including the
final shared vocabulary). -/
theorem generate_concat_empty_identity (T : String) (X : State) (hX : LCU X = true) :
    State.generate (.concat (Lit T []) X) 4 1000 [] = State.generate X 4 1000 [] ∧
    State.generate (.concat X (Lit T [])) 4 1000 [] = State.generate X 4 1000 [] := by
  cases hcX2 : collectVocab X [] [] with
  | none =>
    constructor
    · have hind := collectVocab_names_indep X [T] [] []
      rw [hcX2] at hind
      simp only [Option.map_none'] at hind
      cases hcX1 : collectVocab X [T] [] with
      | some p => rw [hcX1] at hind; simp at hind
      | none =>
        unfold State.generate
        rw [collectVocab_concat, show (Lit T []) = State.literal T [] [] false from rfl,
          collectVocab_empty_lit, if_neg (List.not_mem_nil T), List.nil_append]
        simp only [Option.bind_eq_bind', Option.some_bind']
        rw [hcX1, hcX2]
        rfl
    · unfold State.generate
      rw [collectVocab_concat]
      simp only [Option.bind_eq_bind']
      rw [hcX2]
      rfl
  | some p =>
    obtain ⟨X', ns2, v⟩ := p
    obtain ⟨_, hnames2, hsn2, hlcu2⟩ := collectVocab_names X [] [] X' ns2 v hcX2
    have hLX' : LCU X' = true := hlcu2 hX
    have hqinv : ∀ p ∈ [(MultiTapeOutput.empty, X')],
        LCU p.2 = true ∧ ∀ n ∈ stateNames p.2, n ∈ stateNames X' := by
      intro p hp
      rw [List.mem_singleton.mp hp]
      exact ⟨hLX', fun n hn => hn⟩
    constructor
    · have hind := collectVocab_names_indep X [T] [] []
      rw [hcX2] at hind
      simp only [Option.map_some'] at hind
      cases hcX1 : collectVocab X [T] [] with
      | none => rw [hcX1] at hind; simp at hind
      | some p1 =>
        obtain ⟨X1, ns1, v1⟩ := p1
        rw [hcX1] at hind
        simp only [Option.map_some'] at hind
        injection hind with hind
        rw [Prod.mk.injEq] at hind
        obtain ⟨hX1e, hv1e⟩ := hind
        rw [hX1e, hv1e] at hcX1
        obtain ⟨hmono1, hnames1, hsn1, _⟩ := collectVocab_names X [T] [] X' ns1 v hcX1
        have hT1 : T ∈ ns1 := hmono1 T (List.mem_singleton.mpr rfl)
        have hpos1 : 0 < (Tape.collection ns1 v).numTapes := by
          show 0 < ns1.length
          exact List.length_pos.mpr (List.ne_nil_of_mem hT1)
        have hEdq : (State.literal T [] [] true).dQuery (.collection ns1 v) ANY_CHAR
            (CounterStack.init 4) = some [] := by
          unfold State.dQuery
          rw [ndQuery_literal_nil_eq T [] true (.collection ns1 v) ANY_CHAR
            (CounterStack.init 4) (.stringTape T v) (by simp [Tape.matchTape, hT1])]
          rfl
        have hdqEq := dQuery_concat_accepting_left (.literal T [] [] true) X'
          (.collection ns1 v) ANY_CHAR (CounterStack.init 4) hpos1 rfl hEdq
        have hstep := generateAux_congr_single (.collection ns1 v) (CounterStack.init 4)
          (State.concat (.literal T [] [] true) X') X' (fun out => rfl) hdqEq 1000
          MultiTapeOutput.empty
        have hirrel := generateAux_names_irrel ns1 ns2 v (CounterStack.init 4)
          (stateNames X')
          (fun n hn => hnames1 hX n (hsn2 ▸ hn))
          (fun n hn => hnames2 hX n (hsn2 ▸ hn))
          1000 [(MultiTapeOutput.empty, X')] hqinv
        unfold State.generate
        rw [collectVocab_concat, show (Lit T []) = State.literal T [] [] false from rfl,
          collectVocab_empty_lit, if_neg (List.not_mem_nil T), List.nil_append]
        simp only [Option.bind_eq_bind', Option.some_bind']
        rw [hcX1, hcX2]
        simp only [Option.some_bind']
        cases hga : generateAux (.collection ns1 v) (CounterStack.init 4)
            [(MultiTapeOutput.empty,
              State.concat (.literal T [] [] true) X')] 1000 with
        | mk r1 rest1 =>
          cases hgb : generateAux (.collection ns2 v) (CounterStack.init 4)
              [(MultiTapeOutput.empty, X')] 1000 with
          | mk r2 rest2 =>
            have hr12 : r1 = r2 := by
              rw [hga] at hstep
              rw [hirrel, hgb] at hstep
              exact hstep
            rw [hr12]
    · have hns3 : collectVocab (.concat X (Lit T [])) [] [] =
          some (.concat X' (.literal T [] [] true),
            (if T ∈ ns2 then ns2 else ns2 ++ [T]), v) := by
        rw [collectVocab_concat, hcX2]
        simp only [Option.some_bind']
        rw [show (Lit T []) = State.literal T [] [] false from rfl,
          collectVocab_empty_lit]
        rfl
      have hT3 : T ∈ (if T ∈ ns2 then ns2 else ns2 ++ [T]) := by
        by_cases hT : T ∈ ns2
        · rw [if_pos hT]
          exact hT
        · rw [if_neg hT]
          exact List.mem_append_right _ (List.mem_singleton.mpr rfl)
      have hsub23 : ∀ n ∈ ns2, n ∈ (if T ∈ ns2 then ns2 else ns2 ++ [T]) := by
        intro n hn
        by_cases hT : T ∈ ns2
        · rw [if_pos hT]
          exact hn
        · rw [if_neg hT]
          exact List.mem_append_left _ hn
      have hpos3 : 0 < (Tape.collection (if T ∈ ns2 then ns2 else ns2 ++ [T]) v).numTapes := by
        show 0 < (if T ∈ ns2 then ns2 else ns2 ++ [T]).length
        exact List.length_pos.mpr (List.ne_nil_of_mem hT3)
      have hEdq3 : (State.literal T [] [] true).dQuery
          (.collection (if T ∈ ns2 then ns2 else ns2 ++ [T]) v) ANY_CHAR
          (CounterStack.init 4) = some [] := by
        unfold State.dQuery
        rw [ndQuery_literal_nil_eq T [] true _ ANY_CHAR (CounterStack.init 4)
          (.stringTape T v) (by simp [Tape.matchTape, hT3])]
        rfl
      have hwrap := generateAux_concat_right
        (.collection (if T ∈ ns2 then ns2 else ns2 ++ [T]) v) (CounterStack.init 4)
        (.literal T [] [] true) hpos3 rfl hEdq3 1000 [(MultiTapeOutput.empty, X')]
      have hirrel2 := generateAux_names_irrel (if T ∈ ns2 then ns2 else ns2 ++ [T]) ns2 v
        (CounterStack.init 4) (stateNames X')
        (fun n hn => hsub23 n (hnames2 hX n (hsn2 ▸ hn)))
        (fun n hn => hnames2 hX n (hsn2 ▸ hn))
        1000 [(MultiTapeOutput.empty, X')] hqinv
      unfold State.generate
      rw [hns3, hcX2]
      simp only [Option.bind_eq_bind', Option.some_bind']
      cases hga : generateAux (.collection (if T ∈ ns2 then ns2 else ns2 ++ [T]) v)
          (CounterStack.init 4)
          [(MultiTapeOutput.empty, State.concat X' (.literal T [] [] true))] 1000 with
      | mk r1 rest1 =>
        cases hgb : generateAux (.collection ns2 v) (CounterStack.init 4)
            [(MultiTapeOutput.empty, X')] 1000 with
        | mk r2 rest2 =>
          have hr12 : r1 = r2 := by
            rw [show [(MultiTapeOutput.empty, State.concat X' (.literal T [] [] true))] =
              ([(MultiTapeOutput.empty, X')].map
                (fun p => (p.1, State.concat p.2 (.literal T [] [] true)))) from rfl] at hga
            rw [hga] at hwrap
            rw [hirrel2, hgb] at hwrap
            exact hwrap
          rw [hr12]

/-- Witness for generate_concat_empty_identity on a concrete union of two
literals. -/
theorem generate_concat_empty_identity_witness :
    State.generate (.concat (Lit "T" []) (.union (Lit "T" ['a']) (Lit "U" ['b'])))
        4 1000 [] =
      State.generate (.union (Lit "T" ['a']) (Lit "U" ['b'])) 4 1000 [] ∧
    State.generate (.concat (.union (Lit "T" ['a']) (Lit "U" ['b'])) (Lit "T" []))
        4 1000 [] =
      State.generate (.union (Lit "T" ['a']) (Lit "U" ['b'])) 4 1000 [] := by
  exact generate_concat_empty_identity "T"
    (.union (Lit "T" ['a']) (Lit "U" ['b'])) (by decide)

end StateMachine
